/-
Verification of the email-metrics pipeline (classifier / ingester / dashboard).

This file gives a shallow embedding, in Lean 4, of the algorithmic core of the
repository:

* `Ingester.*`   models `src/daily/scripts/ingest_and_update.py`
  (`IntelligentIngester.merge_with_existing`, `load_existing_database`,
  `calculate_business_minutes`, the matcher loop in `process_email_events`);
* `Classifier.*` models `src/daily/scripts/email_classifier.py`
  (`EmailClassifier.save_to_unified_json` with its inner `ensure_day`,
  `find_matching_event`, `calculate_business_minutes`);
* `Dashboard.*`  models `src/daily/scripts/generate_dashboard.py`
  (`calculate_response_time_by_hour`, `calculate_response_time_percentiles`).

Modelling conventions:
* Python `datetime` instants are integers counting microseconds from the epoch
  (1970-01-01 00:00:00, a Thursday, `weekday() == 3`); a calendar day is the
  floor division of the instant by `86400000000`.
* JSON/dict data is modelled by records; a key that is absent and a key that is
  present with value `null` are both modelled as `none` (every reader in the
  repository accesses these keys with `.get(...)`, which identifies the two).
* Python dicts keyed by date strings are modelled as association lists in
  insertion order; date strings are modelled by an arbitrary linearly ordered
  key type `D` (lexicographic order on `YYYY-MM-DD` strings is a linear order).
* `round(x, n)` on Python floats is modelled as exact rounding of rationals to
  the nearest multiple of `10^-n` (Python uses binary floats and ties-to-even;
  the difference surfaces only at exact ties, which no theorem below depends
  on).
-/
import Mathlib

namespace EmailProject

/-! ## Rounding, means and medians -/

/-- Model of Python `round(x, 2)`: round to the nearest multiple of 1/100. -/
def round2 (q : ℚ) : ℚ := (round (q * 100) : ℚ) / 100

/-- Model of Python `round(x, 1)`: round to the nearest multiple of 1/10. -/
def round1 (q : ℚ) : ℚ := (round (q * 10) : ℚ) / 10

/-- Insert into a `≤`-sorted list, keeping it sorted.  `sortLE` below models
Python `sorted` on comparable values. -/
def insertLE {α : Type} [LinearOrder α] (x : α) : List α → List α
  | [] => [x]
  | y :: ys => if x ≤ y then x :: y :: ys else y :: insertLE x ys

/-- Sort a list ascending (model of Python `sorted` / `list.sort()`). -/
def sortLE {α : Type} [LinearOrder α] (l : List α) : List α := l.foldr insertLE []

/-- Arithmetic mean of a list (model of `pandas.Series.mean`; callers guard
against the empty list, for which pandas yields NaN). -/
def meanQ (l : List ℚ) : ℚ := l.sum / l.length

/-- Model of `statistics.median` / `pandas.Series.median`: sort, then take the
middle element (odd length) or the average of the two middle elements (even
length). -/
def medianQ (l : List ℚ) : ℚ :=
  let s := sortLE l
  let n := s.length
  if n % 2 = 1 then s.getD (n / 2) 0
  else (s.getD (n / 2 - 1) 0 + s.getD (n / 2) 0) / 2

/-- First-occurrence deduplication, preserving order: models both
`pandas.Series.unique()` and Python's `for ...: if x not in seen` patterns. -/
def uniqueKeys {α : Type} [DecidableEq α] (l : List α) : List α :=
  l.foldl (fun acc d => if d ∈ acc then acc else acc ++ [d]) []

/-- Model of Python `sorted(list(set(l)))`: drop duplicates, sort ascending. -/
def sortedDedup {α : Type} [LinearOrder α] (l : List α) : List α :=
  sortLE (uniqueKeys l)

/-- Model of Python `min(l)` on a nonempty list (`none` on the empty list,
where Python would raise). -/
def listMin {α : Type} [LinearOrder α] : List α → Option α
  | [] => none
  | x :: xs => some (xs.foldl min x)

/-- Model of Python `max(l)` on a nonempty list. -/
def listMax {α : Type} [LinearOrder α] : List α → Option α
  | [] => none
  | x :: xs => some (xs.foldl max x)

/-! ## The persistent store data model (section 3 of the spec)

A JSON hourly slot.  A key that is absent from the underlying dict and a key
that is present with value `null` are both `none` (see the header comment). -/

/-- One slot of `DayRecord.hourly_data`.  The ingester creates bare
`{'hour': h}` slots (all other keys absent); the classifier creates fully
null-filled slots with `emails_received`/`emails_replied` equal to `0`. -/
structure HourEntry where
  hour : ℕ
  unread_count : Option ℤ := none
  sla_met : Option Bool := none
  emails_received : Option ℕ := none
  emails_replied : Option ℕ := none
  avg_response_time : Option ℚ := none
deriving DecidableEq, Repr

/-- The `daily_summary` dict of a `DayRecord`; every key optional. -/
structure DaySummary where
  total_emails : Option ℕ := none
  replied_count : Option ℕ := none
  completed_count : Option ℕ := none
  pending_count : Option ℕ := none
  reply_rate_percent : Option ℚ := none
  avg_response_time_minutes : Option ℚ := none
  median_response_time_minutes : Option ℚ := none
  sla_compliance_rate : Option ℚ := none
  avg_unread_count : Option ℚ := none
deriving DecidableEq, Repr

/-- One per-date record of the store (`days[date]` in the JSON database). -/
structure DayRecord (D : Type) where
  date : D
  has_email_data : Bool
  has_sla_data : Bool
  daily_summary : DaySummary
  hourly_data : List HourEntry
deriving DecidableEq, Repr

/-- The `metadata` object of the store. -/
structure Metadata (D : Type) where
  last_updated : String
  total_days_processed : ℕ
  data_sources : List String
  earliest_date : Option D
  latest_date : Option D
deriving DecidableEq, Repr

/-- The persistent multi-day store.  `days` models the Python dict
`{date: DayRecord}` as an association list in insertion order (Python dicts
preserve insertion order); `D` stands for the `YYYY-MM-DD` date-string keys
with their lexicographic (= chronological) order. -/
structure Database (D : Type) where
  metadata : Metadata D
  days : List (D × DayRecord D)
deriving DecidableEq, Repr

variable {D : Type} [LinearOrder D]

/-- First entry of `hourly_data` whose `hour` field is `h`: model of
`next((x for x in hourly_data if x.get('hour') == h), None)`. -/
def slotVal : List HourEntry → ℕ → Option HourEntry
  | [], _ => none
  | e :: rest, h => if e.hour = h then some e else slotVal rest h

/-- Find-or-append-then-update on `hourly_data`: the first entry with the
given hour is updated in place by `f`; if there is none, `{'hour': h}` is
appended and then updated (the ingester's `hour_entry` pattern). -/
def updateHour : List HourEntry → ℕ → (HourEntry → HourEntry) → List HourEntry
  | [], h, f => [f { hour := h }]
  | e :: rest, h, f => if e.hour = h then f e :: rest else e :: updateHour rest h f

/-- Stable insertion by `hour` key (equal keys keep their original order),
building block of `sortHourly`. -/
def insertHour (e : HourEntry) : List HourEntry → List HourEntry
  | [] => [e]
  | x :: xs => if e.hour ≤ x.hour then e :: x :: xs else x :: insertHour e xs

/-- Model of `sorted(hourly_data, key=lambda x: x.get('hour', 0))`: a stable
sort by the `hour` field (Python's `sorted` is stable, and any stable sort
computes the same list). -/
def sortHourly (l : List HourEntry) : List HourEntry := l.foldr insertHour []

/-- `days[d] = r` on the association list: replace the binding if the key is
present, append it otherwise (Python dict assignment). -/
def setDay : List (D × DayRecord D) → D → DayRecord D → List (D × DayRecord D)
  | [], d, r => [(d, r)]
  | (k, v) :: rest, d, r =>
    if k = d then (k, r) :: rest else (k, v) :: setDay rest d r

/-- `days.get(d)` on the association list. -/
def lookupDay : List (D × DayRecord D) → D → Option (DayRecord D)
  | [], _ => none
  | (k, v) :: rest, d => if k = d then some v else lookupDay rest d

/-- The common shape of both ingester merge loops: for each date of the batch,
read the current binding, recompute the day from it, and write it back. -/
def phaseFold (G : D → Option (DayRecord D) → DayRecord D) (xs : List D)
    (l : List (D × DayRecord D)) : List (D × DayRecord D) :=
  xs.foldl (fun acc d => setDay acc d (G d (lookupDay acc d))) l

/-- The common shape of both ingester per-hour loops: for each element, update
(find-or-append) the slot at its key hour. -/
def hourFold {ι : Type} (key : ι → ℕ) (f : ι → HourEntry → HourEntry) (xs : List ι)
    (l : List HourEntry) : List HourEntry :=
  xs.foldl (fun acc i => updateHour acc (key i) (f i)) l

attribute [irreducible] hourFold

/-- In-place update of every position of a list by an index-dependent
function, starting at index `i`: models the classifier's
`for h in range(24): day["hourly_data"][h][...] = ...` loops, which assign
through every index of the (always 24-long, thanks to `ensure_day`) list. -/
def mapIdxH (f : ℕ → HourEntry → HourEntry) : ℕ → List HourEntry → List HourEntry
  | _, [] => []
  | i, e :: rest => f i e :: mapIdxH f (i + 1) rest

theorem hourFold_nil {ι : Type} (key : ι → ℕ) (f : ι → HourEntry → HourEntry)
    (l : List HourEntry) : hourFold key f [] l = l := by
  simp [hourFold]

theorem hourFold_cons {ι : Type} (key : ι → ℕ) (f : ι → HourEntry → HourEntry)
    (x : ι) (xs : List ι) (l : List HourEntry) :
    hourFold key f (x :: xs) l = hourFold key f xs (updateHour l (key x) (f x)) := by
  simp [hourFold]

/-! ## Basic lemmas about the slot and store helpers -/

theorem slotVal_updateHour_self (l : List HourEntry) (h : ℕ) (f : HourEntry → HourEntry)
    (hf : ∀ e, (f e).hour = e.hour) :
    slotVal (updateHour l h f) h = some (f ((slotVal l h).getD { hour := h })) := by
  induction l with
  | nil => simp [updateHour, slotVal, hf]
  | cons e rest ih =>
    by_cases he : e.hour = h
    · simp [updateHour, he, slotVal, hf, he]
    · simp [updateHour, he, slotVal, ih]

theorem slotVal_updateHour_ne (l : List HourEntry) (h h' : ℕ) (f : HourEntry → HourEntry)
    (hf : ∀ e, (f e).hour = e.hour) (hne : h' ≠ h) :
    slotVal (updateHour l h f) h' = slotVal l h' := by
  induction l with
  | nil =>
    have hfe : ¬ (f { hour := h } : HourEntry).hour = h' := by
      rw [hf]; exact Ne.symm hne
    simp only [updateHour, slotVal, if_neg hfe]
  | cons e rest ih =>
    simp only [updateHour]
    by_cases he : e.hour = h
    · have hfe : ¬ (f e).hour = h' := by rw [hf, he]; exact Ne.symm hne
      have heh : ¬ e.hour = h' := by rw [he]; exact Ne.symm hne
      rw [if_pos he]
      simp only [slotVal, if_neg hfe, if_neg heh]
    · rw [if_neg he]
      simp only [slotVal]
      by_cases he' : e.hour = h'
      · rw [if_pos he', if_pos he']
      · rw [if_neg he', if_neg he', ih]

theorem updateHour_eq_self (l : List HourEntry) (h : ℕ) (f : HourEntry → HourEntry)
    (e : HourEntry) (hfind : slotVal l h = some e) (hfix : f e = e) :
    updateHour l h f = l := by
  induction l with
  | nil => simp [slotVal] at hfind
  | cons x rest ih =>
    simp only [updateHour]
    by_cases hx : x.hour = h
    · rw [slotVal, if_pos hx] at hfind
      have hxe : x = e := Option.some.inj hfind
      rw [if_pos hx, hxe, hfix]
    · rw [slotVal, if_neg hx] at hfind
      rw [if_neg hx, ih hfind]

theorem slotVal_insertHour (e : HourEntry) (m : List HourEntry) (h : ℕ) :
    slotVal (insertHour e m) h = if e.hour = h then some e else slotVal m h := by
  induction m with
  | nil => simp [insertHour, slotVal]
  | cons x xs ih =>
    simp only [insertHour]
    by_cases hle : e.hour ≤ x.hour
    · rw [if_pos hle]
      by_cases he : e.hour = h
      · rw [slotVal, if_pos he]
      · rw [slotVal, if_neg he]
    · rw [if_neg hle]
      rw [slotVal]
      by_cases hx : x.hour = h
      · have hne : ¬ e.hour = h := fun hh => hle (le_of_eq (hh.trans hx.symm))
        rw [if_pos hx, if_neg hne, slotVal, if_pos hx]
      · rw [if_neg hx, ih, slotVal, if_neg hx]

/-- A stable sort keeps the first entry carrying each hour first. -/
theorem slotVal_sortHourly (l : List HourEntry) (h : ℕ) :
    slotVal (sortHourly l) h = slotVal l h := by
  induction l with
  | nil => rfl
  | cons e rest ih =>
    show slotVal (insertHour e (sortHourly rest)) h = _
    rw [slotVal_insertHour]
    by_cases he : e.hour = h
    · simp [slotVal, he]
    · simp [slotVal, he, ih]

/-- Entries of `hourly_data` ordered by ascending `hour`. -/
def SortedH (l : List HourEntry) : Prop :=
  List.Sorted (fun a b : HourEntry => a.hour ≤ b.hour) l

theorem mem_insertHour (e b : HourEntry) (m : List HourEntry) :
    b ∈ insertHour e m ↔ b = e ∨ b ∈ m := by
  induction m with
  | nil => simp [insertHour]
  | cons x xs ih =>
    by_cases hle : e.hour ≤ x.hour
    · simp [insertHour, hle]
    · simp [insertHour, hle, List.mem_cons, ih, or_left_comm]

theorem sortedH_insertHour (e : HourEntry) (m : List HourEntry) (hm : SortedH m) :
    SortedH (insertHour e m) := by
  induction m with
  | nil => simp [insertHour, SortedH]
  | cons x xs ih =>
    rcases (List.sorted_cons.mp hm) with ⟨hx, hxs⟩
    by_cases hle : e.hour ≤ x.hour
    · rw [insertHour, if_pos hle]
      refine List.sorted_cons.mpr ⟨?_, hm⟩
      intro b hb
      rcases List.mem_cons.mp hb with rfl | hb
      · exact hle
      · exact le_trans hle (hx b hb)
    · rw [insertHour, if_neg hle]
      refine List.sorted_cons.mpr ⟨?_, ih hxs⟩
      intro b hb
      rcases (mem_insertHour e b xs).mp hb with rfl | hb2
      · exact le_of_not_le hle
      · exact hx b hb2

theorem sortedH_sortHourly (l : List HourEntry) : SortedH (sortHourly l) := by
  induction l with
  | nil => simp [sortHourly, SortedH]
  | cons e rest ih => exact sortedH_insertHour e (sortHourly rest) ih

theorem sortHourly_eq_self (l : List HourEntry) (hl : SortedH l) : sortHourly l = l := by
  induction l with
  | nil => rfl
  | cons e rest ih =>
    rcases List.sorted_cons.mp hl with ⟨he, hrest⟩
    show insertHour e (sortHourly rest) = e :: rest
    rw [ih hrest]
    cases rest with
    | nil => rfl
    | cons x xs => simp [insertHour, he x (by simp)]

theorem sortHourly_idem (l : List HourEntry) : sortHourly (sortHourly l) = sortHourly l :=
  sortHourly_eq_self _ (sortedH_sortHourly l)

variable {D : Type} [LinearOrder D]

theorem lookupDay_setDay_self (l : List (D × DayRecord D)) (d : D) (r : DayRecord D) :
    lookupDay (setDay l d r) d = some r := by
  induction l with
  | nil => simp [setDay, lookupDay]
  | cons kv rest ih =>
    rcases kv with ⟨k, v⟩
    simp only [setDay]
    by_cases hk : k = d
    · rw [if_pos hk]
      simp only [lookupDay, if_pos hk]
    · rw [if_neg hk]
      simp only [lookupDay, if_neg hk, ih]

theorem lookupDay_setDay_ne (l : List (D × DayRecord D)) (d d' : D) (r : DayRecord D)
    (hne : d' ≠ d) : lookupDay (setDay l d r) d' = lookupDay l d' := by
  induction l with
  | nil =>
    simp only [setDay, lookupDay]
    rw [if_neg (fun hh => hne hh.symm)]
  | cons kv rest ih =>
    rcases kv with ⟨k, v⟩
    simp only [setDay]
    by_cases hk : k = d
    · have hkd' : ¬ k = d' := by rw [hk]; exact fun hh => hne hh.symm
      rw [if_pos hk]
      simp only [lookupDay, if_neg hkd']
    · rw [if_neg hk]
      simp only [lookupDay]
      by_cases hk' : k = d'
      · rw [if_pos hk', if_pos hk']
      · rw [if_neg hk', if_neg hk', ih]

theorem setDay_eq_self (l : List (D × DayRecord D)) (d : D) (r : DayRecord D)
    (hfind : lookupDay l d = some r) : setDay l d r = l := by
  induction l with
  | nil => simp [lookupDay] at hfind
  | cons kv rest ih =>
    rcases kv with ⟨k, v⟩
    simp only [setDay]
    by_cases hk : k = d
    · rw [lookupDay, if_pos hk] at hfind
      rw [if_pos hk, Option.some.inj hfind]
    · rw [lookupDay, if_neg hk] at hfind
      rw [if_neg hk, ih hfind]

theorem setDay_setDay (l : List (D × DayRecord D)) (d : D) (r r' : DayRecord D) :
    setDay (setDay l d r) d r' = setDay l d r' := by
  induction l with
  | nil => simp [setDay]
  | cons kv rest ih =>
    rcases kv with ⟨k, v⟩
    simp only [setDay]
    by_cases hk : k = d
    · rw [if_pos hk]
      simp only [setDay, if_pos hk]
    · rw [if_neg hk]
      simp only [setDay, if_neg hk, ih]

theorem mem_keys_setDay (l : List (D × DayRecord D)) (d k : D) (r : DayRecord D)
    (hk : k ∈ l.map Prod.fst) : k ∈ (setDay l d r).map Prod.fst := by
  induction l with
  | nil => simp at hk
  | cons kv rest ih =>
    rcases kv with ⟨k0, v⟩
    simp only [List.map_cons, List.mem_cons] at hk
    simp only [setDay]
    by_cases hd : k0 = d
    · rw [if_pos hd]
      simp only [List.map_cons, List.mem_cons]
      exact hk
    · rw [if_neg hd]
      simp only [List.map_cons, List.mem_cons]
      rcases hk with hk | hk
      · exact Or.inl hk
      · exact Or.inr (ih hk)

theorem mem_uniqueKeys {α : Type} [DecidableEq α] (l : List α) (x : α) :
    x ∈ uniqueKeys l ↔ x ∈ l := by
  have main : ∀ (l acc : List α), x ∈ l.foldl
      (fun acc d => if d ∈ acc then acc else acc ++ [d]) acc ↔ x ∈ l ∨ x ∈ acc := by
    intro l
    induction l with
    | nil => simp
    | cons a rest ih =>
      intro acc
      by_cases ha : a ∈ acc
      · rw [List.foldl_cons, if_pos ha, ih]
        constructor
        · rintro (hx | hx)
          · exact Or.inl (List.mem_cons_of_mem _ hx)
          · exact Or.inr hx
        · rintro (hx | hx)
          · rcases List.mem_cons.mp hx with rfl | hx
            · exact Or.inr ha
            · exact Or.inl hx
          · exact Or.inr hx
      · rw [List.foldl_cons, if_neg ha, ih]
        constructor
        · rintro (hx | hx)
          · exact Or.inl (List.mem_cons_of_mem _ hx)
          · rcases List.mem_append.mp hx with hx | hx
            · exact Or.inr hx
            · simp at hx
              exact Or.inl (by simp [hx])
        · rintro (hx | hx)
          · rcases List.mem_cons.mp hx with rfl | hx
            · exact Or.inr (by simp)
            · exact Or.inl hx
          · exact Or.inr (by simp [hx])
  rw [uniqueKeys, main]
  simp

theorem uniqueKeys_nodup {α : Type} [DecidableEq α] (l : List α) : (uniqueKeys l).Nodup := by
  have main : ∀ (l acc : List α), acc.Nodup → (l.foldl
      (fun acc d => if d ∈ acc then acc else acc ++ [d]) acc).Nodup := by
    intro l
    induction l with
    | nil => intro acc h; simpa using h
    | cons a rest ih =>
      intro acc hacc
      by_cases ha : a ∈ acc
      · rw [List.foldl_cons, if_pos ha]; exact ih acc hacc
      · rw [List.foldl_cons, if_neg ha]
        exact ih _ (by simp [List.nodup_append, hacc, ha])
  exact main l [] (by simp)

/-! ## Lemmas about `sortLE` and `sortedDedup` -/

theorem mem_insertLE {α : Type} [LinearOrder α] (x b : α) (m : List α) :
    b ∈ insertLE x m ↔ b = x ∨ b ∈ m := by
  induction m with
  | nil => simp [insertLE]
  | cons z zs ih =>
    by_cases hz : x ≤ z
    · simp [insertLE, hz]
    · simp [insertLE, hz, List.mem_cons, ih, or_left_comm]

theorem insertLE_perm {α : Type} [LinearOrder α] (x : α) (m : List α) :
    (insertLE x m).Perm (x :: m) := by
  induction m with
  | nil => rfl
  | cons z zs ihm =>
    by_cases hz : x ≤ z
    · simp [insertLE, hz]
    · rw [insertLE, if_neg hz]
      exact (List.Perm.cons z ihm).trans (List.Perm.swap x z zs)

theorem sortLE_perm {α : Type} [LinearOrder α] (l : List α) : (sortLE l).Perm l := by
  induction l with
  | nil => rfl
  | cons x xs ih =>
    exact (insertLE_perm x (sortLE xs)).trans (List.Perm.cons x ih)

theorem mem_sortLE {α : Type} [LinearOrder α] (l : List α) (x : α) :
    x ∈ sortLE l ↔ x ∈ l :=
  (sortLE_perm l).mem_iff

theorem insertLE_sorted {α : Type} [LinearOrder α] (x : α) (m : List α)
    (hm : List.Sorted (fun a b : α => a ≤ b) m) :
    List.Sorted (fun a b : α => a ≤ b) (insertLE x m) := by
  induction m with
  | nil => simp [insertLE]
  | cons z zs ihm =>
    rcases List.sorted_cons.mp hm with ⟨hz, hzs⟩
    by_cases hle : x ≤ z
    · rw [insertLE, if_pos hle]
      refine List.sorted_cons.mpr ⟨?_, hm⟩
      intro b hb
      rcases List.mem_cons.mp hb with rfl | hb
      · exact hle
      · exact le_trans hle (hz b hb)
    · rw [insertLE, if_neg hle]
      refine List.sorted_cons.mpr ⟨?_, ihm hzs⟩
      intro b hb
      rcases (mem_insertLE x b zs).mp hb with rfl | hb2
      · exact le_of_not_le hle
      · exact hz b hb2

theorem sortLE_sorted {α : Type} [LinearOrder α] (l : List α) :
    List.Sorted (fun a b : α => a ≤ b) (sortLE l) := by
  induction l with
  | nil => simp [sortLE]
  | cons x xs ih => exact insertLE_sorted x (sortLE xs) ih

theorem sortLE_eq_self {α : Type} [LinearOrder α] (l : List α)
    (hl : List.Sorted (fun a b : α => a ≤ b) l) : sortLE l = l := by
  induction l with
  | nil => rfl
  | cons x xs ih =>
    rcases List.sorted_cons.mp hl with ⟨hx, hxs⟩
    show insertLE x (sortLE xs) = x :: xs
    rw [ih hxs]
    cases xs with
    | nil => rfl
    | cons z zs => simp [insertLE, hx z (by simp)]

theorem sortedDedup_nodup {α : Type} [LinearOrder α] (l : List α) :
    (sortedDedup l).Nodup :=
  (sortLE_perm (uniqueKeys l)).nodup_iff.mpr (uniqueKeys_nodup l)

theorem mem_sortedDedup {α : Type} [LinearOrder α] (l : List α) (x : α) :
    x ∈ sortedDedup l ↔ x ∈ l := by
  rw [sortedDedup, mem_sortLE, mem_uniqueKeys]

/-- `sorted(list(set(l)))` depends only on the set of elements. -/
theorem sortedDedup_congr {α : Type} [LinearOrder α] (l₁ l₂ : List α)
    (h : ∀ x, x ∈ l₁ ↔ x ∈ l₂) : sortedDedup l₁ = sortedDedup l₂ := by
  have hperm : (sortedDedup l₁).Perm (sortedDedup l₂) := by
    refine (List.perm_ext_iff_of_nodup (sortedDedup_nodup l₁) (sortedDedup_nodup l₂)).mpr ?_
    intro x
    rw [mem_sortedDedup, mem_sortedDedup]
    exact h x
  exact List.eq_of_perm_of_sorted hperm (sortLE_sorted _) (sortLE_sorted _)

/-! ## Batch rows fed into the merges -/

/-- Classification status of one inbox email. -/
inductive EStatus
  | Replied
  | Completed
  | Pending
deriving DecidableEq, Repr

/-- One classified inbox email, keyed by the calendar date and hour of its
Inbox timestamp: a row of the ingester's `email_records` dataframe and of the
classifier's `results_df` (only the columns the merges read). -/
structure EmailRecord (D : Type) where
  date : D
  hour : ℕ
  status : EStatus
  response_time_minutes : Option ℚ
deriving DecidableEq, Repr

/-- One row of the processed `UnreadCount` dataframe (ingester: `SLA_Met` is
`TotalUnread <= threshold`, precomputed in `process_sla_data`). -/
structure SlaRecord (D : Type) where
  date : D
  hour : ℕ
  total_unread : ℤ
  sla_met : Bool
deriving DecidableEq, Repr

/-! ## `IntelligentIngester.merge_with_existing`
(`src/daily/scripts/ingest_and_update.py`, lines 263-394) -/

namespace Ingester

/-- The two business-hour bounds the merge reads from the SLA config. -/
structure Config where
  business_start_hour : ℕ
  business_end_hour : ℕ
deriving DecidableEq, Repr

/-- Fresh day inserted when an email date is new to the store (line 280):
bare `{'hour': h}` hourly slots, empty `daily_summary`. -/
def freshDayEmail (d : D) : DayRecord D :=
  ⟨d, true, false, {}, (List.range 24).map (fun h => { hour := h })⟩

/-- Fresh day inserted when an SLA date is new to the store (line 336). -/
def freshDaySla (d : D) : DayRecord D :=
  ⟨d, false, true, {}, (List.range 24).map (fun h => { hour := h })⟩

/-- The `daily_summary.update({...})` of the email loop (lines 297-305). -/
def emailSummary (rows : List (EmailRecord D)) (s : DaySummary) : DaySummary :=
  let total := rows.length
  let replied := (rows.filter (fun r => r.status = EStatus.Replied)).length
  let completed := (rows.filter (fun r => r.status = EStatus.Completed)).length
  let rts := rows.filterMap (fun r => r.response_time_minutes)
  { s with
    total_emails := some total
    replied_count := some replied
    completed_count := some completed
    pending_count := some (total - replied - completed)
    reply_rate_percent := some (round1 (if 0 < total then (replied : ℚ) / total * 100 else 0))
    avg_response_time_minutes := if rts.isEmpty then none else some (round1 (meanQ rts))
    median_response_time_minutes := if rts.isEmpty then none else some (round1 (medianQ rts)) }

/-- The `hour_entry.update({...})` of the email loop (lines 308-324), for one
hour `h` of the day's rows. -/
def emailHourSet (rows : List (EmailRecord D)) (h : ℕ) (e : HourEntry) : HourEntry :=
  let hourRows := rows.filter (fun r => r.hour = h)
  let hourReplied := hourRows.filter (fun r => r.status = EStatus.Replied)
  let hourRts := hourRows.filterMap (fun r => r.response_time_minutes)
  { e with
    emails_received := some hourRows.length
    emails_replied := some hourReplied.length
    avg_response_time := if hourRts.isEmpty then none else some (round1 (meanQ hourRts)) }

/-- Lines 279-288: get the existing day with `has_email_data` forced on, or a
fresh email day. -/
def emailBase (existing : Option (DayRecord D)) (d : D) : DayRecord D :=
  match existing with
  | none => freshDayEmail d
  | some r => { r with has_email_data := true }

/-- Processing of one email date (lines 276-324). -/
def emailDayUpdate (existing : Option (DayRecord D)) (d : D) (rows : List (EmailRecord D)) :
    DayRecord D :=
  { emailBase existing d with
    daily_summary := emailSummary rows (emailBase existing d).daily_summary
    hourly_data :=
      hourFold (fun h => h) (emailHourSet rows) (List.range 24)
        (emailBase existing d).hourly_data }

/-- The email loop over `email_df['inbox_timestamp'].dt.date.unique()`
(lines 271-324). -/
def emailPhase (days : List (D × DayRecord D)) (rows : List (EmailRecord D)) :
    List (D × DayRecord D) :=
  phaseFold (fun d o => emailDayUpdate o d (rows.filter (fun r => r.date = d)))
    (uniqueKeys (rows.map (fun r => r.date))) days

/-- The daily SLA summary update (lines 346-359): only hours inside the
configured business window count; no update at all if none qualify. -/
def slaSummary (cfg : Config) (rows : List (SlaRecord D)) (s : DaySummary) : DaySummary :=
  let bh := rows.filter
    (fun r => cfg.business_start_hour ≤ r.hour ∧ r.hour < cfg.business_end_hour)
  if bh.isEmpty then s
  else
    { s with
      sla_compliance_rate :=
        some (round1 (((bh.filter (fun r => r.sla_met)).length : ℚ) / bh.length * 100))
      avg_unread_count := some (round1 (meanQ (bh.map (fun r => (r.total_unread : ℚ))))) }

/-- The `hour_entry.update({...})` of the SLA loop (lines 371-374). -/
def slaHourSet (r : SlaRecord D) (e : HourEntry) : HourEntry :=
  { e with unread_count := some r.total_unread, sla_met := some r.sla_met }

/-- Lines 334-344: get the existing day with `has_sla_data` forced on, or a
fresh SLA day. -/
def slaBase (existing : Option (DayRecord D)) (d : D) : DayRecord D :=
  match existing with
  | none => freshDaySla d
  | some r => { r with has_sla_data := true }

/-- Processing of one SLA date (lines 331-374). -/
def slaDayUpdate (cfg : Config) (existing : Option (DayRecord D)) (d : D)
    (rows : List (SlaRecord D)) : DayRecord D :=
  { slaBase existing d with
    daily_summary := slaSummary cfg rows (slaBase existing d).daily_summary
    hourly_data :=
      hourFold (fun r => r.hour) slaHourSet rows (slaBase existing d).hourly_data }

/-- The SLA loop over `sla_df['Date'].dt.date.unique()` (lines 327-374). -/
def slaPhase (cfg : Config) (days : List (D × DayRecord D)) (rows : List (SlaRecord D)) :
    List (D × DayRecord D) :=
  phaseFold (fun d o => slaDayUpdate cfg o d (rows.filter (fun r => r.date = d)))
    (uniqueKeys (rows.map (fun r => r.date))) days

/-- One day with its `hourly_data` re-sorted by hour (body of lines 377-381). -/
def sortDay (r : DayRecord D) : DayRecord D :=
  { r with hourly_data := sortHourly r.hourly_data }

/-- Lines 377-381: every day's `hourly_data` is re-sorted by hour. -/
def sortPhase (days : List (D × DayRecord D)) : List (D × DayRecord D) :=
  days.map (fun kv => (kv.1, sortDay kv.2))

/-- Lines 383-391: recompute date-range metadata (only when the store is
nonempty) and overwrite `data_sources` with the fixed two-element list. -/
def updateMeta (md : Metadata D) (days : List (D × DayRecord D)) : Metadata D :=
  let allDates := days.map (fun kv => kv.1)
  let md1 :=
    if allDates.isEmpty then md
    else { md with
      earliest_date := listMin allDates
      latest_date := listMax allDates
      total_days_processed := allDates.length }
  { md1 with data_sources := ["Complete_List_Raw.csv", "UnreadCount.csv"] }

/-- `IntelligentIngester.merge_with_existing(existing_db, email_df, sla_df)`.
`now` models `datetime.now().isoformat()`; an absent (`None`) or empty input
dataframe is the empty row list. -/
def mergeWithExisting (cfg : Config) (db : Database D) (emailRows : List (EmailRecord D))
    (slaRows : List (SlaRecord D)) (now : String) : Database D :=
  let days1 := emailPhase db.days emailRows
  let days2 := slaPhase cfg days1 slaRows
  let days3 := sortPhase days2
  { metadata := updateMeta { db.metadata with last_updated := now } days3
    days := days3 }

end Ingester

/-! ## `EmailClassifier.save_to_unified_json`
(`src/daily/scripts/email_classifier.py`, lines 530-674) -/

namespace Classifier

/-- One value of the dict produced by `process_sla_hourly_data`:
`{'unread_count': ..., 'sla_met': ...}` for one hour. -/
structure SlaHourInfo where
  unread_count : Option ℤ
  sla_met : Option Bool
deriving DecidableEq, Repr

/-- One row of the `calculate_daily_sla_rates` output (grouped per date). -/
structure SlaDailyRow (D : Type) where
  date : D
  compliance_rate : ℚ
  avg_unread : Option ℚ
deriving DecidableEq, Repr

/-- The null-filled slot used by `ensure_day` (lines 572-581 and 586-593). -/
def defaultSlot (h : ℕ) : HourEntry :=
  { hour := h, unread_count := none, sla_met := none,
    emails_received := some 0, emails_replied := some 0, avg_response_time := none }

/-- Fresh fully-initialized day of `ensure_day` (lines 559-581). -/
def freshDay (d : D) : DayRecord D :=
  ⟨d, false, false, {}, (List.range 24).map defaultSlot⟩

/-- Last entry with the given hour: the dict comprehension
`{e.get("hour", i): e for i, e in enumerate(...)}` keeps the last write. -/
def lastKeyed (l : List HourEntry) (h : ℕ) : Option HourEntry :=
  l.foldl (fun acc e => if e.hour = h then some e else acc) none

/-- The normalization safety net of `ensure_day` (lines 583-593): a list that
does not have exactly 24 entries is rebuilt to 24 slots keyed by hour. -/
def normalize24 (l : List HourEntry) : List HourEntry :=
  if l.length = 24 then l
  else (List.range 24).map (fun h => (lastKeyed l h).getD (defaultSlot h))

/-- The day `ensure_day` starts from: the stored record, or a fresh one
(lines 559-581). -/
def ensureRec (o : Option (DayRecord D)) (d : D) : DayRecord D :=
  match o with
  | none => freshDay d
  | some r => r

/-- The record `ensure_day` leaves in the dict: the start record with its
`hourly_data` normalized to 24 slots. -/
def ensureNorm (o : Option (DayRecord D)) (d : D) : DayRecord D :=
  { ensureRec o d with hourly_data := normalize24 (ensureRec o d).hourly_data }

/-- `ensure_day(date_str)` (lines 558-594): get-or-insert the day and
normalize its `hourly_data`; returns the updated dict and the day record. -/
def ensureDay (days : List (D × DayRecord D)) (d : D) :
    List (D × DayRecord D) × DayRecord D :=
  (setDay days d (ensureNorm (lookupDay days d) d), ensureNorm (lookupDay days d) d)

/-- The two `daily_summary` assignments of the SLA loop (lines 602-603). -/
def slaSummarySet (drow : SlaDailyRow D) (s : DaySummary) : DaySummary :=
  { s with
    sla_compliance_rate := some drow.compliance_rate
    avg_unread_count := drow.avg_unread }

/-- The per-hour SLA assignment (lines 604-608): for EVERY hour `i`,
`unread_count`/`sla_met` are set from `hourly_sla.get(i, {})` — `none` when
the hour has no snapshot. -/
def slaHourCls (hourly : ℕ → Option SlaHourInfo) (i : ℕ) (e : HourEntry) : HourEntry :=
  { e with
    unread_count := (hourly i).bind (fun s => s.unread_count)
    sla_met := (hourly i).bind (fun s => s.sla_met) }

/-- SLA update of one day (lines 598-608). -/
def applySlaDay (day : DayRecord D) (drow : SlaDailyRow D)
    (hourly : ℕ → Option SlaHourInfo) : DayRecord D :=
  { day with
    has_sla_data := true
    daily_summary := slaSummarySet drow day.daily_summary
    hourly_data := mapIdxH (slaHourCls hourly) 0 day.hourly_data }

/-- The SLA-days loop (lines 597-608); `hourly d` models
`process_sla_hourly_data(d)` as a per-date hour table. -/
def slaPhase (days : List (D × DayRecord D)) (slaDaily : List (SlaDailyRow D))
    (hourly : D → ℕ → Option SlaHourInfo) : List (D × DayRecord D) :=
  slaDaily.foldl (fun ds drow =>
    let p := ensureDay ds drow.date
    setDay p.1 drow.date (applySlaDay p.2 drow (hourly drow.date))) days

/-- `generate_summary_stats_for_date` folded into the
`daily_summary.update({...})` call (lines 460-487 and 616-623).  Averages are
over non-Pending rows with a response time, rounded to 2 decimals. -/
def emailSummaryCls (rows : List (EmailRecord D)) (s : DaySummary) : DaySummary :=
  let total := rows.length
  let replied := (rows.filter (fun r => r.status = EStatus.Replied)).length
  let responded := rows.filter (fun r => ¬ r.status = EStatus.Pending)
  let rts := responded.filterMap (fun r => r.response_time_minutes)
  { s with
    total_emails := some total
    reply_rate_percent := some (if 0 < total then round2 ((replied : ℚ) / total * 100) else 0)
    avg_response_time_minutes := if rts.isEmpty then none else some (round2 (meanQ rts))
    median_response_time_minutes := if rts.isEmpty then none else some (round2 (medianQ rts)) }

/-- Hourly email fields for one hour `h` (lines 625-639).  `emails_received`
comes from `analyze_hourly_distribution_for_date` (inbox events per hour: one
results row per Inbox event, so counting rows equals counting events);
`emails_replied`/`avg_response_time` come from
`analyze_response_time_by_hour_for_date` (non-Pending rows with a response
time); the per-hour mean is NOT rounded (`float(avg_val)`). -/
def emailHourCls (rows : List (EmailRecord D)) (h : ℕ) (e : HourEntry) : HourEntry :=
  let received := (rows.filter (fun r => r.hour = h)).length
  let resp := rows.filter
    (fun r => ¬ r.status = EStatus.Pending ∧ ¬ r.response_time_minutes = none)
  let respH := resp.filter (fun r => r.hour = h)
  let rts := respH.filterMap (fun r => r.response_time_minutes)
  { e with
    emails_received := some received
    emails_replied := some respH.length
    avg_response_time := if rts.isEmpty then none else some (meanQ rts) }

/-- Email update of one day (lines 612-639). -/
def applyEmailDay (day : DayRecord D) (rows : List (EmailRecord D)) : DayRecord D :=
  { day with
    has_email_data := true
    daily_summary :=
      if rows.isEmpty then day.daily_summary else emailSummaryCls rows day.daily_summary
    hourly_data := mapIdxH (emailHourCls rows) 0 day.hourly_data }

/-- The email-days loop over `get_email_dates(results_df)` — the sorted,
deduplicated inbox dates (lines 452-458 and 611-639). -/
def emailPhaseCls (days : List (D × DayRecord D)) (results : List (EmailRecord D)) :
    List (D × DayRecord D) :=
  (sortedDedup (results.map (fun r => r.date))).foldl (fun ds d =>
    let p := ensureDay ds d
    setDay p.1 d (applyEmailDay p.2 (results.filter (fun r => r.date = d)))) days

/-- `EmailClassifier.save_to_unified_json` (lines 530-658), restricted to the
pure merge it performs: existing database in, updated database out.
`newSources` models `new_sources` (loaded event CSVs plus `UnreadCount.csv`),
`now` models `datetime.now().isoformat()`. -/
def saveToUnifiedJson (db : Database D) (results : List (EmailRecord D))
    (slaDaily : List (SlaDailyRow D)) (slaHourly : D → ℕ → Option SlaHourInfo)
    (newSources : List String) (now : String) : Database D :=
  let dataSources := sortedDedup (db.metadata.data_sources ++ newSources)
  let days1 := slaPhase db.days slaDaily slaHourly
  let days2 := emailPhaseCls days1 results
  let sortedKeys := sortLE (days2.map (fun kv => kv.1))
  { metadata :=
      { last_updated := now
        total_days_processed := days2.length
        data_sources := dataSources
        earliest_date := sortedKeys.head?
        latest_date := sortedKeys.getLast? }
    days := days2 }

end Classifier

/-! ## Idempotence of `EmailClassifier.save_to_unified_json` (claim C1) -/

/-- Per-row variant of `phaseFold`, keyed by a date-valued projection. -/
def keyedFold {ι : Type} (key : ι → D) (G : ι → Option (DayRecord D) → DayRecord D)
    (xs : List ι) (l : List (D × DayRecord D)) : List (D × DayRecord D) :=
  xs.foldl (fun acc i => setDay acc (key i) (G i (lookupDay acc (key i)))) l

theorem keyedFold_id {ι : Type} (key : ι → D) (G : ι → Option (DayRecord D) → DayRecord D)
    (xs : List ι) (l : List (D × DayRecord D))
    (hid : ∀ i ∈ xs, ∃ v, lookupDay l (key i) = some v ∧ G i (some v) = v) :
    keyedFold key G xs l = l := by
  simp only [keyedFold]
  induction xs with
  | nil => rfl
  | cons x rest ih =>
    obtain ⟨v, hv, hGv⟩ := hid x (List.mem_cons_self x rest)
    rw [List.foldl_cons, hv, hGv, setDay_eq_self l (key x) v hv]
    exact ih (fun i hi => hid i (List.mem_cons_of_mem _ hi))

theorem lookupDay_keyedFold_notmem {ι : Type} (key : ι → D)
    (G : ι → Option (DayRecord D) → DayRecord D) (xs : List ι)
    (l : List (D × DayRecord D)) (d : D) (hd : d ∉ xs.map key) :
    lookupDay (keyedFold key G xs l) d = lookupDay l d := by
  simp only [keyedFold]
  induction xs generalizing l with
  | nil => rfl
  | cons x rest ih =>
    rw [List.map_cons] at hd
    have hdx : d ≠ key x := fun hh => hd (hh ▸ List.mem_cons_self (key x) _)
    rw [List.foldl_cons, ih _ (fun hh => hd (List.mem_cons_of_mem _ hh)),
      lookupDay_setDay_ne _ _ _ _ hdx]

theorem lookupDay_keyedFold_mem {ι : Type} (key : ι → D)
    (G : ι → Option (DayRecord D) → DayRecord D) (xs : List ι)
    (hnd : (xs.map key).Nodup) (i : ι) (hi : i ∈ xs) (l : List (D × DayRecord D)) :
    lookupDay (keyedFold key G xs l) (key i) = some (G i (lookupDay l (key i))) := by
  induction xs generalizing l with
  | nil => simp at hi
  | cons x rest ih =>
    rw [List.map_cons, List.nodup_cons] at hnd
    obtain ⟨hxk, hrest⟩ := hnd
    show lookupDay (keyedFold key G rest
      (setDay l (key x) (G x (lookupDay l (key x))))) (key i) = _
    by_cases hxi : key x = key i
    · have hix : i = x := by
        rcases List.mem_cons.mp hi with rfl | hir
        · rfl
        · exact absurd (hxi ▸ List.mem_map_of_mem key hir) hxk
      subst hix
      rw [lookupDay_keyedFold_notmem key G rest _ (key i)
          (fun hmem => hxk hmem), lookupDay_setDay_self]
    · rcases List.mem_cons.mp hi with rfl | hir
      · exact absurd rfl hxi
      · rw [ih hrest hir _, lookupDay_setDay_ne _ _ _ _ (fun hc => hxi hc.symm)]

theorem mapIdxH_length (f : ℕ → HourEntry → HourEntry) (n : ℕ) (l : List HourEntry) :
    (mapIdxH f n l).length = l.length := by
  induction l generalizing n with
  | nil => rfl
  | cons e rest ih => simp [mapIdxH, ih]

theorem mapIdxH_comp (f g : ℕ → HourEntry → HourEntry) (n : ℕ) (l : List HourEntry) :
    mapIdxH f n (mapIdxH g n l) = mapIdxH (fun i e => f i (g i e)) n l := by
  induction l generalizing n with
  | nil => rfl
  | cons e rest ih => simp [mapIdxH, ih]

theorem mapIdxH_congr (f g : ℕ → HourEntry → HourEntry)
    (h : ∀ i e, f i e = g i e) (n : ℕ) (l : List HourEntry) :
    mapIdxH f n l = mapIdxH g n l := by
  induction l generalizing n with
  | nil => rfl
  | cons e rest ih => simp [mapIdxH, ih, h]

theorem mapIdxH_absorb (f g : ℕ → HourEntry → HourEntry)
    (hfg : ∀ i e, f i (g i e) = g i e) (n : ℕ) (l : List HourEntry) :
    mapIdxH f n (mapIdxH g n l) = mapIdxH g n l := by
  induction l generalizing n with
  | nil => rfl
  | cons e rest ih => simp [mapIdxH, ih, hfg]

namespace Classifier

theorem normalize24_length (l : List HourEntry) : (normalize24 l).length = 24 := by
  unfold normalize24
  split
  · assumption
  · simp

theorem normalize24_of_length (l : List HourEntry) (h : l.length = 24) :
    normalize24 l = l := by
  simp [normalize24, h]

theorem ensureNorm_hourly_length (o : Option (DayRecord D)) (d : D) :
    (ensureNorm o d).hourly_data.length = 24 := by
  show (normalize24 (ensureRec o d).hourly_data).length = 24
  exact normalize24_length _

theorem ensureNorm_some_of_length (v : DayRecord D) (d : D)
    (h : v.hourly_data.length = 24) : ensureNorm (some v) d = v := by
  cases v with
  | mk date he hs sum hd =>
    simp only at h
    simp only [ensureNorm, ensureRec, DayRecord.mk.injEq]
    exact ⟨trivial, trivial, trivial, trivial, normalize24_of_length hd h⟩

theorem applySlaDay_hourly (day : DayRecord D) (drow : SlaDailyRow D)
    (hourly : ℕ → Option SlaHourInfo) :
    (applySlaDay day drow hourly).hourly_data =
      mapIdxH (slaHourCls hourly) 0 day.hourly_data := rfl

theorem applyEmailDay_hourly (day : DayRecord D) (rows : List (EmailRecord D)) :
    (applyEmailDay day rows).hourly_data =
      mapIdxH (emailHourCls rows) 0 day.hourly_data := rfl

theorem applySlaDay_hourly_length (day : DayRecord D) (drow : SlaDailyRow D)
    (hourly : ℕ → Option SlaHourInfo) :
    (applySlaDay day drow hourly).hourly_data.length = day.hourly_data.length := by
  rw [applySlaDay_hourly, mapIdxH_length]

theorem applyEmailDay_hourly_length (day : DayRecord D) (rows : List (EmailRecord D)) :
    (applyEmailDay day rows).hourly_data.length = day.hourly_data.length := by
  rw [applyEmailDay_hourly, mapIdxH_length]

theorem emailHourCls_emailHourCls (rows : List (EmailRecord D)) (i : ℕ) (e : HourEntry) :
    emailHourCls rows i (emailHourCls rows i e) = emailHourCls rows i e := by
  cases e; rfl

theorem slaHourCls_slaHourCls (hourly : ℕ → Option SlaHourInfo) (i : ℕ) (e : HourEntry) :
    slaHourCls hourly i (slaHourCls hourly i e) = slaHourCls hourly i e := by
  cases e; rfl

theorem slaHourCls_email_slaHourCls (rows : List (EmailRecord D))
    (hourly : ℕ → Option SlaHourInfo) (i : ℕ) (e : HourEntry) :
    slaHourCls hourly i (emailHourCls rows i (slaHourCls hourly i e)) =
      emailHourCls rows i (slaHourCls hourly i e) := by
  cases e; rfl

theorem emailSummaryCls_emailSummaryCls (rows : List (EmailRecord D)) (s : DaySummary) :
    emailSummaryCls rows (emailSummaryCls rows s) = emailSummaryCls rows s := by
  cases s; rfl

theorem slaSummarySet_slaSummarySet (drow : SlaDailyRow D) (s : DaySummary) :
    slaSummarySet drow (slaSummarySet drow s) = slaSummarySet drow s := by
  cases s; rfl

theorem slaSummarySet_email_slaSummarySet (rows : List (EmailRecord D))
    (drow : SlaDailyRow D) (s : DaySummary) :
    slaSummarySet drow (emailSummaryCls rows (slaSummarySet drow s)) =
      emailSummaryCls rows (slaSummarySet drow s) := by
  cases s; rfl

/-- A second email update of a day absorbs into the first. -/
theorem applyEmailDay_applyEmailDay (x : DayRecord D) (rows : List (EmailRecord D)) :
    applyEmailDay (applyEmailDay x rows) rows = applyEmailDay x rows := by
  cases x with
  | mk date he hs sum hd =>
    by_cases hemp : rows.isEmpty
    · simp only [applyEmailDay, hemp, if_pos, DayRecord.mk.injEq]
      exact ⟨trivial, trivial, trivial, trivial,
        mapIdxH_absorb _ _ (emailHourCls_emailHourCls rows) 0 hd⟩
    · simp only [applyEmailDay, hemp, if_neg, DayRecord.mk.injEq, if_false,
        Bool.false_eq_true]
      exact ⟨trivial, trivial, trivial, emailSummaryCls_emailSummaryCls rows sum,
        mapIdxH_absorb _ _ (emailHourCls_emailHourCls rows) 0 hd⟩

/-- A second SLA update of a day absorbs into the first. -/
theorem applySlaDay_applySlaDay (x : DayRecord D) (drow : SlaDailyRow D)
    (hourly : ℕ → Option SlaHourInfo) :
    applySlaDay (applySlaDay x drow hourly) drow hourly = applySlaDay x drow hourly := by
  cases x with
  | mk date he hs sum hd =>
    simp only [applySlaDay, DayRecord.mk.injEq]
    exact ⟨trivial, trivial, trivial, slaSummarySet_slaSummarySet drow sum,
      mapIdxH_absorb _ _ (slaHourCls_slaHourCls hourly) 0 hd⟩

/-- An SLA update absorbs into an earlier SLA update even with an email update
in between. -/
theorem applySlaDay_email_applySlaDay (x : DayRecord D) (rows : List (EmailRecord D))
    (drow : SlaDailyRow D) (hourly : ℕ → Option SlaHourInfo) :
    applySlaDay (applyEmailDay (applySlaDay x drow hourly) rows) drow hourly =
      applyEmailDay (applySlaDay x drow hourly) rows := by
  cases x with
  | mk date he hs sum hd =>
    by_cases hemp : rows.isEmpty
    · simp only [applySlaDay, applyEmailDay, hemp, if_pos, DayRecord.mk.injEq]
      refine ⟨trivial, trivial, trivial, slaSummarySet_slaSummarySet drow sum, ?_⟩
      rw [mapIdxH_comp, mapIdxH_comp, mapIdxH_comp]
      exact mapIdxH_congr _ _
        (fun i e => slaHourCls_email_slaHourCls rows hourly i e) 0 hd
    · simp only [applySlaDay, applyEmailDay, hemp, DayRecord.mk.injEq, if_false,
        Bool.false_eq_true]
      refine ⟨trivial, trivial, trivial,
        slaSummarySet_email_slaSummarySet rows drow sum, ?_⟩
      rw [mapIdxH_comp, mapIdxH_comp, mapIdxH_comp]
      exact mapIdxH_congr _ _
        (fun i e => slaHourCls_email_slaHourCls rows hourly i e) 0 hd

/-- One SLA phase step as a single `setDay`, and the SLA phase as a keyed
fold. -/
def slaStep (hourly : D → ℕ → Option SlaHourInfo) (drow : SlaDailyRow D)
    (o : Option (DayRecord D)) : DayRecord D :=
  applySlaDay (ensureNorm o drow.date) drow (hourly drow.date)

/-- One email phase step as a single `setDay`. -/
def emailStep (results : List (EmailRecord D)) (d : D) (o : Option (DayRecord D)) :
    DayRecord D :=
  applyEmailDay (ensureNorm o d) (results.filter (fun r => r.date = d))

theorem slaPhase_eq (days : List (D × DayRecord D)) (slaDaily : List (SlaDailyRow D))
    (hourly : D → ℕ → Option SlaHourInfo) :
    slaPhase days slaDaily hourly =
      keyedFold (fun drow => drow.date) (slaStep hourly) slaDaily days := by
  simp only [slaPhase, keyedFold, ensureDay, slaStep]
  induction slaDaily generalizing days with
  | nil => rfl
  | cons drow rest ih =>
    rw [List.foldl_cons, List.foldl_cons, setDay_setDay]
    exact ih _

theorem emailPhaseCls_eq (days : List (D × DayRecord D))
    (results : List (EmailRecord D)) :
    emailPhaseCls days results =
      phaseFold (emailStep results) (sortedDedup (results.map (fun r => r.date))) days := by
  simp only [emailPhaseCls, phaseFold, ensureDay, emailStep]
  induction (sortedDedup (results.map (fun r => r.date))) generalizing days with
  | nil => rfl
  | cons d rest ih =>
    rw [List.foldl_cons, List.foldl_cons, setDay_setDay]
    exact ih _

/-- A second email step on the binding a first email step produced changes
nothing. -/
theorem emailStep_id (results : List (EmailRecord D)) (d : D) (w : DayRecord D)
    (hw : w.hourly_data.length = 24) :
    emailStep results d (some (applyEmailDay w (results.filter (fun r => r.date = d)))) =
      applyEmailDay w (results.filter (fun r => r.date = d)) := by
  rw [emailStep, ensureNorm_some_of_length _ d
    (by rw [applyEmailDay_hourly_length]; exact hw)]
  exact applyEmailDay_applyEmailDay w _

/-- A second SLA step on the binding a first SLA step produced (possibly with
an email update applied on top) changes nothing. -/
theorem slaStep_id_plain (hourly : D → ℕ → Option SlaHourInfo) (drow : SlaDailyRow D)
    (w : DayRecord D) (hw : w.hourly_data.length = 24) :
    slaStep hourly drow (some (applySlaDay w drow (hourly drow.date))) =
      applySlaDay w drow (hourly drow.date) := by
  rw [slaStep, ensureNorm_some_of_length _ drow.date
    (by rw [applySlaDay_hourly_length]; exact hw)]
  exact applySlaDay_applySlaDay w drow _

theorem slaStep_id_email (hourly : D → ℕ → Option SlaHourInfo) (drow : SlaDailyRow D)
    (rows : List (EmailRecord D)) (w : DayRecord D) (hw : w.hourly_data.length = 24) :
    slaStep hourly drow
      (some (applyEmailDay (applySlaDay w drow (hourly drow.date)) rows)) =
      applyEmailDay (applySlaDay w drow (hourly drow.date)) rows := by
  rw [slaStep, ensureNorm_some_of_length _ drow.date
    (by rw [applyEmailDay_hourly_length, applySlaDay_hourly_length]; exact hw)]
  exact applySlaDay_email_applySlaDay w rows drow _

end Classifier

/-! ## Key preservation: merges only insert or update day bindings -/

theorem keys_foldl_superset {ι : Type}
    (step : List (D × DayRecord D) → ι → List (D × DayRecord D))
    (hstep : ∀ acc i k, k ∈ acc.map Prod.fst → k ∈ (step acc i).map Prod.fst)
    (xs : List ι) (l : List (D × DayRecord D)) (k : D) (hk : k ∈ l.map Prod.fst) :
    k ∈ (xs.foldl step l).map Prod.fst := by
  induction xs generalizing l with
  | nil => exact hk
  | cons x rest ih => exact ih (step l x) (hstep l x k hk)

theorem map_fst_sortPhase (ds : List (D × DayRecord D)) :
    (Ingester.sortPhase ds).map Prod.fst = ds.map Prod.fst := by
  simp [Ingester.sortPhase, List.map_map]

theorem mem_keys_emailPhase (days : List (D × DayRecord D)) (rows : List (EmailRecord D))
    (k : D) (hk : k ∈ days.map Prod.fst) :
    k ∈ (Ingester.emailPhase days rows).map Prod.fst := by
  exact keys_foldl_superset _ (fun acc i k hk => mem_keys_setDay acc i k _ hk) _ days k hk

theorem mem_keys_slaPhase (cfg : Ingester.Config) (days : List (D × DayRecord D))
    (rows : List (SlaRecord D)) (k : D) (hk : k ∈ days.map Prod.fst) :
    k ∈ (Ingester.slaPhase cfg days rows).map Prod.fst := by
  exact keys_foldl_superset _ (fun acc i k hk => mem_keys_setDay acc i k _ hk) _ days k hk

theorem mem_keys_slaPhaseCls (days : List (D × DayRecord D))
    (slaDaily : List (Classifier.SlaDailyRow D))
    (hourly : D → ℕ → Option Classifier.SlaHourInfo) (k : D) (hk : k ∈ days.map Prod.fst) :
    k ∈ (Classifier.slaPhase days slaDaily hourly).map Prod.fst := by
  refine keys_foldl_superset _ ?_ _ days k hk
  intro acc i k hk
  exact mem_keys_setDay _ _ _ _ (mem_keys_setDay _ _ _ _ hk)

theorem mem_keys_emailPhaseCls (days : List (D × DayRecord D))
    (results : List (EmailRecord D)) (k : D) (hk : k ∈ days.map Prod.fst) :
    k ∈ (Classifier.emailPhaseCls days results).map Prod.fst := by
  refine keys_foldl_superset _ ?_ _ days k hk
  intro acc i k hk
  exact mem_keys_setDay _ _ _ _ (mem_keys_setDay _ _ _ _ hk)

/-! ## Generic fold machinery for the idempotence and frame proofs -/

/-- A per-date fold whose every step rewrites the current binding with its
current value leaves the store untouched. -/
theorem phaseFold_id (G : D → Option (DayRecord D) → DayRecord D) (xs : List D)
    (l : List (D × DayRecord D))
    (hid : ∀ d ∈ xs, ∃ v, lookupDay l d = some v ∧ G d (some v) = v) :
    phaseFold G xs l = l := by
  simp only [phaseFold]
  induction xs with
  | nil => rfl
  | cons x rest ih =>
    obtain ⟨v, hv, hGv⟩ := hid x (List.mem_cons_self x rest)
    rw [List.foldl_cons, hv, hGv, setDay_eq_self l x v hv]
    exact ih (fun d hd => hid d (List.mem_cons_of_mem _ hd))

theorem lookupDay_phaseFold_notmem (G : D → Option (DayRecord D) → DayRecord D)
    (xs : List D) (l : List (D × DayRecord D)) (d : D) (hd : d ∉ xs) :
    lookupDay (phaseFold G xs l) d = lookupDay l d := by
  simp only [phaseFold]
  induction xs generalizing l with
  | nil => rfl
  | cons x rest ih =>
    have hdx : d ≠ x := fun hh => hd (hh ▸ List.mem_cons_self x rest)
    rw [List.foldl_cons, ih _ (fun hh => hd (List.mem_cons_of_mem _ hh)),
      lookupDay_setDay_ne _ _ _ _ hdx]

theorem lookupDay_phaseFold_mem (G : D → Option (DayRecord D) → DayRecord D)
    (xs : List D) (l : List (D × DayRecord D)) (d : D) (hnd : xs.Nodup) (hd : d ∈ xs) :
    lookupDay (phaseFold G xs l) d = some (G d (lookupDay l d)) := by
  induction xs generalizing l with
  | nil => simp at hd
  | cons x rest ih =>
    rcases List.nodup_cons.mp hnd with ⟨hx, hrest⟩
    show lookupDay (phaseFold G rest (setDay l x (G x (lookupDay l x)))) d = _
    by_cases hdx : d = x
    · subst hdx
      rw [lookupDay_phaseFold_notmem G rest _ d hx, lookupDay_setDay_self]
    · rcases List.mem_cons.mp hd with rfl | hdr
      · exact absurd rfl hdx
      · rw [ih _ hrest hdr, lookupDay_setDay_ne _ _ _ _ hdx]

/-- An hour-slot fold whose every step rewrites the (present) target slot with
its current value leaves the list untouched. -/
theorem hourFold_id {ι : Type} (key : ι → ℕ) (f : ι → HourEntry → HourEntry)
    (xs : List ι) (l : List HourEntry)
    (hid : ∀ i ∈ xs, ∃ e, slotVal l (key i) = some e ∧ f i e = e) :
    hourFold key f xs l = l := by
  simp only [hourFold]
  induction xs with
  | nil => rfl
  | cons x rest ih =>
    obtain ⟨e, he, hfe⟩ := hid x (List.mem_cons_self x rest)
    rw [List.foldl_cons, updateHour_eq_self l (key x) (f x) e he hfe]
    exact ih (fun i hi => hid i (List.mem_cons_of_mem _ hi))

theorem slotVal_hourFold_notmem {ι : Type} (key : ι → ℕ) (f : ι → HourEntry → HourEntry)
    (hf : ∀ i e, (f i e).hour = e.hour) (xs : List ι) (l : List HourEntry) (h : ℕ)
    (hx : ∀ i ∈ xs, key i ≠ h) :
    slotVal (hourFold key f xs l) h = slotVal l h := by
  simp only [hourFold]
  induction xs generalizing l with
  | nil => rfl
  | cons x rest ih =>
    rw [List.foldl_cons, ih _ (fun i hi => hx i (List.mem_cons_of_mem _ hi)),
      slotVal_updateHour_ne _ _ _ _ (hf x)
        (Ne.symm (hx x (List.mem_cons_self x rest)))]

/-- When `i` is the unique fold element keyed at its hour, the fold leaves the
slot at that hour holding `f i` applied to the base slot value. -/
theorem slotVal_hourFold_mem_nodup {ι : Type} (key : ι → ℕ) (f : ι → HourEntry → HourEntry)
    (hf : ∀ i e, (f i e).hour = e.hour) (xs : List ι) (hnd : (xs.map key).Nodup)
    (i : ι) (hi : i ∈ xs) (l : List HourEntry) :
    slotVal (hourFold key f xs l) (key i) =
      some (f i ((slotVal l (key i)).getD { hour := key i })) := by
  induction xs generalizing l with
  | nil => simp at hi
  | cons x rest ih =>
    rw [List.map_cons, List.nodup_cons] at hnd
    obtain ⟨hxk, hrest⟩ := hnd
    rw [hourFold_cons]
    by_cases hxh : key x = key i
    · have hxi : i = x := by
        rcases List.mem_cons.mp hi with rfl | hir
        · rfl
        · exact absurd (hxh ▸ List.mem_map_of_mem key hir) hxk
      subst hxi
      rw [slotVal_hourFold_notmem key f hf rest _ (key i) ?_,
        slotVal_updateHour_self _ _ _ (hf i)]
      intro j hj hjh
      exact hxk (hjh ▸ List.mem_map_of_mem key hj)
    · rcases List.mem_cons.mp hi with rfl | hir
      · exact absurd rfl hxh
      · rw [ih hrest hir _, slotVal_updateHour_ne _ _ _ _ (hf x) (fun hc => hxh hc.symm)]

/-! ## Idempotence of `IntelligentIngester.merge_with_existing` (claim C1) -/

namespace Ingester

theorem emailHourSet_hour (rows : List (EmailRecord D)) (h : ℕ) (e : HourEntry) :
    (emailHourSet rows h e).hour = e.hour := rfl

theorem slaHourSet_hour (r : SlaRecord D) (e : HourEntry) :
    (slaHourSet r e).hour = e.hour := rfl

theorem emailHourSet_emailHourSet (rows : List (EmailRecord D)) (h : ℕ) (e : HourEntry) :
    emailHourSet rows h (emailHourSet rows h e) = emailHourSet rows h e := by
  cases e; rfl

theorem slaHourSet_slaHourSet (r : SlaRecord D) (e : HourEntry) :
    slaHourSet r (slaHourSet r e) = slaHourSet r e := by cases e; rfl

theorem emailHourSet_slaHourSet (rows : List (EmailRecord D)) (h : ℕ) (r : SlaRecord D)
    (e : HourEntry) :
    emailHourSet rows h (slaHourSet r e) = slaHourSet r (emailHourSet rows h e) := by
  cases e; rfl

theorem emailSummary_emailSummary (rows : List (EmailRecord D)) (s : DaySummary) :
    emailSummary rows (emailSummary rows s) = emailSummary rows s := by cases s; rfl

theorem daySummary_ext (a b : DaySummary) (h1 : a.total_emails = b.total_emails)
    (h2 : a.replied_count = b.replied_count) (h3 : a.completed_count = b.completed_count)
    (h4 : a.pending_count = b.pending_count)
    (h5 : a.reply_rate_percent = b.reply_rate_percent)
    (h6 : a.avg_response_time_minutes = b.avg_response_time_minutes)
    (h7 : a.median_response_time_minutes = b.median_response_time_minutes)
    (h8 : a.sla_compliance_rate = b.sla_compliance_rate)
    (h9 : a.avg_unread_count = b.avg_unread_count) : a = b := by
  cases a; cases b; simp_all

theorem slaSummary_total (cfg : Config) (srows : List (SlaRecord D)) (s : DaySummary) :
    (slaSummary cfg srows s).total_emails = s.total_emails := by
  simp only [slaSummary]; split <;> rfl

theorem slaSummary_replied (cfg : Config) (srows : List (SlaRecord D)) (s : DaySummary) :
    (slaSummary cfg srows s).replied_count = s.replied_count := by
  simp only [slaSummary]; split <;> rfl

theorem slaSummary_completed (cfg : Config) (srows : List (SlaRecord D)) (s : DaySummary) :
    (slaSummary cfg srows s).completed_count = s.completed_count := by
  simp only [slaSummary]; split <;> rfl

theorem slaSummary_pending (cfg : Config) (srows : List (SlaRecord D)) (s : DaySummary) :
    (slaSummary cfg srows s).pending_count = s.pending_count := by
  simp only [slaSummary]; split <;> rfl

theorem slaSummary_reply_rate (cfg : Config) (srows : List (SlaRecord D)) (s : DaySummary) :
    (slaSummary cfg srows s).reply_rate_percent = s.reply_rate_percent := by
  simp only [slaSummary]; split <;> rfl

theorem slaSummary_avg_rt (cfg : Config) (srows : List (SlaRecord D)) (s : DaySummary) :
    (slaSummary cfg srows s).avg_response_time_minutes = s.avg_response_time_minutes := by
  simp only [slaSummary]; split <;> rfl

theorem slaSummary_median_rt (cfg : Config) (srows : List (SlaRecord D)) (s : DaySummary) :
    (slaSummary cfg srows s).median_response_time_minutes =
      s.median_response_time_minutes := by
  simp only [slaSummary]; split <;> rfl

theorem slaSummary_rate (cfg : Config) (srows : List (SlaRecord D)) (s : DaySummary) :
    (slaSummary cfg srows s).sla_compliance_rate =
      if (srows.filter (fun r =>
          cfg.business_start_hour ≤ r.hour ∧ r.hour < cfg.business_end_hour)).isEmpty
      then s.sla_compliance_rate
      else some (round1 ((((srows.filter (fun r =>
          cfg.business_start_hour ≤ r.hour ∧ r.hour < cfg.business_end_hour)).filter
            (fun r => r.sla_met)).length : ℚ) /
          (srows.filter (fun r =>
          cfg.business_start_hour ≤ r.hour ∧ r.hour < cfg.business_end_hour)).length *
          100)) := by
  simp only [slaSummary]
  split <;> rename_i hc <;> simp [hc]

theorem slaSummary_unread (cfg : Config) (srows : List (SlaRecord D)) (s : DaySummary) :
    (slaSummary cfg srows s).avg_unread_count =
      if (srows.filter (fun r =>
          cfg.business_start_hour ≤ r.hour ∧ r.hour < cfg.business_end_hour)).isEmpty
      then s.avg_unread_count
      else some (round1 (meanQ ((srows.filter (fun r =>
          cfg.business_start_hour ≤ r.hour ∧ r.hour < cfg.business_end_hour)).map
            (fun r => (r.total_unread : ℚ))))) := by
  simp only [slaSummary]
  split <;> rename_i hc <;> simp [hc]

theorem slaSummary_slaSummary (cfg : Config) (rows : List (SlaRecord D)) (s : DaySummary) :
    slaSummary cfg rows (slaSummary cfg rows s) = slaSummary cfg rows s := by
  refine daySummary_ext _ _ ?_ ?_ ?_ ?_ ?_ ?_ ?_ ?_ ?_
  · simp only [slaSummary_total]
  · simp only [slaSummary_replied]
  · simp only [slaSummary_completed]
  · simp only [slaSummary_pending]
  · simp only [slaSummary_reply_rate]
  · simp only [slaSummary_avg_rt]
  · simp only [slaSummary_median_rt]
  · simp only [slaSummary_rate, slaSummary_total]
    split <;> rfl
  · simp only [slaSummary_unread, slaSummary_total]
    split <;> rfl

theorem emailSummary_slaSummary (rows : List (EmailRecord D)) (cfg : Config)
    (srows : List (SlaRecord D)) (s : DaySummary) :
    emailSummary rows (slaSummary cfg srows s) =
      slaSummary cfg srows (emailSummary rows s) := by
  refine daySummary_ext _ _ ?_ ?_ ?_ ?_ ?_ ?_ ?_ ?_ ?_
  · rw [slaSummary_total]; rfl
  · rw [slaSummary_replied]; rfl
  · rw [slaSummary_completed]; rfl
  · rw [slaSummary_pending]; rfl
  · rw [slaSummary_reply_rate]; rfl
  · rw [slaSummary_avg_rt]; rfl
  · rw [slaSummary_median_rt]; rfl
  · show (slaSummary cfg srows s).sla_compliance_rate = _
    rw [slaSummary_rate, slaSummary_rate]
    split <;> rfl
  · show (slaSummary cfg srows s).avg_unread_count = _
    rw [slaSummary_unread, slaSummary_unread]
    split <;> rfl

theorem emailDayUpdate_has_email (o : Option (DayRecord D)) (d : D)
    (rows : List (EmailRecord D)) : (emailDayUpdate o d rows).has_email_data = true := by
  cases o <;> rfl

theorem slaDayUpdate_has_sla (cfg : Config) (o : Option (DayRecord D)) (d : D)
    (rows : List (SlaRecord D)) : (slaDayUpdate cfg o d rows).has_sla_data = true := by
  cases o <;> rfl

theorem slaDayUpdate_has_email (cfg : Config) (r : DayRecord D) (d : D)
    (rows : List (SlaRecord D)) :
    (slaDayUpdate cfg (some r) d rows).has_email_data = r.has_email_data := rfl

theorem emailDayUpdate_summary (o : Option (DayRecord D)) (d : D)
    (rows : List (EmailRecord D)) :
    (emailDayUpdate o d rows).daily_summary =
      emailSummary rows (emailBase o d).daily_summary := rfl

theorem emailDayUpdate_hourly (o : Option (DayRecord D)) (d : D)
    (rows : List (EmailRecord D)) :
    (emailDayUpdate o d rows).hourly_data =
      hourFold (fun h => h) (emailHourSet rows) (List.range 24)
        (emailBase o d).hourly_data := rfl

theorem slaDayUpdate_summary (cfg : Config) (o : Option (DayRecord D)) (d : D)
    (rows : List (SlaRecord D)) :
    (slaDayUpdate cfg o d rows).daily_summary =
      slaSummary cfg rows (slaBase o d).daily_summary := rfl

theorem slaDayUpdate_hourly (cfg : Config) (o : Option (DayRecord D)) (d : D)
    (rows : List (SlaRecord D)) :
    (slaDayUpdate cfg o d rows).hourly_data =
      hourFold (fun r => r.hour) slaHourSet rows (slaBase o d).hourly_data := rfl

theorem emailBase_some_summary (r : DayRecord D) (d : D) :
    (emailBase (some r) d).daily_summary = r.daily_summary := rfl

theorem emailBase_some_hourly (r : DayRecord D) (d : D) :
    (emailBase (some r) d).hourly_data = r.hourly_data := rfl

theorem slaBase_some_summary (r : DayRecord D) (d : D) :
    (slaBase (some r) d).daily_summary = r.daily_summary := rfl

theorem slaBase_some_hourly (r : DayRecord D) (d : D) :
    (slaBase (some r) d).hourly_data = r.hourly_data := rfl

theorem sortDay_has_email (r : DayRecord D) :
    (sortDay r).has_email_data = r.has_email_data := rfl

theorem sortDay_has_sla (r : DayRecord D) :
    (sortDay r).has_sla_data = r.has_sla_data := rfl

theorem sortDay_summary (r : DayRecord D) :
    (sortDay r).daily_summary = r.daily_summary := rfl

theorem sortDay_hourly (r : DayRecord D) :
    (sortDay r).hourly_data = sortHourly r.hourly_data := rfl

/-- Re-running the per-day email update on a day that already carries exactly
its result changes nothing. -/
theorem emailDayUpdate_id (v : DayRecord D) (d : D) (rows : List (EmailRecord D))
    (hflag : v.has_email_data = true)
    (hsum : emailSummary rows v.daily_summary = v.daily_summary)
    (hhour : hourFold (fun h => h) (emailHourSet rows) (List.range 24) v.hourly_data =
      v.hourly_data) :
    emailDayUpdate (some v) d rows = v := by
  cases v with
  | mk date he hs sum hd =>
    simp only at hflag
    subst hflag
    simp only [emailDayUpdate, emailBase, DayRecord.mk.injEq]
    exact ⟨trivial, trivial, trivial, hsum, hhour⟩

/-- Re-running the per-day SLA update on a day that already carries exactly
its result changes nothing. -/
theorem slaDayUpdate_id (cfg : Config) (v : DayRecord D) (d : D)
    (rows : List (SlaRecord D)) (hflag : v.has_sla_data = true)
    (hsum : slaSummary cfg rows v.daily_summary = v.daily_summary)
    (hhour : hourFold (fun r => r.hour) slaHourSet rows v.hourly_data = v.hourly_data) :
    slaDayUpdate cfg (some v) d rows = v := by
  cases v with
  | mk date he hs sum hd =>
    simp only at hflag
    subst hflag
    simp only [slaDayUpdate, slaBase, DayRecord.mk.injEq]
    exact ⟨trivial, trivial, trivial, hsum, hhour⟩

theorem lookupDay_sortPhase (l : List (D × DayRecord D)) (d : D) :
    lookupDay (sortPhase l) d = (lookupDay l d).map sortDay := by
  induction l with
  | nil => rfl
  | cons kv rest ih =>
    rcases kv with ⟨k, v⟩
    simp only [sortPhase, List.map_cons, lookupDay]
    by_cases hk : k = d
    · rw [if_pos hk, if_pos hk]
      rfl
    · rw [if_neg hk, if_neg hk]
      exact ih

theorem sortDay_sortDay (r : DayRecord D) : sortDay (sortDay r) = sortDay r := by
  cases r
  simp only [sortDay, DayRecord.mk.injEq]
  exact ⟨trivial, trivial, trivial, trivial, sortHourly_idem _⟩

theorem sortPhase_sortPhase (l : List (D × DayRecord D)) :
    sortPhase (sortPhase l) = sortPhase l := by
  induction l with
  | nil => rfl
  | cons kv rest ih =>
    simp only [sortPhase, List.map_cons, List.cons.injEq, Prod.mk.injEq] at ih ⊢
    exact ⟨⟨trivial, sortDay_sortDay kv.2⟩, ih⟩

theorem updateMeta_idem (md0 : Metadata D) (days : List (D × DayRecord D)) (now : String) :
    updateMeta { (updateMeta { md0 with last_updated := now } days) with
        last_updated := now } days =
      updateMeta { md0 with last_updated := now } days := by
  cases md0
  simp only [updateMeta]
  by_cases hemp : (days.map Prod.fst).isEmpty
  · simp [hemp]
  · simp [hemp]

/-- The merge, unfolded into its four stages. -/
theorem mergeWithExisting_eq (cfg : Config) (db : Database D)
    (eR : List (EmailRecord D)) (sR : List (SlaRecord D)) (now : String) :
    mergeWithExisting cfg db eR sR now =
      ⟨updateMeta { db.metadata with last_updated := now }
          (sortPhase (phaseFold
            (fun d o => slaDayUpdate cfg o d (sR.filter (fun r => r.date = d)))
            (uniqueKeys (sR.map (fun r => r.date)))
            (phaseFold (fun d o => emailDayUpdate o d (eR.filter (fun r => r.date = d)))
              (uniqueKeys (eR.map (fun r => r.date))) db.days))),
        sortPhase (phaseFold
          (fun d o => slaDayUpdate cfg o d (sR.filter (fun r => r.date = d)))
          (uniqueKeys (sR.map (fun r => r.date)))
          (phaseFold (fun d o => emailDayUpdate o d (eR.filter (fun r => r.date = d)))
            (uniqueKeys (eR.map (fun r => r.date))) db.days))⟩ := rfl

/-- After a first pass, the stored day for an email date that also carries SLA
data absorbs a second email update. -/
theorem final_email_day_id (cfg : Config) (d : D) (erows : List (EmailRecord D))
    (srows : List (SlaRecord D)) (hsnd : (srows.map (fun r => r.hour)).Nodup)
    (o : Option (DayRecord D)) :
    emailDayUpdate
      (some (sortDay (slaDayUpdate cfg (some (emailDayUpdate o d erows)) d srows)))
      d erows =
      sortDay (slaDayUpdate cfg (some (emailDayUpdate o d erows)) d srows) := by
  have hrange : ((List.range 24).map (fun h => h)).Nodup := by
    simpa [List.map_id'] using List.nodup_range (n := 24)
  refine emailDayUpdate_id _ d _ ?_ ?_ ?_
  · rw [sortDay_has_email, slaDayUpdate_has_email, emailDayUpdate_has_email]
  · rw [sortDay_summary, slaDayUpdate_summary, slaBase_some_summary,
      emailDayUpdate_summary, emailSummary_slaSummary, emailSummary_emailSummary]
  · rw [sortDay_hourly, slaDayUpdate_hourly, slaBase_some_hourly, emailDayUpdate_hourly]
    refine hourFold_id _ _ _ _ ?_
    intro h hh
    simp only [slotVal_sortHourly]
    have hemail : slotVal (hourFold (fun h => h) (emailHourSet erows) (List.range 24)
        (emailBase o d).hourly_data) h =
        some (emailHourSet erows h
          ((slotVal (emailBase o d).hourly_data h).getD { hour := h })) :=
      slotVal_hourFold_mem_nodup (fun h => h) (emailHourSet erows) (fun i e => rfl)
        (List.range 24) hrange h hh _
    by_cases hrow : ∃ r ∈ srows, r.hour = h
    · obtain ⟨r, hr, hrh⟩ := hrow
      subst hrh
      rw [slotVal_hourFold_mem_nodup (fun r => r.hour) slaHourSet (fun i e => rfl)
        srows hsnd r hr _, hemail, Option.getD_some]
      refine ⟨_, rfl, ?_⟩
      rw [emailHourSet_slaHourSet, emailHourSet_emailHourSet]
    · push_neg at hrow
      rw [slotVal_hourFold_notmem (fun r => r.hour) slaHourSet (fun i e => rfl)
        srows _ h hrow, hemail]
      exact ⟨_, rfl, emailHourSet_emailHourSet _ _ _⟩

/-- After a first pass, the stored day for an email date with no SLA data
absorbs a second email update. -/
theorem final_email_day_id_nosla (d : D) (erows : List (EmailRecord D))
    (o : Option (DayRecord D)) :
    emailDayUpdate (some (sortDay (emailDayUpdate o d erows))) d erows =
      sortDay (emailDayUpdate o d erows) := by
  have hrange : ((List.range 24).map (fun h => h)).Nodup := by
    simpa [List.map_id'] using List.nodup_range (n := 24)
  refine emailDayUpdate_id _ d _ ?_ ?_ ?_
  · rw [sortDay_has_email, emailDayUpdate_has_email]
  · rw [sortDay_summary, emailDayUpdate_summary, emailSummary_emailSummary]
  · rw [sortDay_hourly, emailDayUpdate_hourly]
    refine hourFold_id _ _ _ _ ?_
    intro h hh
    simp only [slotVal_sortHourly]
    rw [slotVal_hourFold_mem_nodup (fun h => h) (emailHourSet erows) (fun i e => rfl)
      (List.range 24) hrange h hh _]
    exact ⟨_, rfl, emailHourSet_emailHourSet _ _ _⟩

/-- After a first pass, the stored day for an SLA date absorbs a second SLA
update (whatever the email phase left in the binding). -/
theorem final_sla_day_id (cfg : Config) (d : D) (srows : List (SlaRecord D))
    (hsnd : (srows.map (fun r => r.hour)).Nodup) (o : Option (DayRecord D)) :
    slaDayUpdate cfg (some (sortDay (slaDayUpdate cfg o d srows))) d srows =
      sortDay (slaDayUpdate cfg o d srows) := by
  refine slaDayUpdate_id cfg _ d _ ?_ ?_ ?_
  · rw [sortDay_has_sla, slaDayUpdate_has_sla]
  · rw [sortDay_summary, slaDayUpdate_summary, slaSummary_slaSummary]
  · rw [sortDay_hourly, slaDayUpdate_hourly]
    refine hourFold_id _ _ _ _ ?_
    intro r hr
    simp only [slotVal_sortHourly]
    rw [slotVal_hourFold_mem_nodup (fun r => r.hour) slaHourSet (fun i e => rfl)
      srows hsnd r hr _]
    exact ⟨_, rfl, slaHourSet_slaHourSet _ _⟩

/-- Idempotence of the ingester merge, for batches in which each `(date, hour)`
pair carries at most one unread-count snapshot (one reading per hour, as the
`UnreadCount.csv` format provides). -/
theorem merge_idem (cfg : Config) (db : Database D) (eR : List (EmailRecord D))
    (sR : List (SlaRecord D)) (now : String)
    (hnd : (sR.map (fun r => (r.date, r.hour))).Nodup) :
    mergeWithExisting cfg (mergeWithExisting cfg db eR sR now) eR sR now =
      mergeWithExisting cfg db eR sR now := by
  have hhours : ∀ d : D,
      ((sR.filter (fun r => r.date = d)).map (fun r => r.hour)).Nodup := by
    intro d
    have hsub : ((sR.filter (fun r => r.date = d)).map
        (fun r => (r.date, r.hour))).Nodup :=
      ((List.filter_sublist sR).map _).nodup hnd
    have hmm : (sR.filter (fun r => r.date = d)).map (fun r => r.hour) =
        ((sR.filter (fun r => r.date = d)).map (fun r => (r.date, r.hour))).map
          Prod.snd := by
      rw [List.map_map]
      rfl
    rw [hmm]
    refine hsub.map_on ?_
    intro p hp q hq hpq
    have hpd : p.1 = d := by
      obtain ⟨r, hr, rfl⟩ := List.mem_map.mp hp
      show r.date = d
      have h2 : decide (r.date = d) = true := (List.mem_filter.mp hr).2
      exact of_decide_eq_true h2
    have hqd : q.1 = d := by
      obtain ⟨r, hr, rfl⟩ := List.mem_map.mp hq
      show r.date = d
      have h2 : decide (r.date = d) = true := (List.mem_filter.mp hr).2
      exact of_decide_eq_true h2
    cases p; cases q
    simp only at hpd hqd hpq
    simp [hpd, hqd, hpq]
  rw [mergeWithExisting_eq cfg db eR sR now,
    mergeWithExisting_eq cfg ⟨_, _⟩ eR sR now]
  have hidE : ∀ d ∈ uniqueKeys (eR.map (fun r => r.date)), ∃ v,
      lookupDay (sortPhase (phaseFold
        (fun d o => slaDayUpdate cfg o d (sR.filter (fun r => r.date = d)))
        (uniqueKeys (sR.map (fun r => r.date)))
        (phaseFold (fun d o => emailDayUpdate o d (eR.filter (fun r => r.date = d)))
          (uniqueKeys (eR.map (fun r => r.date))) db.days))) d = some v ∧
      emailDayUpdate (some v) d (eR.filter (fun r => r.date = d)) = v := by
    intro d hd
    rw [lookupDay_sortPhase]
    have h1 : lookupDay (phaseFold
        (fun d o => emailDayUpdate o d (eR.filter (fun r => r.date = d)))
        (uniqueKeys (eR.map (fun r => r.date))) db.days) d =
        some (emailDayUpdate (lookupDay db.days d) d
          (eR.filter (fun r => r.date = d))) :=
      lookupDay_phaseFold_mem _ _ _ _ (uniqueKeys_nodup _) hd
    by_cases hds : d ∈ uniqueKeys (sR.map (fun r => r.date))
    · rw [lookupDay_phaseFold_mem _ _ _ _ (uniqueKeys_nodup _) hds, h1]
      exact ⟨_, rfl, final_email_day_id cfg d _ _ (hhours d) _⟩
    · rw [lookupDay_phaseFold_notmem _ _ _ _ hds, h1]
      exact ⟨_, rfl, final_email_day_id_nosla d _ _⟩
  have hidS : ∀ d ∈ uniqueKeys (sR.map (fun r => r.date)), ∃ v,
      lookupDay (sortPhase (phaseFold
        (fun d o => slaDayUpdate cfg o d (sR.filter (fun r => r.date = d)))
        (uniqueKeys (sR.map (fun r => r.date)))
        (phaseFold (fun d o => emailDayUpdate o d (eR.filter (fun r => r.date = d)))
          (uniqueKeys (eR.map (fun r => r.date))) db.days))) d = some v ∧
      slaDayUpdate cfg (some v) d (sR.filter (fun r => r.date = d)) = v := by
    intro d hd
    rw [lookupDay_sortPhase, lookupDay_phaseFold_mem _ _ _ _ (uniqueKeys_nodup _) hd]
    exact ⟨_, rfl, final_sla_day_id cfg d _ (hhours d) _⟩
  have hdays : sortPhase (phaseFold
      (fun d o => slaDayUpdate cfg o d (sR.filter (fun r => r.date = d)))
      (uniqueKeys (sR.map (fun r => r.date)))
      (phaseFold (fun d o => emailDayUpdate o d (eR.filter (fun r => r.date = d)))
        (uniqueKeys (eR.map (fun r => r.date)))
        (sortPhase (phaseFold
          (fun d o => slaDayUpdate cfg o d (sR.filter (fun r => r.date = d)))
          (uniqueKeys (sR.map (fun r => r.date)))
          (phaseFold (fun d o => emailDayUpdate o d (eR.filter (fun r => r.date = d)))
            (uniqueKeys (eR.map (fun r => r.date))) db.days))))) =
      sortPhase (phaseFold
        (fun d o => slaDayUpdate cfg o d (sR.filter (fun r => r.date = d)))
        (uniqueKeys (sR.map (fun r => r.date)))
        (phaseFold (fun d o => emailDayUpdate o d (eR.filter (fun r => r.date = d)))
          (uniqueKeys (eR.map (fun r => r.date))) db.days)) := by
    have hE := phaseFold_id
      (fun d o => emailDayUpdate o d (eR.filter (fun r => r.date = d)))
      (uniqueKeys (eR.map (fun r => r.date))) _ hidE
    have hS := phaseFold_id
      (fun d o => slaDayUpdate cfg o d (sR.filter (fun r => r.date = d)))
      (uniqueKeys (sR.map (fun r => r.date))) _ hidS
    rw [hE, hS, sortPhase_sortPhase]
  simp only [hdays]
  rw [Database.mk.injEq]
  exact ⟨updateMeta_idem db.metadata _ now, rfl⟩

end Ingester

/-! ## The classifier merge run twice -/

namespace Classifier

/-- Unfolding of `saveToUnifiedJson` into its metadata fields and day list. -/
theorem saveToUnifiedJson_eq (db : Database D) (results : List (EmailRecord D))
    (slaDaily : List (SlaDailyRow D)) (slaHourly : D → ℕ → Option SlaHourInfo)
    (newSources : List String) (now : String) :
    saveToUnifiedJson db results slaDaily slaHourly newSources now =
      { metadata :=
          { last_updated := now
            total_days_processed :=
              (emailPhaseCls (slaPhase db.days slaDaily slaHourly) results).length
            data_sources := sortedDedup (db.metadata.data_sources ++ newSources)
            earliest_date := (sortLE ((emailPhaseCls (slaPhase db.days slaDaily slaHourly)
              results).map (fun kv => kv.1))).head?
            latest_date := (sortLE ((emailPhaseCls (slaPhase db.days slaDaily slaHourly)
              results).map (fun kv => kv.1))).getLast? }
        days := emailPhaseCls (slaPhase db.days slaDaily slaHourly) results } := rfl

/-- Running the classifier's SLA and email phases a second time over their own
output changes no day record, provided the SLA daily table has no duplicate
dates. -/
theorem phases_idem (days0 : List (D × DayRecord D)) (results : List (EmailRecord D))
    (slaDaily : List (SlaDailyRow D)) (slaHourly : D → ℕ → Option SlaHourInfo)
    (hnd : (slaDaily.map (fun r => r.date)).Nodup) :
    emailPhaseCls (slaPhase (emailPhaseCls (slaPhase days0 slaDaily slaHourly) results)
        slaDaily slaHourly) results =
      emailPhaseCls (slaPhase days0 slaDaily slaHourly) results := by
  have hlook1 : ∀ drow ∈ slaDaily,
      lookupDay (slaPhase days0 slaDaily slaHourly) drow.date =
        some (slaStep slaHourly drow (lookupDay days0 drow.date)) := by
    intro drow hdrow
    rw [slaPhase_eq]
    exact lookupDay_keyedFold_mem _ _ _ hnd drow hdrow days0
  have hsla2 : slaPhase (emailPhaseCls (slaPhase days0 slaDaily slaHourly) results)
      slaDaily slaHourly =
      emailPhaseCls (slaPhase days0 slaDaily slaHourly) results := by
    rw [slaPhase_eq (emailPhaseCls (slaPhase days0 slaDaily slaHourly) results)]
    refine keyedFold_id _ _ _ _ (fun drow hdrow => ?_)
    show ∃ v, lookupDay (emailPhaseCls (slaPhase days0 slaDaily slaHourly) results)
        drow.date = some v ∧ slaStep slaHourly drow (some v) = v
    by_cases hd : drow.date ∈ sortedDedup (results.map (fun r => r.date))
    · rw [emailPhaseCls_eq, lookupDay_phaseFold_mem _ _ _ _ (sortedDedup_nodup _) hd,
        hlook1 drow hdrow]
      have hlen : (slaStep slaHourly drow (lookupDay days0 drow.date)).hourly_data.length
          = 24 := by
        show (applySlaDay (ensureNorm (lookupDay days0 drow.date) drow.date) drow
          (slaHourly drow.date)).hourly_data.length = 24
        rw [applySlaDay_hourly_length, ensureNorm_hourly_length]
      have hrw : emailStep results drow.date
          (some (slaStep slaHourly drow (lookupDay days0 drow.date))) =
          applyEmailDay (slaStep slaHourly drow (lookupDay days0 drow.date))
            (results.filter (fun r => r.date = drow.date)) := by
        show applyEmailDay
          (ensureNorm (some (slaStep slaHourly drow (lookupDay days0 drow.date)))
            drow.date) (results.filter (fun r => r.date = drow.date)) = _
        rw [ensureNorm_some_of_length _ _ hlen]
      refine ⟨_, rfl, ?_⟩
      rw [hrw]
      exact slaStep_id_email slaHourly drow (results.filter (fun r => r.date = drow.date))
        (ensureNorm (lookupDay days0 drow.date) drow.date) (ensureNorm_hourly_length _ _)
    · rw [emailPhaseCls_eq, lookupDay_phaseFold_notmem _ _ _ _ hd, hlook1 drow hdrow]
      refine ⟨_, rfl, ?_⟩
      exact slaStep_id_plain slaHourly drow
        (ensureNorm (lookupDay days0 drow.date) drow.date) (ensureNorm_hourly_length _ _)
  have hemail2 : emailPhaseCls (emailPhaseCls (slaPhase days0 slaDaily slaHourly) results)
      results = emailPhaseCls (slaPhase days0 slaDaily slaHourly) results := by
    rw [emailPhaseCls_eq (emailPhaseCls (slaPhase days0 slaDaily slaHourly) results) results]
    refine phaseFold_id _ _ _ (fun d hd => ?_)
    rw [emailPhaseCls_eq, lookupDay_phaseFold_mem _ _ _ _ (sortedDedup_nodup _) hd]
    refine ⟨_, rfl, ?_⟩
    exact emailStep_id results d
      (ensureNorm (lookupDay (slaPhase days0 slaDaily slaHourly) d) d)
      (ensureNorm_hourly_length _ _)
  rw [hsla2]
  exact hemail2

/-- `save_to_unified_json` run twice with the same inputs yields the same
database as running it once, provided the SLA daily table has no duplicate
dates. -/
theorem saveToUnifiedJson_idem (db : Database D) (results : List (EmailRecord D))
    (slaDaily : List (SlaDailyRow D)) (slaHourly : D → ℕ → Option SlaHourInfo)
    (newSources : List String) (now : String)
    (hnd : (slaDaily.map (fun r => r.date)).Nodup) :
    saveToUnifiedJson (saveToUnifiedJson db results slaDaily slaHourly newSources now)
      results slaDaily slaHourly newSources now =
    saveToUnifiedJson db results slaDaily slaHourly newSources now := by
  have hdays := phases_idem db.days results slaDaily slaHourly hnd
  have hsrc : sortedDedup (sortedDedup (db.metadata.data_sources ++ newSources)
      ++ newSources) = sortedDedup (db.metadata.data_sources ++ newSources) := by
    refine sortedDedup_congr _ _ (fun x => ?_)
    simp only [List.mem_append, mem_sortedDedup]
    tauto
  rw [saveToUnifiedJson_eq db, saveToUnifiedJson_eq]
  simp only [hdays, hsrc]

end Classifier

/-- C1: Merging a batch of day records into the store is idempotent, for both
merge implementations: `IntelligentIngester.merge_with_existing` (for valid
batches, i.e. SLA snapshot batches with at most one reading per `(date, hour)`
pair, as the `UnreadCount.csv` format provides) and
`EmailClassifier.save_to_unified_json` (for valid SLA daily tables with one
row per date, as `process_sla_daily_data`'s groupby produces) — running the
merge a second time with the same inputs reproduces the same database, day
records and metadata alike. -/
theorem C1_merge_idempotent (cfg : Ingester.Config) (db db' : Database D)
    (eR : List (EmailRecord D)) (sR : List (SlaRecord D))
    (results : List (EmailRecord D)) (slaDaily : List (Classifier.SlaDailyRow D))
    (slaHourly : D → ℕ → Option Classifier.SlaHourInfo) (newSources : List String)
    (now : String)
    (hndI : (sR.map (fun r => (r.date, r.hour))).Nodup)
    (hndC : (slaDaily.map (fun r => r.date)).Nodup) :
    Ingester.mergeWithExisting cfg (Ingester.mergeWithExisting cfg db eR sR now)
        eR sR now =
      Ingester.mergeWithExisting cfg db eR sR now ∧
    Classifier.saveToUnifiedJson
        (Classifier.saveToUnifiedJson db' results slaDaily slaHourly newSources now)
        results slaDaily slaHourly newSources now =
      Classifier.saveToUnifiedJson db' results slaDaily slaHourly newSources now :=
  ⟨Ingester.merge_idem cfg db eR sR now hndI,
   Classifier.saveToUnifiedJson_idem db' results slaDaily slaHourly newSources now hndC⟩

theorem C1_merge_idempotent_witness :
    ((([⟨1, 9, 3, true⟩, ⟨1, 10, 2, false⟩] : List (SlaRecord ℕ)).map
        (fun r => (r.date, r.hour))).Nodup ∧
      (([⟨1, 95, some 2⟩] : List (Classifier.SlaDailyRow ℕ)).map
        (fun r => r.date)).Nodup) ∧
    (Ingester.mergeWithExisting ⟨8, 17⟩
        (Ingester.mergeWithExisting ⟨8, 17⟩ ⟨⟨"", 0, [], none, none⟩, []⟩
          [⟨1, 9, EStatus.Replied, some 5⟩] [⟨1, 9, 3, true⟩, ⟨1, 10, 2, false⟩] "t")
        [⟨1, 9, EStatus.Replied, some 5⟩] [⟨1, 9, 3, true⟩, ⟨1, 10, 2, false⟩] "t" =
      Ingester.mergeWithExisting ⟨8, 17⟩ ⟨⟨"", 0, [], none, none⟩, []⟩
        [⟨1, 9, EStatus.Replied, some 5⟩] [⟨1, 9, 3, true⟩, ⟨1, 10, 2, false⟩] "t" ∧
     Classifier.saveToUnifiedJson
        (Classifier.saveToUnifiedJson ⟨⟨"", 0, [], none, none⟩, []⟩
          [⟨1, 9, EStatus.Replied, some 5⟩] [⟨1, 95, some 2⟩] (fun _ _ => none)
          ["a.csv"] "t")
        [⟨1, 9, EStatus.Replied, some 5⟩] [⟨1, 95, some 2⟩] (fun _ _ => none)
        ["a.csv"] "t" =
      Classifier.saveToUnifiedJson ⟨⟨"", 0, [], none, none⟩, []⟩
        [⟨1, 9, EStatus.Replied, some 5⟩] [⟨1, 95, some 2⟩] (fun _ _ => none)
        ["a.csv"] "t") :=
  ⟨⟨by decide, by decide⟩,
    C1_merge_idempotent ⟨8, 17⟩ ⟨⟨"", 0, [], none, none⟩, []⟩
      ⟨⟨"", 0, [], none, none⟩, []⟩
      [⟨1, 9, EStatus.Replied, some 5⟩] [⟨1, 9, 3, true⟩, ⟨1, 10, 2, false⟩]
      [⟨1, 9, EStatus.Replied, some 5⟩] [⟨1, 95, some 2⟩] (fun _ _ => none)
      ["a.csv"] "t" (by decide) (by decide)⟩

/-! ## The conversation matcher (claim C2)

`EmailClassifier.find_matching_event` works on one conversation's event frame
(sorted by timestamp, from the `sort_values(['Conversation-Id', 'TimeStamp'])`
on load); `IntelligentIngester.process_email_events` keeps per-conversation
`reply_events`/`completed_events` lists appended in frame order, so each is
also sorted by timestamp. Timestamps are ℤ (microseconds since the epoch). -/

namespace Matcher

inductive EvType
  | Inbox
  | Replied
  | Completed
  | Other
deriving DecidableEq, Repr

structure Event where
  ts : ℤ
  etype : EvType
deriving DecidableEq, Repr

/-- `EmailClassifier.find_matching_event` (lines 179-204): filter events
strictly after the inbox timestamp; first Replied if any, else first
Completed, else Pending. -/
def findMatchingEvent (inboxTime : ℤ) (conversationEvents : List Event) :
    Option Event × EStatus :=
  let laterEvents := conversationEvents.filter (fun e => inboxTime < e.ts)
  let repliedEvents := laterEvents.filter (fun e => e.etype = EvType.Replied)
  if ¬ repliedEvents.isEmpty then (repliedEvents.head?, EStatus.Replied)
  else
    let completedEvents := laterEvents.filter (fun e => e.etype = EvType.Completed)
    if ¬ completedEvents.isEmpty then (completedEvents.head?, EStatus.Completed)
    else (none, EStatus.Pending)

/-- The matcher loop of `IntelligentIngester.process_email_events` (lines
191-208): break at the first reply strictly later than the inbox; if none, at
the first completed strictly later; else Pending. -/
def ingesterMatch (inboxTime : ℤ) (replyEvents completedEvents : List Event) :
    Option Event × EStatus :=
  match replyEvents.find? (fun r => inboxTime < r.ts) with
  | some r => (some r, EStatus.Replied)
  | none =>
    match completedEvents.find? (fun c => inboxTime < c.ts) with
    | some c => (some c, EStatus.Completed)
    | none => (none, EStatus.Pending)

/-- The head of a filtered timestamp-sorted list is a minimal-timestamp
element among the matches. -/
theorem filter_head_min (p : Event → Bool) (l : List Event)
    (hs : l.Pairwise (fun a b => a.ts ≤ b.ts)) (m : Event) (rest : List Event)
    (hf : l.filter p = m :: rest) :
    m ∈ l ∧ p m = true ∧ ∀ e ∈ l, p e = true → m.ts ≤ e.ts := by
  have hm : m ∈ l.filter p := by rw [hf]; exact List.mem_cons_self m rest
  have hml : m ∈ l := List.mem_of_mem_filter hm
  have hpm : p m = true := List.of_mem_filter hm
  refine ⟨hml, hpm, fun e he hpe => ?_⟩
  have hef : e ∈ l.filter p := List.mem_filter.mpr ⟨he, hpe⟩
  have hpf : (l.filter p).Pairwise (fun a b => a.ts ≤ b.ts) :=
    List.Pairwise.sublist (List.filter_sublist _) hs
  rw [hf] at hef hpf
  rcases List.mem_cons.mp hef with rfl | hr
  · exact le_refl _
  · exact (List.pairwise_cons.mp hpf).1 e hr

/-- The first match of `find?` in a timestamp-sorted list has minimal
timestamp among the matches. -/
theorem find?_min_ts (p : Event → Bool) (l : List Event)
    (hs : l.Pairwise (fun a b => a.ts ≤ b.ts)) (m : Event)
    (hf : l.find? p = some m) :
    ∀ e ∈ l, p e = true → m.ts ≤ e.ts := by
  induction l with
  | nil => simp at hf
  | cons x rest ih =>
    rcases List.pairwise_cons.mp hs with ⟨hx, hrest⟩
    by_cases hpx : p x = true
    · rw [List.find?_cons_of_pos _ hpx] at hf
      rcases Option.some.inj hf with rfl
      intro e he hpe
      rcases List.mem_cons.mp he with rfl | hr
      · exact le_refl _
      · exact hx e hr
    · rw [List.find?_cons_of_neg _ hpx] at hf
      intro e he hpe
      rcases List.mem_cons.mp he with rfl | hr
      · exact absurd hpe hpx
      · exact ih hrest hf e hr hpe

theorem findMatchingEvent_replied (inboxTime : ℤ) (events : List Event)
    (hs : events.Pairwise (fun a b => a.ts ≤ b.ts))
    (h : ∃ e ∈ events, inboxTime < e.ts ∧ e.etype = EvType.Replied) :
    ∃ m, findMatchingEvent inboxTime events = (some m, EStatus.Replied) ∧
      m ∈ events ∧ inboxTime < m.ts ∧ m.etype = EvType.Replied ∧
      ∀ e ∈ events, inboxTime < e.ts → e.etype = EvType.Replied → m.ts ≤ e.ts := by
  obtain ⟨w, hw, hwts, hwty⟩ := h
  have hwrep : w ∈ (events.filter (fun e => inboxTime < e.ts)).filter
      (fun e => e.etype = EvType.Replied) :=
    List.mem_filter.mpr ⟨List.mem_filter.mpr ⟨hw, by simpa using hwts⟩, by simpa using hwty⟩
  cases hrep : (events.filter (fun e => inboxTime < e.ts)).filter
      (fun e => e.etype = EvType.Replied) with
  | nil => rw [hrep] at hwrep; simp at hwrep
  | cons m rest =>
    have hslater : (events.filter (fun e => inboxTime < e.ts)).Pairwise
        (fun a b => a.ts ≤ b.ts) := List.Pairwise.sublist (List.filter_sublist _) hs
    obtain ⟨hml, hpm, hmin⟩ := filter_head_min _ _ hslater m rest hrep
    refine ⟨m, by simp [findMatchingEvent, hrep],
      List.mem_of_mem_filter hml, ?_, ?_, fun e he hts hty => ?_⟩
    · exact of_decide_eq_true ((List.mem_filter.mp hml).2)
    · exact of_decide_eq_true hpm
    · exact hmin e (List.mem_filter.mpr ⟨he, by simpa using hts⟩) (by simpa using hty)

theorem findMatchingEvent_completed (inboxTime : ℤ) (events : List Event)
    (hs : events.Pairwise (fun a b => a.ts ≤ b.ts))
    (hno : ∀ e ∈ events, inboxTime < e.ts → ¬ e.etype = EvType.Replied)
    (h : ∃ e ∈ events, inboxTime < e.ts ∧ e.etype = EvType.Completed) :
    ∃ m, findMatchingEvent inboxTime events = (some m, EStatus.Completed) ∧
      m ∈ events ∧ inboxTime < m.ts ∧ m.etype = EvType.Completed ∧
      ∀ e ∈ events, inboxTime < e.ts → e.etype = EvType.Completed → m.ts ≤ e.ts := by
  obtain ⟨w, hw, hwts, hwty⟩ := h
  have hrepnil : (events.filter (fun e => inboxTime < e.ts)).filter
      (fun e => e.etype = EvType.Replied) = [] := by
    rw [List.filter_eq_nil_iff]
    intro e he
    have h1 : inboxTime < e.ts := of_decide_eq_true ((List.mem_filter.mp he).2)
    simpa using hno e (List.mem_of_mem_filter he) h1
  have hwcom : w ∈ (events.filter (fun e => inboxTime < e.ts)).filter
      (fun e => e.etype = EvType.Completed) :=
    List.mem_filter.mpr ⟨List.mem_filter.mpr ⟨hw, by simpa using hwts⟩, by simpa using hwty⟩
  cases hcom : (events.filter (fun e => inboxTime < e.ts)).filter
      (fun e => e.etype = EvType.Completed) with
  | nil => rw [hcom] at hwcom; simp at hwcom
  | cons m rest =>
    have hslater : (events.filter (fun e => inboxTime < e.ts)).Pairwise
        (fun a b => a.ts ≤ b.ts) := List.Pairwise.sublist (List.filter_sublist _) hs
    obtain ⟨hml, hpm, hmin⟩ := filter_head_min _ _ hslater m rest hcom
    refine ⟨m, by simp [findMatchingEvent, hrepnil, hcom],
      List.mem_of_mem_filter hml, ?_, ?_, fun e he hts hty => ?_⟩
    · exact of_decide_eq_true ((List.mem_filter.mp hml).2)
    · exact of_decide_eq_true hpm
    · exact hmin e (List.mem_filter.mpr ⟨he, by simpa using hts⟩) (by simpa using hty)

theorem findMatchingEvent_pending (inboxTime : ℤ) (events : List Event)
    (hno : ∀ e ∈ events, inboxTime < e.ts →
      ¬ e.etype = EvType.Replied ∧ ¬ e.etype = EvType.Completed) :
    findMatchingEvent inboxTime events = (none, EStatus.Pending) := by
  have hrepnil : (events.filter (fun e => inboxTime < e.ts)).filter
      (fun e => e.etype = EvType.Replied) = [] := by
    rw [List.filter_eq_nil_iff]
    intro e he
    have h1 : inboxTime < e.ts := of_decide_eq_true ((List.mem_filter.mp he).2)
    simpa using (hno e (List.mem_of_mem_filter he) h1).1
  have hcomnil : (events.filter (fun e => inboxTime < e.ts)).filter
      (fun e => e.etype = EvType.Completed) = [] := by
    rw [List.filter_eq_nil_iff]
    intro e he
    have h1 : inboxTime < e.ts := of_decide_eq_true ((List.mem_filter.mp he).2)
    simpa using (hno e (List.mem_of_mem_filter he) h1).2
  simp [findMatchingEvent, hrepnil, hcomnil]

theorem ingesterMatch_replied (inboxTime : ℤ) (replies completeds : List Event)
    (hs : replies.Pairwise (fun a b => a.ts ≤ b.ts))
    (h : ∃ r ∈ replies, inboxTime < r.ts) :
    ∃ m, ingesterMatch inboxTime replies completeds = (some m, EStatus.Replied) ∧
      m ∈ replies ∧ inboxTime < m.ts ∧
      ∀ r ∈ replies, inboxTime < r.ts → m.ts ≤ r.ts := by
  obtain ⟨w, hw, hwts⟩ := h
  have hsome : (replies.find? (fun r => inboxTime < r.ts)).isSome := by
    rw [List.find?_isSome]
    exact ⟨w, hw, by simpa using hwts⟩
  cases hfind : replies.find? (fun r => inboxTime < r.ts) with
  | none => rw [hfind] at hsome; simp at hsome
  | some m =>
    have hpm := List.find?_some hfind
    refine ⟨m, by simp [ingesterMatch, hfind], List.mem_of_find?_eq_some hfind,
      of_decide_eq_true hpm, fun r hr hts => ?_⟩
    exact find?_min_ts _ _ hs m hfind r hr (by simpa using hts)

theorem ingesterMatch_completed (inboxTime : ℤ) (replies completeds : List Event)
    (hs : completeds.Pairwise (fun a b => a.ts ≤ b.ts))
    (hno : ∀ r ∈ replies, ¬ inboxTime < r.ts)
    (h : ∃ c ∈ completeds, inboxTime < c.ts) :
    ∃ m, ingesterMatch inboxTime replies completeds = (some m, EStatus.Completed) ∧
      m ∈ completeds ∧ inboxTime < m.ts ∧
      ∀ c ∈ completeds, inboxTime < c.ts → m.ts ≤ c.ts := by
  obtain ⟨w, hw, hwts⟩ := h
  have hrnone : replies.find? (fun r => inboxTime < r.ts) = none := by
    rw [List.find?_eq_none]
    intro r hr
    simpa using hno r hr
  have hsome : (completeds.find? (fun c => inboxTime < c.ts)).isSome := by
    rw [List.find?_isSome]
    exact ⟨w, hw, by simpa using hwts⟩
  cases hfind : completeds.find? (fun c => inboxTime < c.ts) with
  | none => rw [hfind] at hsome; simp at hsome
  | some m =>
    have hpm := List.find?_some hfind
    refine ⟨m, by simp [ingesterMatch, hrnone, hfind], List.mem_of_find?_eq_some hfind,
      of_decide_eq_true hpm, fun c hc hts => ?_⟩
    exact find?_min_ts _ _ hs m hfind c hc (by simpa using hts)

theorem ingesterMatch_pending (inboxTime : ℤ) (replies completeds : List Event)
    (hnor : ∀ r ∈ replies, ¬ inboxTime < r.ts)
    (hnoc : ∀ c ∈ completeds, ¬ inboxTime < c.ts) :
    ingesterMatch inboxTime replies completeds = (none, EStatus.Pending) := by
  have hrnone : replies.find? (fun r => inboxTime < r.ts) = none := by
    rw [List.find?_eq_none]
    intro r hr
    simpa using hnor r hr
  have hcnone : completeds.find? (fun c => inboxTime < c.ts) = none := by
    rw [List.find?_eq_none]
    intro c hc
    simpa using hnoc c hc
  simp [ingesterMatch, hrnone, hcnone]

end Matcher

/-- C2: Both matcher implementations consider only events strictly later than
the Inbox timestamp and prefer Replied over Completed regardless of
chronology: on a timestamp-sorted conversation frame
(`EmailClassifier.find_matching_event`) and on timestamp-sorted per-type event
lists (`IntelligentIngester.process_email_events`), if any strictly-later
Replied event exists the result is the earliest such Replied event with status
Replied (even when a Completed event is chronologically earlier); otherwise,
if any strictly-later Completed event exists, the earliest such Completed
event with status Completed; otherwise status Pending with no matched
event. -/
theorem C2_matcher_priority (inboxTime : ℤ)
    (events replies completeds : List Matcher.Event)
    (hs : events.Pairwise (fun a b => a.ts ≤ b.ts))
    (hsr : replies.Pairwise (fun a b => a.ts ≤ b.ts))
    (hsc : completeds.Pairwise (fun a b => a.ts ≤ b.ts)) :
    ((∃ e ∈ events, inboxTime < e.ts ∧ e.etype = Matcher.EvType.Replied) →
      ∃ m, Matcher.findMatchingEvent inboxTime events = (some m, EStatus.Replied) ∧
        m ∈ events ∧ inboxTime < m.ts ∧ m.etype = Matcher.EvType.Replied ∧
        ∀ e ∈ events, inboxTime < e.ts → e.etype = Matcher.EvType.Replied →
          m.ts ≤ e.ts) ∧
    ((∀ e ∈ events, inboxTime < e.ts → ¬ e.etype = Matcher.EvType.Replied) →
      (∃ e ∈ events, inboxTime < e.ts ∧ e.etype = Matcher.EvType.Completed) →
      ∃ m, Matcher.findMatchingEvent inboxTime events = (some m, EStatus.Completed) ∧
        m ∈ events ∧ inboxTime < m.ts ∧ m.etype = Matcher.EvType.Completed ∧
        ∀ e ∈ events, inboxTime < e.ts → e.etype = Matcher.EvType.Completed →
          m.ts ≤ e.ts) ∧
    ((∀ e ∈ events, inboxTime < e.ts →
        ¬ e.etype = Matcher.EvType.Replied ∧ ¬ e.etype = Matcher.EvType.Completed) →
      Matcher.findMatchingEvent inboxTime events = (none, EStatus.Pending)) ∧
    ((∃ r ∈ replies, inboxTime < r.ts) →
      ∃ m, Matcher.ingesterMatch inboxTime replies completeds =
          (some m, EStatus.Replied) ∧
        m ∈ replies ∧ inboxTime < m.ts ∧
        ∀ r ∈ replies, inboxTime < r.ts → m.ts ≤ r.ts) ∧
    ((∀ r ∈ replies, ¬ inboxTime < r.ts) → (∃ c ∈ completeds, inboxTime < c.ts) →
      ∃ m, Matcher.ingesterMatch inboxTime replies completeds =
          (some m, EStatus.Completed) ∧
        m ∈ completeds ∧ inboxTime < m.ts ∧
        ∀ c ∈ completeds, inboxTime < c.ts → m.ts ≤ c.ts) ∧
    ((∀ r ∈ replies, ¬ inboxTime < r.ts) → (∀ c ∈ completeds, ¬ inboxTime < c.ts) →
      Matcher.ingesterMatch inboxTime replies completeds = (none, EStatus.Pending)) :=
  ⟨fun h => Matcher.findMatchingEvent_replied inboxTime events hs h,
   fun hno h => Matcher.findMatchingEvent_completed inboxTime events hs hno h,
   fun hno => Matcher.findMatchingEvent_pending inboxTime events hno,
   fun h => Matcher.ingesterMatch_replied inboxTime replies completeds hsr h,
   fun hno h => Matcher.ingesterMatch_completed inboxTime replies completeds hsc hno h,
   fun hnor hnoc => Matcher.ingesterMatch_pending inboxTime replies completeds hnor hnoc⟩

theorem C2_matcher_priority_witness :
    (([⟨0, Matcher.EvType.Inbox⟩, ⟨10, Matcher.EvType.Completed⟩,
        ⟨30, Matcher.EvType.Replied⟩] : List Matcher.Event).Pairwise
      (fun a b => a.ts ≤ b.ts) ∧
     ([⟨30, Matcher.EvType.Replied⟩] : List Matcher.Event).Pairwise
      (fun a b => a.ts ≤ b.ts) ∧
     ([⟨10, Matcher.EvType.Completed⟩] : List Matcher.Event).Pairwise
      (fun a b => a.ts ≤ b.ts)) ∧
    ((∃ e ∈ ([⟨0, Matcher.EvType.Inbox⟩, ⟨10, Matcher.EvType.Completed⟩,
        ⟨30, Matcher.EvType.Replied⟩] : List Matcher.Event),
        (0 : ℤ) < e.ts ∧ e.etype = Matcher.EvType.Replied) →
      ∃ m, Matcher.findMatchingEvent 0 [⟨0, Matcher.EvType.Inbox⟩,
          ⟨10, Matcher.EvType.Completed⟩, ⟨30, Matcher.EvType.Replied⟩] =
          (some m, EStatus.Replied) ∧
        m ∈ ([⟨0, Matcher.EvType.Inbox⟩, ⟨10, Matcher.EvType.Completed⟩,
          ⟨30, Matcher.EvType.Replied⟩] : List Matcher.Event) ∧
        (0 : ℤ) < m.ts ∧ m.etype = Matcher.EvType.Replied ∧
        ∀ e ∈ ([⟨0, Matcher.EvType.Inbox⟩, ⟨10, Matcher.EvType.Completed⟩,
          ⟨30, Matcher.EvType.Replied⟩] : List Matcher.Event),
          (0 : ℤ) < e.ts → e.etype = Matcher.EvType.Replied → m.ts ≤ e.ts) :=
  ⟨⟨by decide, by decide, by decide⟩,
    (C2_matcher_priority 0
      [⟨0, Matcher.EvType.Inbox⟩, ⟨10, Matcher.EvType.Completed⟩,
        ⟨30, Matcher.EvType.Replied⟩]
      [⟨30, Matcher.EvType.Replied⟩] [⟨10, Matcher.EvType.Completed⟩]
      (by decide) (by decide) (by decide)).1⟩

/-! ## The 24-slot invariant (claim C3) -/

/-- A well-formed `hourly_data` list: exactly the hours `0..23` in ascending
order (hence exactly 24 entries). -/
def hours24 (l : List HourEntry) : Prop :=
  l.map (fun e => e.hour) = List.range 24

instance (l : List HourEntry) : Decidable (hours24 l) :=
  inferInstanceAs (Decidable (l.map (fun e => e.hour) = List.range 24))

/-- Every stored day of the association list is well-formed. -/
def allHours24 (days : List (D × DayRecord D)) : Prop :=
  ∀ kv ∈ days, hours24 kv.2.hourly_data

instance (days : List (D × DayRecord D)) : Decidable (allHours24 days) :=
  inferInstanceAs (Decidable (∀ kv ∈ days, hours24 kv.2.hourly_data))

theorem hours24_length (l : List HourEntry) (h : hours24 l) : l.length = 24 := by
  have h2 := congrArg List.length h
  simpa using h2

theorem hours24_sortedH (l : List HourEntry) (h : hours24 l) : SortedH l := by
  have hp : (l.map (fun e => e.hour)).Pairwise (fun a b => a ≤ b) := by
    rw [h]
    exact (List.pairwise_lt_range 24).imp le_of_lt
  exact List.pairwise_map.mp hp

theorem hours24_rangeMap (g : ℕ → HourEntry) (hg : ∀ h, (g h).hour = h) :
    hours24 ((List.range 24).map g) := by
  show ((List.range 24).map g).map (fun e => e.hour) = List.range 24
  rw [List.map_map]
  have hfun : (fun e => e.hour) ∘ g = fun h => h := funext hg
  rw [hfun]
  exact List.map_id' _

theorem map_hour_updateHour (l : List HourEntry) (h : ℕ) (f : HourEntry → HourEntry)
    (hf : ∀ e, (f e).hour = e.hour) (hmem : h ∈ l.map (fun e => e.hour)) :
    (updateHour l h f).map (fun e => e.hour) = l.map (fun e => e.hour) := by
  induction l with
  | nil => simp at hmem
  | cons x rest ih =>
    by_cases hx : x.hour = h
    · simp only [updateHour, if_pos hx, List.map_cons, hf]
    · have hmem2 : h ∈ rest.map (fun e => e.hour) := by
        rw [List.map_cons] at hmem
        rcases List.mem_cons.mp hmem with heq | hm
        · exact absurd heq.symm hx
        · exact hm
      simp only [updateHour, if_neg hx, List.map_cons, ih hmem2]

theorem map_hour_hourFold {ι : Type} (key : ι → ℕ) (f : ι → HourEntry → HourEntry)
    (hf : ∀ i e, (f i e).hour = e.hour) (xs : List ι) (l : List HourEntry)
    (hmem : ∀ i ∈ xs, key i ∈ l.map (fun e => e.hour)) :
    (hourFold key f xs l).map (fun e => e.hour) = l.map (fun e => e.hour) := by
  induction xs generalizing l with
  | nil => rw [hourFold_nil]
  | cons x rest ih =>
    rw [hourFold_cons]
    have h1 := map_hour_updateHour l (key x) (f x) (hf x)
      (hmem x (List.mem_cons_self _ _))
    rw [ih (updateHour l (key x) (f x))
      (fun i hi => by rw [h1]; exact hmem i (List.mem_cons_of_mem _ hi)), h1]

theorem hours24_hourFold {ι : Type} (key : ι → ℕ) (f : ι → HourEntry → HourEntry)
    (hf : ∀ i e, (f i e).hour = e.hour) (xs : List ι) (l : List HourEntry)
    (hl : hours24 l) (hkeys : ∀ i ∈ xs, key i < 24) :
    hours24 (hourFold key f xs l) := by
  show (hourFold key f xs l).map (fun e => e.hour) = List.range 24
  rw [map_hour_hourFold key f hf xs l
    (fun i hi => by rw [hl]; exact List.mem_range.mpr (hkeys i hi))]
  exact hl

theorem map_hour_mapIdxH (f : ℕ → HourEntry → HourEntry)
    (hf : ∀ i e, (f i e).hour = e.hour) (n : ℕ) (l : List HourEntry) :
    (mapIdxH f n l).map (fun e => e.hour) = l.map (fun e => e.hour) := by
  induction l generalizing n with
  | nil => rfl
  | cons e rest ih => simp [mapIdxH, hf, ih]

theorem mem_setDay (l : List (D × DayRecord D)) (d : D) (r : DayRecord D)
    (kv : D × DayRecord D) (h : kv ∈ setDay l d r) : kv ∈ l ∨ kv = (d, r) := by
  induction l with
  | nil =>
    right
    simpa [setDay] using h
  | cons x rest ih =>
    rcases x with ⟨k, v⟩
    simp only [setDay] at h
    by_cases hk : k = d
    · rw [if_pos hk] at h
      rcases List.mem_cons.mp h with rfl | hm
      · right
        rw [hk]
      · left
        exact List.mem_cons_of_mem _ hm
    · rw [if_neg hk] at h
      rcases List.mem_cons.mp h with rfl | hm
      · left
        exact List.mem_cons_self _ _
      · rcases ih hm with h1 | h2
        · left
          exact List.mem_cons_of_mem _ h1
        · right
          exact h2

theorem lookupDay_mem (l : List (D × DayRecord D)) (d : D) (v : DayRecord D)
    (h : lookupDay l d = some v) : (d, v) ∈ l := by
  induction l with
  | nil => simp [lookupDay] at h
  | cons kv rest ih =>
    rcases kv with ⟨k, w⟩
    rw [lookupDay] at h
    by_cases hk : k = d
    · rw [if_pos hk] at h
      rcases Option.some.inj h with rfl
      rw [← hk]
      exact List.mem_cons_self _ _
    · rw [if_neg hk] at h
      exact List.mem_cons_of_mem _ (ih h)

theorem allHours24_setDay (days : List (D × DayRecord D)) (d : D) (r : DayRecord D)
    (hdays : allHours24 days) (hr : hours24 r.hourly_data) :
    allHours24 (setDay days d r) := by
  intro kv hkv
  rcases mem_setDay days d r kv hkv with hm | rfl
  · exact hdays kv hm
  · exact hr

theorem allHours24_phaseFold (G : D → Option (DayRecord D) → DayRecord D) (xs : List D)
    (l : List (D × DayRecord D)) (hl : allHours24 l)
    (hG : ∀ d (acc : List (D × DayRecord D)), allHours24 acc →
      hours24 (G d (lookupDay acc d)).hourly_data) :
    allHours24 (phaseFold G xs l) := by
  induction xs generalizing l with
  | nil => exact hl
  | cons x rest ih =>
    show allHours24 (phaseFold G rest (setDay l x (G x (lookupDay l x))))
    exact ih _ (allHours24_setDay _ _ _ hl (hG x l hl))

theorem allHours24_keyedFold {ι : Type} (key : ι → D)
    (G : ι → Option (DayRecord D) → DayRecord D) (xs : List ι)
    (l : List (D × DayRecord D)) (hl : allHours24 l)
    (hG : ∀ i (acc : List (D × DayRecord D)), allHours24 acc →
      hours24 (G i (lookupDay acc (key i))).hourly_data) :
    allHours24 (keyedFold key G xs l) := by
  induction xs generalizing l with
  | nil => exact hl
  | cons x rest ih =>
    show allHours24 (keyedFold key G rest
      (setDay l (key x) (G x (lookupDay l (key x)))))
    exact ih _ (allHours24_setDay _ _ _ hl (hG x l hl))

theorem allHours24_sortPhase (days : List (D × DayRecord D)) (h : allHours24 days) :
    allHours24 (Ingester.sortPhase days) := by
  intro kv hkv
  obtain ⟨⟨k, v⟩, hmem, rfl⟩ := List.mem_map.mp hkv
  show hours24 (Ingester.sortDay v).hourly_data
  rw [Ingester.sortDay_hourly]
  have hv := h _ hmem
  rw [sortHourly_eq_self _ (hours24_sortedH _ hv)]
  exact hv

theorem hours24_emailDayUpdate (o : Option (DayRecord D)) (d : D)
    (rows : List (EmailRecord D)) (ho : ∀ r, o = some r → hours24 r.hourly_data) :
    hours24 (Ingester.emailDayUpdate o d rows).hourly_data := by
  rw [hours24, Ingester.emailDayUpdate_hourly]
  refine hours24_hourFold (fun h => h) (Ingester.emailHourSet rows) (fun i e => rfl)
    (List.range 24) _ ?_ (fun i hi => List.mem_range.mp hi)
  cases o with
  | none => exact hours24_rangeMap (fun h => { hour := h }) (fun h => rfl)
  | some r =>
    rw [Ingester.emailBase_some_hourly]
    exact ho r rfl

theorem hours24_slaDayUpdate (cfg : Ingester.Config) (o : Option (DayRecord D)) (d : D)
    (rows : List (SlaRecord D)) (ho : ∀ r, o = some r → hours24 r.hourly_data)
    (hrows : ∀ r ∈ rows, r.hour < 24) :
    hours24 (Ingester.slaDayUpdate cfg o d rows).hourly_data := by
  rw [hours24, Ingester.slaDayUpdate_hourly]
  refine hours24_hourFold (fun r => r.hour) Ingester.slaHourSet (fun i e => rfl)
    rows _ ?_ hrows
  cases o with
  | none => exact hours24_rangeMap (fun h => { hour := h }) (fun h => rfl)
  | some r =>
    rw [Ingester.slaBase_some_hourly]
    exact ho r rfl

theorem hours24_ensureNorm (o : Option (DayRecord D)) (d : D)
    (ho : ∀ r, o = some r → hours24 r.hourly_data) :
    hours24 (Classifier.ensureNorm o d).hourly_data := by
  cases o with
  | none =>
    show hours24 (Classifier.normalize24 (Classifier.freshDay (D := D) d).hourly_data)
    rw [Classifier.normalize24_of_length _ (by simp [Classifier.freshDay])]
    exact hours24_rangeMap Classifier.defaultSlot (fun h => rfl)
  | some r =>
    rw [Classifier.ensureNorm_some_of_length r d (hours24_length _ (ho r rfl))]
    exact ho r rfl

theorem hours24_slaStep (hourly : D → ℕ → Option Classifier.SlaHourInfo)
    (drow : Classifier.SlaDailyRow D) (o : Option (DayRecord D))
    (ho : ∀ r, o = some r → hours24 r.hourly_data) :
    hours24 (Classifier.slaStep hourly drow o).hourly_data := by
  show hours24 (Classifier.applySlaDay (Classifier.ensureNorm o drow.date) drow
    (hourly drow.date)).hourly_data
  rw [hours24, Classifier.applySlaDay_hourly,
    map_hour_mapIdxH (Classifier.slaHourCls (hourly drow.date)) (fun i e => rfl)]
  exact hours24_ensureNorm o drow.date ho

theorem hours24_emailStep (results : List (EmailRecord D)) (d : D)
    (o : Option (DayRecord D)) (ho : ∀ r, o = some r → hours24 r.hourly_data) :
    hours24 (Classifier.emailStep results d o).hourly_data := by
  show hours24 (Classifier.applyEmailDay (Classifier.ensureNorm o d)
    (results.filter (fun r => r.date = d))).hourly_data
  rw [hours24, Classifier.applyEmailDay_hourly,
    map_hour_mapIdxH (Classifier.emailHourCls (results.filter (fun r => r.date = d)))
      (fun i e => rfl)]
  exact hours24_ensureNorm o d ho

/-- C3 counterexample: the claim quantifies over ANY starting database, but a
malformed stored day (here: empty `hourly_data`) that the input batch does not
touch is carried over by the ingester merge unchanged, so the merged store
violates the 24-slot invariant. -/
theorem C3_hourly24_counterexample :
    ∃ r, lookupDay (Ingester.mergeWithExisting (D := ℕ) ⟨8, 17⟩
        ⟨⟨"", 1, [], some 1, some 1⟩, [(1, ⟨1, true, false, {}, []⟩)]⟩ [] [] "t").days
        1 = some r ∧
      ¬ hours24 r.hourly_data := by
  refine ⟨⟨1, true, false, {}, []⟩, rfl, by decide⟩

/-- C3 (amended): the 24-slot invariant (24 entries, hours 0..23 ascending) is
an invariant PRESERVED by both merges rather than established on arbitrary
stores: if every stored day is well-formed — and, for the ingester, every SLA
snapshot's hour is below 24 — then every day of the merged store is
well-formed, however sparse the inputs.  On stores containing a malformed day
the batch does not touch, the original claim fails
(`C3_hourly24_counterexample`). -/
theorem C3_merges_preserve_hours24 (cfg : Ingester.Config) (db db' : Database D)
    (eR : List (EmailRecord D)) (sR : List (SlaRecord D))
    (results : List (EmailRecord D)) (slaDaily : List (Classifier.SlaDailyRow D))
    (slaHourly : D → ℕ → Option Classifier.SlaHourInfo) (newSources : List String)
    (now : String)
    (hdb : allHours24 db.days) (hsR : ∀ r ∈ sR, r.hour < 24)
    (hdb' : allHours24 db'.days) :
    allHours24 (Ingester.mergeWithExisting cfg db eR sR now).days ∧
    allHours24 (Classifier.saveToUnifiedJson db' results slaDaily slaHourly
      newSources now).days := by
  constructor
  · show allHours24 (Ingester.sortPhase
      (Ingester.slaPhase cfg (Ingester.emailPhase db.days eR) sR))
    refine allHours24_sortPhase _ ?_
    refine allHours24_phaseFold _ _ _ ?_ ?_
    · refine allHours24_phaseFold _ _ _ hdb ?_
      intro d acc hacc
      exact hours24_emailDayUpdate _ d _
        (fun r hr => hacc (d, r) (lookupDay_mem _ _ _ hr))
    · intro d acc hacc
      refine hours24_slaDayUpdate cfg _ d _
        (fun r hr => hacc (d, r) (lookupDay_mem _ _ _ hr)) ?_
      intro r hr
      exact hsR r (List.mem_of_mem_filter hr)
  · show allHours24 (Classifier.emailPhaseCls
      (Classifier.slaPhase db'.days slaDaily slaHourly) results)
    rw [Classifier.emailPhaseCls_eq, Classifier.slaPhase_eq]
    refine allHours24_phaseFold _ _ _ ?_ ?_
    · refine allHours24_keyedFold _ _ _ _ hdb' ?_
      intro drow acc hacc
      exact hours24_slaStep slaHourly drow _
        (fun r hr => hacc (_, r) (lookupDay_mem _ _ _ hr))
    · intro d acc hacc
      exact hours24_emailStep results d _
        (fun r hr => hacc (d, r) (lookupDay_mem _ _ _ hr))

theorem C3_merges_preserve_hours24_witness :
    (allHours24 (([] : List (ℕ × DayRecord ℕ))) ∧
      (∀ r ∈ ([⟨1, 9, 3, true⟩] : List (SlaRecord ℕ)), r.hour < 24)) ∧
    (allHours24 (Ingester.mergeWithExisting (D := ℕ) ⟨8, 17⟩
        ⟨⟨"", 0, [], none, none⟩, []⟩ [⟨1, 9, EStatus.Replied, some 5⟩]
        [⟨1, 9, 3, true⟩] "t").days ∧
      allHours24 (Classifier.saveToUnifiedJson (D := ℕ) ⟨⟨"", 0, [], none, none⟩, []⟩
        [⟨1, 9, EStatus.Replied, some 5⟩] [⟨1, 95, some 2⟩] (fun _ _ => none)
        ["a.csv"] "t").days) :=
  ⟨⟨by decide, by decide⟩,
    C3_merges_preserve_hours24 ⟨8, 17⟩ ⟨⟨"", 0, [], none, none⟩, []⟩
      ⟨⟨"", 0, [], none, none⟩, []⟩ [⟨1, 9, EStatus.Replied, some 5⟩]
      [⟨1, 9, 3, true⟩] [⟨1, 9, EStatus.Replied, some 5⟩] [⟨1, 95, some 2⟩]
      (fun _ _ => none) ["a.csv"] "t" (by decide) (by decide) (by decide)⟩

/-! ## Business-minute computation (claim C4)

`calculate_business_minutes` is textually identical in the two scripts
(classifier lines 143-177, ingester lines 116-141); one model covers both.
Timestamps are ℤ microseconds since the epoch (1970-01-01 was a Thursday, so
`weekday() == 3` there); `replace(hour=h, minute=0, second=0, microsecond=0)`
is the day's midnight plus `h` hours, and the `None` path for missing inputs
is outside the model (the claim speaks of actual instants). -/

namespace BizCal

def DAY : ℤ := 86400000000

def HOUR : ℤ := 3600000000

/-- The calendar day of a timestamp (floor division; Python `datetime.date`
boundaries for naive timestamps). -/
def dayIndex (t : ℤ) : ℤ := t / DAY

/-- Midnight of the timestamp's day: `replace(hour=0, minute=0, ...)`. -/
def dayStart (t : ℤ) : ℤ := dayIndex t * DAY

/-- Python `weekday()`: Monday = 0; day 0 (1970-01-01) is a Thursday (3). -/
def weekday (t : ℤ) : ℤ := (dayIndex t + 3).emod 7

/-- `business_start_hour`, `business_end_hour`, `business_days`. -/
structure Config where
  business_start_hour : ℕ
  business_end_hour : ℕ
  business_days : List ℤ
deriving DecidableEq, Repr

/-- The body of one `while` iteration (lines 128-137 / 159-172): on a business
day, count the minutes of `(max cur day_start, min end day_end)` if the window
is nonempty. -/
def dayContribution (cfg : Config) (endTime cur : ℤ) : ℚ :=
  if weekday cur ∈ cfg.business_days then
    let dayS := dayStart cur + (cfg.business_start_hour : ℤ) * HOUR
    let dayE := dayStart cur + (cfg.business_end_hour : ℤ) * HOUR
    let periodStart := max cur dayS
    let periodEnd := min endTime dayE
    if periodStart < periodEnd then ((periodEnd - periodStart : ℤ) : ℚ) / 60000000 else 0
  else 0

/-- The `while current_time < end_time` loop (lines 127-139 / 157-175), with
explicit fuel; each iteration advances to the next midnight. -/
def bmLoop (cfg : Config) (endTime : ℤ) : ℤ → ℕ → ℚ
  | _, 0 => 0
  | cur, n + 1 =>
    if cur < endTime then
      dayContribution cfg endTime cur + bmLoop cfg endTime (dayStart cur + DAY) n
    else 0

/-- The un-rounded total the loop accumulates, at the fuel that exhausts the
loop (`dayIndex e - dayIndex s + 1` midnight steps always reach `e`). -/
def rawBusinessMinutes (cfg : Config) (startTime endTime : ℤ) : ℚ :=
  bmLoop cfg endTime startTime ((dayIndex endTime - dayIndex startTime).toNat + 1)

/-- `calculate_business_minutes(start, end)`: 0 when `end <= start`, else the
loop total rounded to 2 decimals (line 141 / 177). -/
def calculateBusinessMinutes (cfg : Config) (startTime endTime : ℤ) : ℚ :=
  if endTime ≤ startTime then 0
  else round2 (rawBusinessMinutes cfg startTime endTime)

/-- Contribution of calendar day `k` to the run `(s, e)`, written uniformly:
clipped overlap of `(s, e)` with day `k`'s business window. -/
def ivLen (cfg : Config) (k s e : ℤ) : ℚ :=
  if (k + 3).emod 7 ∈ cfg.business_days then
    ((max 0 (min e (k * DAY + (cfg.business_end_hour : ℤ) * HOUR)
      - max s (k * DAY + (cfg.business_start_hour : ℤ) * HOUR)) : ℤ) : ℚ) / 60000000
  else 0

/-- Sum of `ivLen` over the `n` consecutive days starting at day `k`. -/
def daysSum (cfg : Config) (s e : ℤ) : ℤ → ℕ → ℚ
  | _, 0 => 0
  | k, n + 1 => ivLen cfg k s e + daysSum cfg s e (k + 1) n

theorem ivLen_eq_zero (cfg : Config) (k s e : ℤ)
    (h : min e (k * DAY + (cfg.business_end_hour : ℤ) * HOUR)
      ≤ max s (k * DAY + (cfg.business_start_hour : ℤ) * HOUR)) :
    ivLen cfg k s e = 0 := by
  unfold ivLen
  split
  · rw [max_eq_left (sub_nonpos.mpr h)]
    simp
  · rfl

/-- Days at or past the end of the run contribute nothing. -/
theorem ivLen_eq_zero_late (cfg : Config) (k s e : ℤ) (hk : e ≤ k * DAY) :
    ivLen cfg k s e = 0 := by
  refine ivLen_eq_zero cfg k s e (le_trans (min_le_left _ _) (le_trans hk ?_))
  refine le_trans ?_ (le_max_right _ _)
  have hsh : 0 ≤ (cfg.business_start_hour : ℤ) * HOUR := by
    have : (0 : ℤ) ≤ (cfg.business_start_hour : ℤ) := Int.natCast_nonneg _
    simp only [HOUR]
    omega
  omega

/-- Days that end before the run starts contribute nothing (here the business
window must stay inside the day: `end_hour ≤ 24`). -/
theorem ivLen_eq_zero_early (cfg : Config) (k s e : ℤ)
    (heh : cfg.business_end_hour ≤ 24) (hk : (k + 1) * DAY ≤ s) :
    ivLen cfg k s e = 0 := by
  refine ivLen_eq_zero cfg k s e
    (le_trans (min_le_right _ _) (le_trans ?_ (le_max_left _ _)))
  have hehz : (cfg.business_end_hour : ℤ) * HOUR ≤ DAY := by
    have h24 : (cfg.business_end_hour : ℤ) ≤ 24 := by exact_mod_cast heh
    simp only [HOUR, DAY]
    omega
  simp only [DAY] at *
  omega

theorem daysSum_zero_of_le (cfg : Config) (s e : ℤ) (hse : e ≤ s) :
    ∀ (n : ℕ) (k : ℤ), daysSum cfg s e k n = 0 := by
  intro n
  induction n with
  | zero => intro k; rfl
  | succ n ih =>
    intro k
    show ivLen cfg k s e + daysSum cfg s e (k + 1) n = 0
    rw [ih (k + 1), ivLen_eq_zero cfg k s e
      (le_trans (min_le_left _ _) (le_trans hse (le_max_left _ _))), add_zero]

theorem daysSum_zero_of_late (cfg : Config) (s e : ℤ) (n : ℕ) (k : ℤ)
    (hk : e ≤ k * DAY) : daysSum cfg s e k n = 0 := by
  induction n generalizing k with
  | zero => rfl
  | succ n ih =>
    show ivLen cfg k s e + daysSum cfg s e (k + 1) n = 0
    rw [ivLen_eq_zero_late cfg k s e hk, ih (k + 1) (by simp only [DAY] at *; omega),
      add_zero]

theorem daysSum_zero_of_early (cfg : Config) (s e : ℤ) (n : ℕ) (k : ℤ)
    (heh : cfg.business_end_hour ≤ 24) (hk : k + (n : ℤ) ≤ dayIndex s) :
    daysSum cfg s e k n = 0 := by
  induction n generalizing k with
  | zero => rfl
  | succ n ih =>
    show ivLen cfg k s e + daysSum cfg s e (k + 1) n = 0
    have hks : (k + 1) * DAY ≤ s := by
      simp only [dayIndex, DAY] at *
      omega
    rw [ivLen_eq_zero_early cfg k s e heh hks, ih (k + 1) (by push_cast at hk ⊢; omega),
      add_zero]

theorem daysSum_split (cfg : Config) (s e : ℤ) (m n : ℕ) :
    ∀ k : ℤ, daysSum cfg s e k (m + n) =
      daysSum cfg s e k m + daysSum cfg s e (k + (m : ℤ)) n := by
  induction m with
  | zero =>
    intro k
    simp [daysSum]
  | succ m ih =>
    intro k
    have hmn : m + 1 + n = (m + n) + 1 := by omega
    rw [hmn]
    show ivLen cfg k s e + daysSum cfg s e (k + 1) (m + n) =
      (ivLen cfg k s e + daysSum cfg s e (k + 1) m) +
        daysSum cfg s e (k + ((m + 1 : ℕ) : ℤ)) n
    rw [ih (k + 1)]
    have hidx : k + 1 + (m : ℤ) = k + ((m + 1 : ℕ) : ℤ) := by push_cast; ring
    rw [hidx]
    ring

/-- Clipped-interval length is additive in the cut point. -/
theorem ivLen_additive (cfg : Config) (k a b c : ℤ) (hab : a ≤ b) (hbc : b ≤ c) :
    ivLen cfg k a c = ivLen cfg k a b + ivLen cfg k b c := by
  by_cases hcond : (k + 3).emod 7 ∈ cfg.business_days
  · simp only [ivLen, if_pos hcond]
    have hz : max 0 (min c (k * DAY + (cfg.business_end_hour : ℤ) * HOUR)
        - max a (k * DAY + (cfg.business_start_hour : ℤ) * HOUR)) =
        max 0 (min b (k * DAY + (cfg.business_end_hour : ℤ) * HOUR)
          - max a (k * DAY + (cfg.business_start_hour : ℤ) * HOUR)) +
        max 0 (min c (k * DAY + (cfg.business_end_hour : ℤ) * HOUR)
          - max b (k * DAY + (cfg.business_start_hour : ℤ) * HOUR)) := by
      omega
    rw [div_add_div_same, ← Int.cast_add, hz]
  · simp only [ivLen, if_neg hcond]
    norm_num

theorem daysSum_additive (cfg : Config) (a b c : ℤ) (hab : a ≤ b) (hbc : b ≤ c) :
    ∀ (n : ℕ) (k : ℤ), daysSum cfg a c k n =
      daysSum cfg a b k n + daysSum cfg b c k n := by
  intro n
  induction n with
  | zero =>
    intro k
    show (0 : ℚ) = 0 + 0
    norm_num
  | succ n ih =>
    intro k
    show ivLen cfg k a c + daysSum cfg a c (k + 1) n =
      (ivLen cfg k a b + daysSum cfg a b (k + 1) n) +
        (ivLen cfg k b c + daysSum cfg b c (k + 1) n)
    rw [ih (k + 1), ivLen_additive cfg k a b c hab hbc]
    ring

/-- A run of `ivLen` over a later start reads the same as over the original
start once the day begins after both. -/
theorem daysSum_congr_start (cfg : Config) (s s' e : ℤ) (n : ℕ) :
    ∀ k : ℤ, s ≤ k * DAY → s' ≤ k * DAY →
      daysSum cfg s e k n = daysSum cfg s' e k n := by
  induction n with
  | zero => intro k _ _; rfl
  | succ n ih =>
    intro k hs hs'
    show ivLen cfg k s e + daysSum cfg s e (k + 1) n =
      ivLen cfg k s' e + daysSum cfg s' e (k + 1) n
    have hS : k * DAY ≤ k * DAY + (cfg.business_start_hour : ℤ) * HOUR := by
      have : (0 : ℤ) ≤ (cfg.business_start_hour : ℤ) := Int.natCast_nonneg _
      simp only [HOUR]
      omega
    have hiv : ivLen cfg k s e = ivLen cfg k s' e := by
      unfold ivLen
      rw [max_eq_right (le_trans hs hS), max_eq_right (le_trans hs' hS)]
    rw [hiv, ih (k + 1) (by simp only [DAY] at *; omega)
      (by simp only [DAY] at *; omega)]

/-- The loop body on the current day equals the uniform clipped overlap. -/
theorem dayContribution_eq_ivLen (cfg : Config) (e s : ℤ) :
    dayContribution cfg e s = ivLen cfg (dayIndex s) s e := by
  simp only [dayContribution, ivLen, weekday, dayStart]
  split
  · by_cases hlt : max s (dayIndex s * DAY + (cfg.business_start_hour : ℤ) * HOUR) <
        min e (dayIndex s * DAY + (cfg.business_end_hour : ℤ) * HOUR)
    · rw [if_pos hlt, max_eq_right (by omega : (0 : ℤ) ≤ _)]
    · rw [if_neg hlt, max_eq_left (by omega : _ ≤ (0 : ℤ))]
      simp
  · rfl

/-- The loop is exactly the day-by-day sum, for any fuel. -/
theorem bmLoop_eq_daysSum (cfg : Config) (e : ℤ) :
    ∀ (n : ℕ) (s : ℤ), bmLoop cfg e s n = daysSum cfg s e (dayIndex s) n := by
  intro n
  induction n with
  | zero => intro s; rfl
  | succ n ih =>
    intro s
    show (if s < e then dayContribution cfg e s + bmLoop cfg e (dayStart s + DAY) n
        else 0) =
      ivLen cfg (dayIndex s) s e + daysSum cfg s e (dayIndex s + 1) n
    by_cases hse : s < e
    · rw [if_pos hse, ih (dayStart s + DAY), dayContribution_eq_ivLen cfg e s]
      have hidx : dayIndex (dayStart s + DAY) = dayIndex s + 1 := by
        simp only [dayIndex, dayStart, DAY]
        omega
      rw [hidx, daysSum_congr_start cfg (dayStart s + DAY) s e n (dayIndex s + 1)
        (by simp only [dayStart, dayIndex, DAY] at *; omega)
        (by simp only [dayIndex, DAY] at *; omega)]
    · rw [if_neg hse, ivLen_eq_zero cfg (dayIndex s) s e
        (le_trans (min_le_left _ _)
          (le_trans (le_of_not_lt hse) (le_max_left _ _))),
        daysSum_zero_of_le cfg s e (le_of_not_lt hse) n (dayIndex s + 1)]
      norm_num

/-- EXACT additivity of the un-rounded loop totals. -/
theorem rawBusinessMinutes_additive (cfg : Config) (a b c : ℤ) (hab : a ≤ b)
    (hbc : b ≤ c) (heh : cfg.business_end_hour ≤ 24) :
    rawBusinessMinutes cfg a c =
      rawBusinessMinutes cfg a b + rawBusinessMinutes cfg b c := by
  have hiab : dayIndex a ≤ dayIndex b := by simp only [dayIndex, DAY]; omega
  have hibc : dayIndex b ≤ dayIndex c := by simp only [dayIndex, DAY]; omega
  simp only [rawBusinessMinutes]
  rw [bmLoop_eq_daysSum, bmLoop_eq_daysSum, bmLoop_eq_daysSum,
    daysSum_additive cfg a b c hab hbc]
  congr 1
  · have hsplit : (dayIndex c - dayIndex a).toNat + 1 =
        ((dayIndex b - dayIndex a).toNat + 1) + (dayIndex c - dayIndex b).toNat := by
      omega
    rw [hsplit, daysSum_split cfg a b ((dayIndex b - dayIndex a).toNat + 1)
      ((dayIndex c - dayIndex b).toNat) (dayIndex a),
      daysSum_zero_of_late cfg a b ((dayIndex c - dayIndex b).toNat)
        (dayIndex a + (((dayIndex b - dayIndex a).toNat + 1 : ℕ) : ℤ))
        (by simp only [dayIndex, DAY] at *; push_cast; omega),
      add_zero]
  · have hsplit : (dayIndex c - dayIndex a).toNat + 1 =
        (dayIndex b - dayIndex a).toNat + ((dayIndex c - dayIndex b).toNat + 1) := by
      omega
    rw [hsplit, daysSum_split cfg b c ((dayIndex b - dayIndex a).toNat)
      ((dayIndex c - dayIndex b).toNat + 1) (dayIndex a),
      daysSum_zero_of_early cfg b c ((dayIndex b - dayIndex a).toNat) (dayIndex a)
        heh (by push_cast; omega),
      zero_add]
    have hidx : dayIndex a + (((dayIndex b - dayIndex a).toNat : ℕ) : ℤ) = dayIndex b := by
      push_cast
      omega
    rw [hidx]

/-- `round(x, 2)` moves a value by at most a half-cent. -/
theorem round2_close (q : ℚ) : |round2 q - q| ≤ 1 / 200 := by
  have h := abs_sub_round (q * 100)
  have heq : round2 q - q = ((round (q * 100) : ℚ) - q * 100) / 100 := by
    simp only [round2]
    ring
  rw [heq, abs_div, show |(100 : ℚ)| = 100 by norm_num]
  rw [abs_sub_comm] at h
  linarith

end BizCal

/-- C4: business-minute computation is additive over interval splitting, for
both identical implementations
(`EmailClassifier.calculate_business_minutes` and
`IntelligentIngester.calculate_business_minutes`): for any three instants
`a < b < c` and any configuration whose `business_end_hour` keeps the window
inside the day (`≤ 24`; the code's `replace(hour=...)` admits at most 23), the
un-rounded loop totals satisfy `raw(a,c) = raw(a,b) + raw(b,c)` EXACTLY, and
the reported 2-decimal-rounded results differ by at most `3/200` of a minute
(each of the three results is independently rounded). -/
theorem C4_business_minutes_additive (cfg : BizCal.Config) (a b c : ℤ)
    (hab : a < b) (hbc : b < c) (heh : cfg.business_end_hour ≤ 24) :
    BizCal.rawBusinessMinutes cfg a c =
      BizCal.rawBusinessMinutes cfg a b + BizCal.rawBusinessMinutes cfg b c ∧
    |BizCal.calculateBusinessMinutes cfg a c -
      (BizCal.calculateBusinessMinutes cfg a b +
        BizCal.calculateBusinessMinutes cfg b c)| ≤ 3 / 200 := by
  have hraw := BizCal.rawBusinessMinutes_additive cfg a b c (le_of_lt hab)
    (le_of_lt hbc) heh
  refine ⟨hraw, ?_⟩
  have hac : a < c := lt_trans hab hbc
  simp only [BizCal.calculateBusinessMinutes, if_neg (not_le.mpr hac),
    if_neg (not_le.mpr hab), if_neg (not_le.mpr hbc)]
  have h1 := BizCal.round2_close (BizCal.rawBusinessMinutes cfg a c)
  have h2 := BizCal.round2_close (BizCal.rawBusinessMinutes cfg a b)
  have h3 := BizCal.round2_close (BizCal.rawBusinessMinutes cfg b c)
  rw [abs_le] at h1 h2 h3 ⊢
  constructor
  · linarith
  · linarith

theorem C4_business_minutes_additive_witness :
    ((0 : ℤ) < 36000000000 ∧ (36000000000 : ℤ) < 72000000000 ∧
      (⟨9, 17, [0, 1, 2, 3, 4]⟩ : BizCal.Config).business_end_hour ≤ 24) ∧
    (BizCal.rawBusinessMinutes ⟨9, 17, [0, 1, 2, 3, 4]⟩ 0 72000000000 =
      BizCal.rawBusinessMinutes ⟨9, 17, [0, 1, 2, 3, 4]⟩ 0 36000000000 +
        BizCal.rawBusinessMinutes ⟨9, 17, [0, 1, 2, 3, 4]⟩ 36000000000 72000000000 ∧
     |BizCal.calculateBusinessMinutes ⟨9, 17, [0, 1, 2, 3, 4]⟩ 0 72000000000 -
      (BizCal.calculateBusinessMinutes ⟨9, 17, [0, 1, 2, 3, 4]⟩ 0 36000000000 +
        BizCal.calculateBusinessMinutes ⟨9, 17, [0, 1, 2, 3, 4]⟩ 36000000000
          72000000000)| ≤ 3 / 200) :=
  ⟨⟨by decide, by decide, by decide⟩,
    C4_business_minutes_additive ⟨9, 17, [0, 1, 2, 3, 4]⟩ 0 36000000000 72000000000
      (by decide) (by decide) (by decide)⟩

/-! ## Corrupt persistent store handling (claim C5) -/

theorem mem_keys_setDay_self (l : List (D × DayRecord D)) (d : D) (r : DayRecord D) :
    d ∈ (setDay l d r).map Prod.fst := by
  induction l with
  | nil => simp [setDay]
  | cons kv rest ih =>
    rcases kv with ⟨k, v⟩
    simp only [setDay]
    by_cases hk : k = d
    · rw [if_pos hk]
      simp [hk]
    · rw [if_neg hk]
      simp only [List.map_cons, List.mem_cons]
      right
      exact ih

theorem mem_keys_phaseFold_self (G : D → Option (DayRecord D) → DayRecord D)
    (xs : List D) (l : List (D × DayRecord D)) (d : D) (hd : d ∈ xs) :
    d ∈ (phaseFold G xs l).map Prod.fst := by
  induction xs generalizing l with
  | nil => simp at hd
  | cons x rest ih =>
    show d ∈ (phaseFold G rest (setDay l x (G x (lookupDay l x)))).map Prod.fst
    rcases List.mem_cons.mp hd with rfl | hr
    · exact keys_foldl_superset _ (fun acc i k hk => mem_keys_setDay acc i k _ hk) _ _
        d (mem_keys_setDay_self l d _)
    · exact ih _ hr

theorem mem_keys_keyedFold_self {ι : Type} (key : ι → D)
    (G : ι → Option (DayRecord D) → DayRecord D) (xs : List ι)
    (l : List (D × DayRecord D)) (i : ι) (hi : i ∈ xs) :
    key i ∈ (keyedFold key G xs l).map Prod.fst := by
  induction xs generalizing l with
  | nil => simp at hi
  | cons x rest ih =>
    show key i ∈ (keyedFold key G rest
      (setDay l (key x) (G x (lookupDay l (key x))))).map Prod.fst
    rcases List.mem_cons.mp hi with rfl | hr
    · exact keys_foldl_superset _ (fun acc j k hk => mem_keys_setDay acc _ k _ hk) _ _
        (key i) (mem_keys_setDay_self l (key i) _)
    · exact ih _ hr

namespace DiskStore

/-- The on-disk store as the loaders see it: absent, present but unreadable
(I/O or JSON error), or readable with contents. -/
inductive DiskDb (D : Type)
  | missing
  | corrupt
  | ok (db : Database D)

/-- The fresh structure of `load_existing_database`'s fallback (lines
105-114). -/
def freshDb (now : String) : Database D :=
  ⟨⟨now, 0, [], none, none⟩, []⟩

/-- `IntelligentIngester.load_existing_database` (lines 93-114): the database
to merge into, paired with whether a backup of a corrupt file was created
(`create_backup` on line 102 runs exactly when the file exists but fails to
parse). -/
def ingesterLoad (disk : DiskDb D) (now : String) : Database D × Bool :=
  match disk with
  | DiskDb.ok db => (db, false)
  | DiskDb.missing => (freshDb now, false)
  | DiskDb.corrupt => (freshDb now, true)

/-- The load fragment of `EmailClassifier.save_to_unified_json` (lines
543-555): a missing or unreadable store leaves `existing_db = {}`, whose
`days`/`metadata` keys default to empty; the `except` arm only logs a warning
— no backup is ever created. -/
def classifierLoad (disk : DiskDb D) : Database D × Bool :=
  match disk with
  | DiskDb.ok db => (db, false)
  | DiskDb.missing => (⟨⟨"", 0, [], none, none⟩, []⟩, false)
  | DiskDb.corrupt => (⟨⟨"", 0, [], none, none⟩, []⟩, false)

end DiskStore

/-- C5 counterexample: the claim requires EVERY merge to back up a corrupt
store, but the classifier merge (`save_to_unified_json`, lines 543-551)
catches the load failure with only a warning and starts fresh — it creates no
backup, silently discarding the corrupt store's contents. -/
theorem C5_no_backup_counterexample :
    (DiskStore.classifierLoad (D := ℕ) DiskStore.DiskDb.corrupt).2 = false := rfl

/-- C5 (amended): on a corrupt store, the INGESTER backs it up and proceeds
with a freshly initialized empty store, and both merges then run to completion
on the fresh store without losing any newly computed data (every batch date
becomes a day key of the merged store).  The classifier also falls back to a
fresh store and loses no new data, but — contrary to the claim — creates no
backup (`C5_no_backup_counterexample`). -/
theorem C5_corrupt_store_recovery (cfg : Ingester.Config)
    (eR : List (EmailRecord D)) (sR : List (SlaRecord D)) (now now2 : String)
    (results : List (EmailRecord D)) (slaDaily : List (Classifier.SlaDailyRow D))
    (slaHourly : D → ℕ → Option Classifier.SlaHourInfo) (newSources : List String) :
    DiskStore.ingesterLoad (D := D) DiskStore.DiskDb.corrupt now =
      (DiskStore.freshDb now, true) ∧
    (∀ r ∈ eR, r.date ∈ (Ingester.mergeWithExisting cfg
        (DiskStore.ingesterLoad DiskStore.DiskDb.corrupt now).1 eR sR
        now2).days.map Prod.fst) ∧
    (∀ r ∈ sR, r.date ∈ (Ingester.mergeWithExisting cfg
        (DiskStore.ingesterLoad DiskStore.DiskDb.corrupt now).1 eR sR
        now2).days.map Prod.fst) ∧
    (∀ r ∈ results, r.date ∈ (Classifier.saveToUnifiedJson
        (DiskStore.classifierLoad DiskStore.DiskDb.corrupt).1 results slaDaily
        slaHourly newSources now2).days.map Prod.fst) ∧
    (∀ drow ∈ slaDaily, drow.date ∈ (Classifier.saveToUnifiedJson
        (DiskStore.classifierLoad DiskStore.DiskDb.corrupt).1 results slaDaily
        slaHourly newSources now2).days.map Prod.fst) := by
  refine ⟨rfl, ?_, ?_, ?_, ?_⟩
  · intro r hr
    show r.date ∈ (Ingester.sortPhase (Ingester.slaPhase cfg
      (Ingester.emailPhase (DiskStore.freshDb (D := D) now).days eR) sR)).map Prod.fst
    rw [map_fst_sortPhase]
    refine mem_keys_slaPhase cfg _ sR r.date ?_
    refine mem_keys_phaseFold_self _ _ _ r.date ?_
    exact (mem_uniqueKeys _ _).mpr (List.mem_map_of_mem _ hr)
  · intro r hr
    show r.date ∈ (Ingester.sortPhase (Ingester.slaPhase cfg
      (Ingester.emailPhase (DiskStore.freshDb (D := D) now).days eR) sR)).map Prod.fst
    rw [map_fst_sortPhase]
    refine mem_keys_phaseFold_self _ _ _ r.date ?_
    exact (mem_uniqueKeys _ _).mpr (List.mem_map_of_mem _ hr)
  · intro r hr
    show r.date ∈ (Classifier.emailPhaseCls (Classifier.slaPhase
      (DiskStore.classifierLoad (D := D) DiskStore.DiskDb.corrupt).1.days slaDaily
      slaHourly) results).map Prod.fst
    rw [Classifier.emailPhaseCls_eq]
    refine mem_keys_phaseFold_self _ _ _ r.date ?_
    exact (mem_sortedDedup _ _).mpr (List.mem_map_of_mem _ hr)
  · intro drow hdrow
    show drow.date ∈ (Classifier.emailPhaseCls (Classifier.slaPhase
      (DiskStore.classifierLoad (D := D) DiskStore.DiskDb.corrupt).1.days slaDaily
      slaHourly) results).map Prod.fst
    refine mem_keys_emailPhaseCls _ results drow.date ?_
    rw [Classifier.slaPhase_eq]
    exact mem_keys_keyedFold_self (fun r => r.date) _ slaDaily _ drow hdrow

/-! ## Field-level frame of hourly updates (claim C6) -/

theorem slotVal_some_of_mem (l : List HourEntry) (h : ℕ)
    (hmem : h ∈ l.map (fun e => e.hour)) : ∃ e, slotVal l h = some e := by
  induction l with
  | nil => simp at hmem
  | cons x rest ih =>
    by_cases hx : x.hour = h
    · exact ⟨x, by rw [slotVal, if_pos hx]⟩
    · rw [List.map_cons] at hmem
      rcases List.mem_cons.mp hmem with heq | hm
      · exact absurd heq.symm hx
      · obtain ⟨e, he⟩ := ih hm
        exact ⟨e, by rw [slotVal, if_neg hx, he]⟩

theorem mem_map_hour_updateHour (l : List HourEntry) (h' : ℕ)
    (f : HourEntry → HourEntry) (hfh : ∀ e, (f e).hour = e.hour) (h : ℕ)
    (hmem : h ∈ l.map (fun e => e.hour)) :
    h ∈ (updateHour l h' f).map (fun e => e.hour) := by
  induction l with
  | nil => simp at hmem
  | cons x rest ih =>
    simp only [updateHour]
    by_cases hx : x.hour = h'
    · rw [if_pos hx]
      simpa [hfh] using hmem
    · rw [if_neg hx]
      simp only [List.map_cons, List.mem_cons] at hmem ⊢
      rcases hmem with heq | hm
      · left
        exact heq
      · right
        exact ih hm

/-- `updateHour` preserves any field-projection of any present slot, when the
update function preserves it. -/
theorem slotVal_proj_updateHour {α : Type} (proj : HourEntry → α)
    (l : List HourEntry) (h' h : ℕ) (f : HourEntry → HourEntry)
    (hfh : ∀ e, (f e).hour = e.hour) (hfp : ∀ e, proj (f e) = proj e)
    (hmem : h ∈ l.map (fun e => e.hour)) :
    (slotVal (updateHour l h' f) h).map proj = (slotVal l h).map proj := by
  by_cases hh : h' = h
  · subst hh
    rw [slotVal_updateHour_self l h' f hfh]
    obtain ⟨e, he⟩ := slotVal_some_of_mem l h' hmem
    rw [he]
    simp [hfp]
  · rw [slotVal_updateHour_ne l h' h f hfh (fun hc => hh hc.symm)]

/-- `hourFold` preserves any field-projection of any present slot, when every
update function preserves it. -/
theorem slotVal_proj_hourFold {α : Type} (proj : HourEntry → α) {ι : Type}
    (key : ι → ℕ) (f : ι → HourEntry → HourEntry)
    (hfh : ∀ i e, (f i e).hour = e.hour) (hfp : ∀ i e, proj (f i e) = proj e)
    (xs : List ι) (l : List HourEntry) (h : ℕ)
    (hmem : h ∈ l.map (fun e => e.hour)) :
    (slotVal (hourFold key f xs l) h).map proj = (slotVal l h).map proj := by
  induction xs generalizing l with
  | nil => rw [hourFold_nil]
  | cons x rest ih =>
    rw [hourFold_cons, ih _ (mem_map_hour_updateHour l (key x) (f x) (hfh x) h hmem),
      slotVal_proj_updateHour proj l (key x) h (f x) (hfh x) (hfp x) hmem]

/-- On a list of consecutive hours starting at `n`, in-place index update hits
the slot carrying hour `h` exactly with `f h`. -/
theorem slotVal_mapIdxH (f : ℕ → HourEntry → HourEntry)
    (hf : ∀ i e, (f i e).hour = e.hour) :
    ∀ (l : List HourEntry) (n h : ℕ),
      l.map (fun e => e.hour) = List.range' n l.length →
      slotVal (mapIdxH f n l) h = (slotVal l h).map (f h) := by
  intro l
  induction l with
  | nil => intro n h _; rfl
  | cons x rest ih =>
    intro n h hmap
    rw [List.map_cons, List.length_cons, List.range'_succ] at hmap
    have hx : x.hour = n := (List.cons.injEq _ _ _ _ ▸ hmap).1
    have hrest : rest.map (fun e => e.hour) = List.range' (n + 1) rest.length :=
      (List.cons.injEq _ _ _ _ ▸ hmap).2
    show slotVal (f n x :: mapIdxH f (n + 1) rest) h = (slotVal (x :: rest) h).map (f h)
    by_cases hxh : x.hour = h
    · have hnh : n = h := by rw [← hx, hxh]
      rw [slotVal, if_pos (by rw [hf]; exact hxh), slotVal, if_pos hxh, hnh]
      rfl
    · rw [slotVal, if_neg (by rw [hf]; exact hxh), slotVal, if_neg hxh]
      exact ih (n + 1) h hrest

/-- C6 counterexample: the claim says hours of an SLA date without a snapshot
keep their existing `unread_count`/`sla_met`, but the classifier merge writes
ALL 24 hours of such a date from `hourly_sla.get(h, {})` (lines 604-608):
here hour 5 of day 1 holds `unread_count = 40`, the batch carries an SLA
snapshot only for hour 8, and after the merge hour 5's `unread_count` and
`sla_met` are null. -/
theorem C6_sla_overwrite_counterexample :
    ((slotVal ((List.range 24).map (fun h => if h = 5 then
          ({ hour := h, unread_count := some 40, sla_met := some false } : HourEntry)
          else { hour := h })) 5).map (fun e => (e.unread_count, e.sla_met)) =
      some (some 40, some false)) ∧
    ((lookupDay (Classifier.saveToUnifiedJson (D := ℕ)
        ⟨⟨"", 0, [], none, none⟩, [(1, ⟨1, false, false, {},
          (List.range 24).map (fun h => if h = 5 then
            { hour := h, unread_count := some 40, sla_met := some false }
            else { hour := h })⟩)]⟩
        [] [⟨1, 95, some 2⟩]
        (fun _ h => if h = 8 then some ⟨some 3, some true⟩ else none)
        [] "t").days 1).map
      (fun r => (slotVal r.hourly_data 5).map (fun e => (e.unread_count, e.sla_met))) =
      some (some (none, none))) := by
  exact ⟨by decide, by decide⟩

/-- C6 (amended): the overwrite-if-present frame rule holds for the INGESTER:
for a well-formed stored day and an hour `h < 24` for which the batch carries
no snapshot of that date, the merged store keeps the hour's `unread_count` and
`sla_met` exactly (the email loop touches only email fields, the SLA loop only
snapshot hours).  The CLASSIFIER instead rewrites every hour of an SLA date:
slot `h` becomes `slaHourCls hourly h` of the old slot, whose
`unread_count`/`sla_met` are taken from `hourly_sla.get(h, {})` — `none`
whenever hour `h` has no snapshot, regardless of the stored values
(`C6_sla_overwrite_counterexample`). -/
theorem C6_hourly_update_frame (cfg : Ingester.Config) (db : Database D)
    (eR : List (EmailRecord D)) (sR : List (SlaRecord D)) (now : String)
    (d : D) (h : ℕ) (v : DayRecord D)
    (hv : lookupDay db.days d = some v) (hwf : hours24 v.hourly_data)
    (hh : h < 24) (hno : ∀ r ∈ sR, r.date = d → ¬ r.hour = h)
    (day : DayRecord D) (drow : Classifier.SlaDailyRow D)
    (hourly : ℕ → Option Classifier.SlaHourInfo) (hwfday : hours24 day.hourly_data) :
    (∃ v', lookupDay (Ingester.mergeWithExisting cfg db eR sR now).days d = some v' ∧
      (slotVal v'.hourly_data h).map (fun e => (e.unread_count, e.sla_met)) =
        (slotVal v.hourly_data h).map (fun e => (e.unread_count, e.sla_met))) ∧
    (slotVal (Classifier.applySlaDay day drow hourly).hourly_data h =
      (slotVal day.hourly_data h).map (Classifier.slaHourCls hourly h)) ∧
    (∀ e : HourEntry,
      (Classifier.slaHourCls hourly h e).unread_count =
        (hourly h).bind (fun s => s.unread_count) ∧
      (Classifier.slaHourCls hourly h e).sla_met =
        (hourly h).bind (fun s => s.sla_met)) := by
  refine ⟨?_, ?_, fun e => ⟨rfl, rfl⟩⟩
  · have hmemv : h ∈ v.hourly_data.map (fun e => e.hour) := by
      rw [hwf]
      exact List.mem_range.mpr hh
    have h1 : ∃ v1, lookupDay (Ingester.emailPhase db.days eR) d = some v1 ∧
        (slotVal v1.hourly_data h).map (fun e => (e.unread_count, e.sla_met)) =
          (slotVal v.hourly_data h).map (fun e => (e.unread_count, e.sla_met)) ∧
        hours24 v1.hourly_data := by
      by_cases hde : d ∈ uniqueKeys (eR.map (fun r => r.date))
      · refine ⟨Ingester.emailDayUpdate (lookupDay db.days d) d
          (eR.filter (fun r => r.date = d)), ?_, ?_, ?_⟩
        · exact lookupDay_phaseFold_mem _ _ _ _ (uniqueKeys_nodup _) hde
        · rw [hv, Ingester.emailDayUpdate_hourly, Ingester.emailBase_some_hourly]
          exact slotVal_proj_hourFold (fun e => (e.unread_count, e.sla_met))
            (fun hr => hr) (Ingester.emailHourSet (eR.filter (fun r => r.date = d)))
            (fun i e => rfl) (fun i e => rfl) _ _ h hmemv
        · refine hours24_emailDayUpdate _ d _ (fun r hr => ?_)
          rw [hv] at hr
          rw [← Option.some.inj hr]
          exact hwf
      · refine ⟨v, ?_, rfl, hwf⟩
        show lookupDay (phaseFold
          (fun d o => Ingester.emailDayUpdate o d (eR.filter (fun r => r.date = d)))
          (uniqueKeys (eR.map (fun r => r.date))) db.days) d = some v
        rw [lookupDay_phaseFold_notmem _ _ _ _ hde, hv]
    obtain ⟨v1, hv1, hslot1, hwf1⟩ := h1
    have h2 : ∃ v2, lookupDay (Ingester.slaPhase cfg
          (Ingester.emailPhase db.days eR) sR) d = some v2 ∧
        slotVal v2.hourly_data h = slotVal v1.hourly_data h := by
      by_cases hds : d ∈ uniqueKeys (sR.map (fun r => r.date))
      · refine ⟨Ingester.slaDayUpdate cfg (lookupDay (Ingester.emailPhase db.days eR) d)
          d (sR.filter (fun r => r.date = d)), ?_, ?_⟩
        · exact lookupDay_phaseFold_mem _ _ _ _ (uniqueKeys_nodup _) hds
        · rw [hv1, Ingester.slaDayUpdate_hourly, Ingester.slaBase_some_hourly]
          refine slotVal_hourFold_notmem (fun r => r.hour) Ingester.slaHourSet
            (fun i e => rfl) _ _ h (fun r hr => ?_)
          have hrd : r.date = d := of_decide_eq_true ((List.mem_filter.mp hr).2)
          exact hno r (List.mem_of_mem_filter hr) hrd
      · refine ⟨v1, ?_, rfl⟩
        show lookupDay (phaseFold
          (fun d o => Ingester.slaDayUpdate cfg o d (sR.filter (fun r => r.date = d)))
          (uniqueKeys (sR.map (fun r => r.date))) (Ingester.emailPhase db.days eR)) d
          = some v1
        rw [lookupDay_phaseFold_notmem _ _ _ _ hds, hv1]
    obtain ⟨v2, hv2, hslot2⟩ := h2
    refine ⟨Ingester.sortDay v2, ?_, ?_⟩
    · show lookupDay (Ingester.sortPhase (Ingester.slaPhase cfg
        (Ingester.emailPhase db.days eR) sR)) d = some (Ingester.sortDay v2)
      rw [Ingester.lookupDay_sortPhase, hv2]
      rfl
    · rw [Ingester.sortDay_hourly, slotVal_sortHourly, hslot2, hslot1]
  · exact slotVal_mapIdxH (Classifier.slaHourCls hourly) (fun i e => rfl)
      day.hourly_data 0 h
      (by rw [hwfday, List.range_eq_range', hours24_length _ hwfday])

theorem C6_hourly_update_frame_witness :
    (∃ v', lookupDay (Ingester.mergeWithExisting (D := ℕ) ⟨8, 17⟩
        ⟨⟨"", 0, [], none, none⟩, [(1, ⟨1, false, true, {},
          (List.range 24).map (fun h => if h = 5 then
            ⟨h, some 40, some false, none, none, none⟩
            else ⟨h, none, none, none, none, none⟩)⟩)]⟩
        [⟨1, 9, EStatus.Replied, some 5⟩] [⟨1, 8, 3, true⟩] "t").days 1 = some v' ∧
      (slotVal v'.hourly_data 5).map (fun e => (e.unread_count, e.sla_met)) =
        (slotVal ((List.range 24).map (fun h => if h = 5 then
            (⟨h, some 40, some false, none, none, none⟩ : HourEntry)
            else ⟨h, none, none, none, none, none⟩)) 5).map
          (fun e => (e.unread_count, e.sla_met))) ∧
    (slotVal (Classifier.applySlaDay (Classifier.freshDay (1 : ℕ)) ⟨1, 95, some 2⟩
        (fun _ => none)).hourly_data 5 =
      (slotVal (Classifier.freshDay (1 : ℕ)).hourly_data 5).map
        (Classifier.slaHourCls (fun _ => none) 5)) ∧
    (∀ e : HourEntry,
      (Classifier.slaHourCls (fun _ => none) 5 e).unread_count =
        (none : Option Classifier.SlaHourInfo).bind (fun s => s.unread_count) ∧
      (Classifier.slaHourCls (fun _ => none) 5 e).sla_met =
        (none : Option Classifier.SlaHourInfo).bind (fun s => s.sla_met)) :=
  C6_hourly_update_frame ⟨8, 17⟩
    ⟨⟨"", 0, [], none, none⟩, [(1, ⟨1, false, true, {},
      (List.range 24).map (fun h => if h = 5 then
        ⟨h, some 40, some false, none, none, none⟩
        else ⟨h, none, none, none, none, none⟩)⟩)]⟩
    [⟨1, 9, EStatus.Replied, some 5⟩] [⟨1, 8, 3, true⟩] "t" 1 5
    ⟨1, false, true, {}, (List.range 24).map (fun h => if h = 5 then
      ⟨h, some 40, some false, none, none, none⟩
      else ⟨h, none, none, none, none, none⟩)⟩
    (by decide) (by decide) (by decide) (by decide)
    (Classifier.freshDay 1) ⟨1, 95, some 2⟩ (fun _ => none) (by decide)

/-! ## Metadata invariants across merges (claim C7) -/

theorem foldl_min_mem {α : Type} [LinearOrder α] (xs : List α) (x : α) :
    xs.foldl min x ∈ x :: xs := by
  induction xs generalizing x with
  | nil => simp
  | cons y ys ih =>
    show ys.foldl min (min x y) ∈ x :: y :: ys
    rcases List.mem_cons.mp (ih (min x y)) with h | h
    · rcases min_cases x y with ⟨heq, _⟩ | ⟨heq, _⟩
      · rw [h, heq]
        exact List.mem_cons_self _ _
      · rw [h, heq]
        exact List.mem_cons_of_mem _ (List.mem_cons_self _ _)
    · exact List.mem_cons_of_mem _ (List.mem_cons_of_mem _ h)

theorem foldl_min_le {α : Type} [LinearOrder α] (xs : List α) (x : α) :
    ∀ y ∈ x :: xs, xs.foldl min x ≤ y := by
  induction xs generalizing x with
  | nil =>
    intro y hy
    rcases List.mem_cons.mp hy with rfl | h
    · exact le_refl _
    · simp at h
  | cons z zs ih =>
    intro y hy
    show zs.foldl min (min x z) ≤ y
    rcases List.mem_cons.mp hy with heq | h
    · rw [heq]
      exact le_trans (ih (min x z) _ (List.mem_cons_self _ _)) (min_le_left x z)
    · rcases List.mem_cons.mp h with heq2 | h2
      · rw [heq2]
        exact le_trans (ih (min x z) _ (List.mem_cons_self _ _)) (min_le_right x z)
      · exact ih (min x z) y (List.mem_cons_of_mem _ h2)

theorem foldl_max_mem {α : Type} [LinearOrder α] (xs : List α) (x : α) :
    xs.foldl max x ∈ x :: xs := by
  induction xs generalizing x with
  | nil => simp
  | cons y ys ih =>
    show ys.foldl max (max x y) ∈ x :: y :: ys
    rcases List.mem_cons.mp (ih (max x y)) with h | h
    · rcases max_cases x y with ⟨heq, _⟩ | ⟨heq, _⟩
      · rw [h, heq]
        exact List.mem_cons_self _ _
      · rw [h, heq]
        exact List.mem_cons_of_mem _ (List.mem_cons_self _ _)
    · exact List.mem_cons_of_mem _ (List.mem_cons_of_mem _ h)

theorem foldl_max_ge {α : Type} [LinearOrder α] (xs : List α) (x : α) :
    ∀ y ∈ x :: xs, y ≤ xs.foldl max x := by
  induction xs generalizing x with
  | nil =>
    intro y hy
    rcases List.mem_cons.mp hy with rfl | h
    · exact le_refl _
    · simp at h
  | cons z zs ih =>
    intro y hy
    show y ≤ zs.foldl max (max x z)
    rcases List.mem_cons.mp hy with heq | h
    · rw [heq]
      exact le_trans (le_max_left x z) (ih (max x z) _ (List.mem_cons_self _ _))
    · rcases List.mem_cons.mp h with heq2 | h2
      · rw [heq2]
        exact le_trans (le_max_right x z) (ih (max x z) _ (List.mem_cons_self _ _))
      · exact ih (max x z) y (List.mem_cons_of_mem _ h2)

/-- `listMin` really is Python's `min`: a member below every member. -/
theorem listMin_spec {α : Type} [LinearOrder α] (x : α) (xs : List α) :
    ∃ m, listMin (x :: xs) = some m ∧ m ∈ x :: xs ∧ ∀ y ∈ x :: xs, m ≤ y :=
  ⟨xs.foldl min x, rfl, foldl_min_mem xs x, foldl_min_le xs x⟩

theorem listMax_spec {α : Type} [LinearOrder α] (x : α) (xs : List α) :
    ∃ m, listMax (x :: xs) = some m ∧ m ∈ x :: xs ∧ ∀ y ∈ x :: xs, y ≤ m :=
  ⟨xs.foldl max x, rfl, foldl_max_mem xs x, foldl_max_ge xs x⟩

theorem sorted_getLast?_max {α : Type} [LinearOrder α] :
    ∀ (l : List α), List.Sorted (fun a b : α => a ≤ b) l → l ≠ [] →
      ∃ m, l.getLast? = some m ∧ m ∈ l ∧ ∀ y ∈ l, y ≤ m := by
  intro l
  induction l with
  | nil => intro _ hne; exact absurd rfl hne
  | cons x t ih =>
    intro hs _
    rcases List.sorted_cons.mp hs with ⟨hx, ht⟩
    cases t with
    | nil =>
      refine ⟨x, rfl, List.mem_cons_self _ _, ?_⟩
      intro y hy
      rcases List.mem_cons.mp hy with rfl | h
      · exact le_refl _
      · simp at h
    | cons z zs =>
      obtain ⟨m, hm, hmem, hmax⟩ := ih ht (by simp)
      refine ⟨m, ?_, List.mem_cons_of_mem _ hmem, ?_⟩
      · rw [List.getLast?_cons_cons]
        exact hm
      · intro y hy
        rcases List.mem_cons.mp hy with rfl | h
        · exact le_trans (hx m hmem) (le_refl _)
        · exact hmax y h

/-- The head of the ascending sort is Python's `min` of the list. -/
theorem sortLE_head?_eq_listMin {α : Type} [LinearOrder α] (l : List α) :
    (sortLE l).head? = listMin l := by
  cases l with
  | nil => rfl
  | cons x xs =>
    obtain ⟨m, hm, hmem, hmin⟩ := listMin_spec x xs
    rw [hm]
    have hne : sortLE (x :: xs) ≠ [] := by
      intro hc
      have := (mem_sortLE (x :: xs) x).mpr (List.mem_cons_self _ _)
      rw [hc] at this
      simp at this
    cases hsort : sortLE (x :: xs) with
    | nil => exact absurd hsort hne
    | cons h t =>
      have hhmem : h ∈ x :: xs := by
        rw [← mem_sortLE (x :: xs) h, hsort]
        exact List.mem_cons_self _ _
      have hhle : h ≤ m := by
        have hsorted := sortLE_sorted (x :: xs)
        rw [hsort] at hsorted
        rcases List.sorted_cons.mp hsorted with ⟨hle, _⟩
        have hmmem : m ∈ h :: t := by
          rw [← hsort, mem_sortLE]
          exact hmem
        rcases List.mem_cons.mp hmmem with rfl | hmt
        · exact le_refl _
        · exact hle m hmt
      have hmle : m ≤ h := hmin h hhmem
      rw [List.head?_cons, le_antisymm hhle hmle]

/-- The last element of the ascending sort is Python's `max` of the list. -/
theorem sortLE_getLast?_eq_listMax {α : Type} [LinearOrder α] (l : List α) :
    (sortLE l).getLast? = listMax l := by
  cases l with
  | nil => rfl
  | cons x xs =>
    obtain ⟨m, hm, hmem, hmax⟩ := listMax_spec x xs
    rw [hm]
    have hne : sortLE (x :: xs) ≠ [] := by
      intro hc
      have := (mem_sortLE (x :: xs) x).mpr (List.mem_cons_self _ _)
      rw [hc] at this
      simp at this
    obtain ⟨g, hg, hgmem, hgmax⟩ := sorted_getLast?_max (sortLE (x :: xs))
      (sortLE_sorted (x :: xs)) hne
    rw [hg]
    have hgmem' : g ∈ x :: xs := (mem_sortLE (x :: xs) g).mp hgmem
    have hmem' : m ∈ sortLE (x :: xs) := (mem_sortLE (x :: xs) m).mpr hmem
    rw [le_antisymm (hmax g hgmem') (hgmax m hmem')]

theorem updateMeta_data_sources (md : Metadata D) (days : List (D × DayRecord D)) :
    (Ingester.updateMeta md days).data_sources =
      ["Complete_List_Raw.csv", "UnreadCount.csv"] := rfl

theorem updateMeta_nonempty (md : Metadata D) (days : List (D × DayRecord D))
    (hne : days ≠ []) :
    (Ingester.updateMeta md days).total_days_processed = days.length ∧
    (Ingester.updateMeta md days).earliest_date = listMin (days.map Prod.fst) ∧
    (Ingester.updateMeta md days).latest_date = listMax (days.map Prod.fst) := by
  have hemp : ¬ ((days.map (fun kv => kv.1)).isEmpty = true) := by
    cases days with
    | nil => exact absurd rfl hne
    | cons kv rest => simp
  refine ⟨?_, ?_, ?_⟩
  · simp only [Ingester.updateMeta]
    rw [if_neg hemp]
    simp
  · simp only [Ingester.updateMeta]
    rw [if_neg hemp]
  · simp only [Ingester.updateMeta]
    rw [if_neg hemp]

/-- C7 counterexample: `data_sources` is NOT append-only across ingester
merges — a previously recorded source (`"Other.csv"`) is lost, because
`merge_with_existing` overwrites the field with the constant two-element list
(line 391). -/
theorem C7_sources_lost_counterexample :
    ("Other.csv" ∈ (⟨⟨"", 1, ["Other.csv"], some 1, some 1⟩, []⟩ :
        Database ℕ).metadata.data_sources) ∧
    "Other.csv" ∉ (Ingester.mergeWithExisting (D := ℕ) ⟨8, 17⟩
        ⟨⟨"", 1, ["Other.csv"], some 1, some 1⟩, []⟩ [] [] "t").metadata.data_sources := by
  exact ⟨by decide, by decide⟩

/-- C7 (amended): the CLASSIFIER merge satisfies the claimed metadata
invariants: `data_sources` becomes exactly the union of the old sources and
the new source names (in particular it never loses a recorded source),
`total_days_processed` is the day-key count, and
`earliest_date`/`latest_date` are the min/max of the day keys.  The INGESTER
recomputes count and date range the same way (when the store is nonempty) but
OVERWRITES `data_sources` with the constant
`["Complete_List_Raw.csv", "UnreadCount.csv"]`, losing any other recorded
source (`C7_sources_lost_counterexample`). -/
theorem C7_metadata_invariants (cfg : Ingester.Config) (db db' : Database D)
    (eR : List (EmailRecord D)) (sR : List (SlaRecord D))
    (results : List (EmailRecord D)) (slaDaily : List (Classifier.SlaDailyRow D))
    (slaHourly : D → ℕ → Option Classifier.SlaHourInfo) (newSources : List String)
    (now : String) :
    (∀ s, s ∈ (Classifier.saveToUnifiedJson db' results slaDaily slaHourly
        newSources now).metadata.data_sources ↔
      s ∈ db'.metadata.data_sources ∨ s ∈ newSources) ∧
    (Classifier.saveToUnifiedJson db' results slaDaily slaHourly
        newSources now).metadata.total_days_processed =
      (Classifier.saveToUnifiedJson db' results slaDaily slaHourly
        newSources now).days.length ∧
    (Classifier.saveToUnifiedJson db' results slaDaily slaHourly
        newSources now).metadata.earliest_date =
      listMin ((Classifier.saveToUnifiedJson db' results slaDaily slaHourly
        newSources now).days.map Prod.fst) ∧
    (Classifier.saveToUnifiedJson db' results slaDaily slaHourly
        newSources now).metadata.latest_date =
      listMax ((Classifier.saveToUnifiedJson db' results slaDaily slaHourly
        newSources now).days.map Prod.fst) ∧
    (Ingester.mergeWithExisting cfg db eR sR now).metadata.data_sources =
      ["Complete_List_Raw.csv", "UnreadCount.csv"] ∧
    ((Ingester.mergeWithExisting cfg db eR sR now).days ≠ [] →
      (Ingester.mergeWithExisting cfg db eR sR now).metadata.total_days_processed =
        (Ingester.mergeWithExisting cfg db eR sR now).days.length ∧
      (Ingester.mergeWithExisting cfg db eR sR now).metadata.earliest_date =
        listMin ((Ingester.mergeWithExisting cfg db eR sR now).days.map Prod.fst) ∧
      (Ingester.mergeWithExisting cfg db eR sR now).metadata.latest_date =
        listMax ((Ingester.mergeWithExisting cfg db eR sR now).days.map Prod.fst)) := by
  refine ⟨?_, ?_, ?_, ?_, rfl, ?_⟩
  · intro s
    show s ∈ sortedDedup (db'.metadata.data_sources ++ newSources) ↔ _
    rw [mem_sortedDedup, List.mem_append]
  · rfl
  · show (sortLE ((Classifier.emailPhaseCls (Classifier.slaPhase db'.days slaDaily
      slaHourly) results).map (fun kv => kv.1))).head? = _
    rw [sortLE_head?_eq_listMin]
    rfl
  · show (sortLE ((Classifier.emailPhaseCls (Classifier.slaPhase db'.days slaDaily
      slaHourly) results).map (fun kv => kv.1))).getLast? = _
    rw [sortLE_getLast?_eq_listMax]
    rfl
  · intro hne
    exact updateMeta_nonempty _ _ hne

/-! ## Dashboard hourly period buckets (claim C8)

`DashboardGenerator.calculate_response_time_by_hour` (lines 104-147).  A row
of its `hourly_data` input is an `HourEntry`; `hour_data.get('emails_replied',
0) or 0` is `(emails_replied).getD 0` (both `None` and the absent key give
`0`, and `0 or 0` is `0`). -/

namespace Dashboard

/-- One accumulator entry of the `periods` dict (lines 106-111). -/
structure PeriodAcc where
  hours : List ℕ
  total_time : ℚ
  count : ℕ
  color : String
deriving DecidableEq, Repr

/-- The result rows (lines 141-145). -/
structure PeriodResult where
  period : String
  avg_response_time : ℚ
  color : String
deriving DecidableEq, Repr

/-- The four fixed periods (lines 106-111). -/
def initPeriods : List (String × PeriodAcc) :=
  [("Early Morning (6-9 AM)", ⟨[6, 7, 8], 0, 0, "success"⟩),
   ("Morning (9 AM-1 PM)", ⟨[9, 10, 11, 12], 0, 0, "warning"⟩),
   ("Afternoon (1-5 PM)", ⟨[13, 14, 15, 16], 0, 0, "danger"⟩),
   ("Evening (5-9 PM)", ⟨[17, 18, 19, 20, 21], 0, 0, "warning"⟩)]

/-- The inner `for period_name ... if hour in ...: ...; break` loop (lines
119-123): the FIRST period containing the hour absorbs the contribution. -/
def addToPeriods (h : ℕ) (rt : ℚ) (rc : ℕ) :
    List (String × PeriodAcc) → List (String × PeriodAcc)
  | [] => []
  | (nm, p) :: rest =>
    if h ∈ p.hours then
      (nm, { p with
        total_time := p.total_time + rt * (rc : ℚ)
        count := p.count + rc }) :: rest
    else (nm, p) :: addToPeriods h rt rc rest

/-- The body of the outer row loop (lines 113-123). -/
def stepRow (ps : List (String × PeriodAcc)) (e : HourEntry) :
    List (String × PeriodAcc) :=
  match e.avg_response_time with
  | none => ps
  | some rt =>
    if 0 < e.emails_replied.getD 0 then
      addToPeriods e.hour rt (e.emails_replied.getD 0) ps
    else ps

def accumulate (rows : List HourEntry) : List (String × PeriodAcc) :=
  rows.foldl stepRow initPeriods

/-- The SLA-based coloring of a period with positive weight (lines
131-136). -/
def colorOf (avg : ℚ) : String :=
  if avg ≤ 60 then "success" else if avg ≤ 120 then "warning" else "danger"

/-- `calculate_response_time_by_hour` (lines 104-147): accumulate, then
average and color each period; zero-count periods get `avg_time = 0` and
`color = 'muted'`; every reported average is `round(_, 1)`. -/
def calculateResponseTimeByHour (hourly : List HourEntry) : List PeriodResult :=
  (accumulate hourly).map (fun nmp =>
    if 0 < nmp.2.count then
      { period := nmp.1,
        avg_response_time := round1 (nmp.2.total_time / (nmp.2.count : ℚ)),
        color := colorOf (nmp.2.total_time / (nmp.2.count : ℚ)) }
    else { period := nmp.1, avg_response_time := round1 0, color := "muted" })

/-- SPEC-side weighted numerator: `Σ (avg_response_time_h × emails_replied_h)`
over the rows whose hour lies in the period, with non-null response time and
positive replied count (written from the spec's words, to compare with the
code's accumulator). -/
def periodTime (hours : List ℕ) (rows : List HourEntry) : ℚ :=
  ((rows.filter (fun e => e.hour ∈ hours ∧ ¬ e.avg_response_time = none ∧
      0 < e.emails_replied.getD 0)).map
    (fun e => e.avg_response_time.getD 0 * (e.emails_replied.getD 0 : ℚ))).sum

/-- SPEC-side weight: `Σ emails_replied_h` over the same rows. -/
def periodWeight (hours : List ℕ) (rows : List HourEntry) : ℕ :=
  ((rows.filter (fun e => e.hour ∈ hours ∧ ¬ e.avg_response_time = none ∧
      0 < e.emails_replied.getD 0)).map (fun e => e.emails_replied.getD 0)).sum

theorem periodTime_cons (hours : List ℕ) (e : HourEntry) (rest : List HourEntry) :
    periodTime hours (e :: rest) =
      (if e.hour ∈ hours ∧ ¬ e.avg_response_time = none ∧
          0 < e.emails_replied.getD 0
       then e.avg_response_time.getD 0 * (e.emails_replied.getD 0 : ℚ) else 0) +
      periodTime hours rest := by
  by_cases hp : e.hour ∈ hours ∧ ¬ e.avg_response_time = none ∧
      0 < e.emails_replied.getD 0
  · simp [periodTime, List.filter_cons, hp]
  · simp [periodTime, List.filter_cons, hp]

theorem periodWeight_cons (hours : List ℕ) (e : HourEntry) (rest : List HourEntry) :
    periodWeight hours (e :: rest) =
      (if e.hour ∈ hours ∧ ¬ e.avg_response_time = none ∧
          0 < e.emails_replied.getD 0
       then e.emails_replied.getD 0 else 0) +
      periodWeight hours rest := by
  by_cases hp : e.hour ∈ hours ∧ ¬ e.avg_response_time = none ∧
      0 < e.emails_replied.getD 0
  · simp [periodWeight, List.filter_cons, hp]
  · simp [periodWeight, List.filter_cons, hp]

/-- The accumulator fold computes exactly the spec-side filtered sums, for
each of the four (pairwise disjoint) periods. -/
theorem accumulate_invariant (rows : List HourEntry) :
    ∀ (t1 t2 t3 t4 : ℚ) (c1 c2 c3 c4 : ℕ),
    List.foldl stepRow
      [("Early Morning (6-9 AM)", ⟨[6, 7, 8], t1, c1, "success"⟩),
       ("Morning (9 AM-1 PM)", ⟨[9, 10, 11, 12], t2, c2, "warning"⟩),
       ("Afternoon (1-5 PM)", ⟨[13, 14, 15, 16], t3, c3, "danger"⟩),
       ("Evening (5-9 PM)", ⟨[17, 18, 19, 20, 21], t4, c4, "warning"⟩)] rows =
      [("Early Morning (6-9 AM)", ⟨[6, 7, 8], t1 + periodTime [6, 7, 8] rows,
          c1 + periodWeight [6, 7, 8] rows, "success"⟩),
       ("Morning (9 AM-1 PM)", ⟨[9, 10, 11, 12],
          t2 + periodTime [9, 10, 11, 12] rows,
          c2 + periodWeight [9, 10, 11, 12] rows, "warning"⟩),
       ("Afternoon (1-5 PM)", ⟨[13, 14, 15, 16],
          t3 + periodTime [13, 14, 15, 16] rows,
          c3 + periodWeight [13, 14, 15, 16] rows, "danger"⟩),
       ("Evening (5-9 PM)", ⟨[17, 18, 19, 20, 21],
          t4 + periodTime [17, 18, 19, 20, 21] rows,
          c4 + periodWeight [17, 18, 19, 20, 21] rows, "warning"⟩)] := by
  induction rows with
  | nil =>
    intro t1 t2 t3 t4 c1 c2 c3 c4
    simp [periodTime, periodWeight]
  | cons e rest ih =>
    intro t1 t2 t3 t4 c1 c2 c3 c4
    rw [List.foldl_cons]
    cases hrt : e.avg_response_time with
    | none =>
      simp only [stepRow, hrt]
      rw [ih]
      simp [periodTime_cons, periodWeight_cons, hrt]
    | some rt =>
      simp only [stepRow, hrt]
      by_cases hc : 0 < e.emails_replied.getD 0
      · rw [if_pos hc]
        by_cases h1 : e.hour ∈ ([6, 7, 8] : List ℕ)
        · have hno2 : ¬ e.hour ∈ ([9, 10, 11, 12] : List ℕ) := by
            simp at h1 ⊢
            omega
          have hno3 : ¬ e.hour ∈ ([13, 14, 15, 16] : List ℕ) := by
            simp at h1 ⊢
            omega
          have hno4 : ¬ e.hour ∈ ([17, 18, 19, 20, 21] : List ℕ) := by
            simp at h1 ⊢
            omega
          simp only [addToPeriods, if_pos h1]
          rw [ih]
          simp [periodTime_cons, periodWeight_cons, hrt, hc, h1, hno2, hno3, hno4,
            add_assoc]
        · by_cases h2 : e.hour ∈ ([9, 10, 11, 12] : List ℕ)
          · have hno3 : ¬ e.hour ∈ ([13, 14, 15, 16] : List ℕ) := by
              simp at h2 ⊢
              omega
            have hno4 : ¬ e.hour ∈ ([17, 18, 19, 20, 21] : List ℕ) := by
              simp at h2 ⊢
              omega
            simp only [addToPeriods, if_neg h1, if_pos h2]
            rw [ih]
            simp [periodTime_cons, periodWeight_cons, hrt, hc, h1, h2, hno3, hno4,
              add_assoc]
          · by_cases h3 : e.hour ∈ ([13, 14, 15, 16] : List ℕ)
            · have hno4 : ¬ e.hour ∈ ([17, 18, 19, 20, 21] : List ℕ) := by
                simp at h3 ⊢
                omega
              simp only [addToPeriods, if_neg h1, if_neg h2, if_pos h3]
              rw [ih]
              simp [periodTime_cons, periodWeight_cons, hrt, hc, h1, h2, h3, hno4,
                add_assoc]
            · by_cases h4 : e.hour ∈ ([17, 18, 19, 20, 21] : List ℕ)
              · simp only [addToPeriods, if_neg h1, if_neg h2, if_neg h3, if_pos h4]
                rw [ih]
                simp [periodTime_cons, periodWeight_cons, hrt, hc, h1, h2, h3, h4,
                  add_assoc]
              · simp only [addToPeriods, if_neg h1, if_neg h2, if_neg h3, if_neg h4]
                rw [ih]
                simp [periodTime_cons, periodWeight_cons, hrt, hc, h1, h2, h3, h4]
      · rw [if_neg hc]
        rw [ih]
        simp [periodTime_cons, periodWeight_cons, hrt, hc]

end Dashboard

/-- C8 counterexample: a period whose total weight is zero does NOT report
"no data" — it reports the numeric value `0` (with color `'muted'`): on an
empty hourly list all four periods come back with `avg_response_time = 0`. -/
theorem C8_zero_weight_counterexample :
    Dashboard.calculateResponseTimeByHour [] =
      [⟨"Early Morning (6-9 AM)", 0, "muted"⟩,
       ⟨"Morning (9 AM-1 PM)", 0, "muted"⟩,
       ⟨"Afternoon (1-5 PM)", 0, "muted"⟩,
       ⟨"Evening (5-9 PM)", 0, "muted"⟩] := by
  norm_num [Dashboard.calculateResponseTimeByHour, Dashboard.accumulate,
    Dashboard.initPeriods, round1]

/-- C8 (amended): for every period bucket the reported average is the
1-decimal ROUNDING of the volume-weighted mean
`Σ(avg_response_time_h × emails_replied_h) / Σ(emails_replied_h)` over the
period's hours with non-null response time and positive replied count; a
period with zero total weight reports the NUMERIC value `0` with color
`'muted'` (the "no data" signal is only the color — see
`C8_zero_weight_counterexample`). -/
theorem C8_weighted_period_averages (hourly : List HourEntry) :
    Dashboard.calculateResponseTimeByHour hourly =
      [(if 0 < Dashboard.periodWeight [6, 7, 8] hourly then
          ⟨"Early Morning (6-9 AM)",
            round1 (Dashboard.periodTime [6, 7, 8] hourly /
              (Dashboard.periodWeight [6, 7, 8] hourly : ℚ)),
            Dashboard.colorOf (Dashboard.periodTime [6, 7, 8] hourly /
              (Dashboard.periodWeight [6, 7, 8] hourly : ℚ))⟩
        else ⟨"Early Morning (6-9 AM)", 0, "muted"⟩),
       (if 0 < Dashboard.periodWeight [9, 10, 11, 12] hourly then
          ⟨"Morning (9 AM-1 PM)",
            round1 (Dashboard.periodTime [9, 10, 11, 12] hourly /
              (Dashboard.periodWeight [9, 10, 11, 12] hourly : ℚ)),
            Dashboard.colorOf (Dashboard.periodTime [9, 10, 11, 12] hourly /
              (Dashboard.periodWeight [9, 10, 11, 12] hourly : ℚ))⟩
        else ⟨"Morning (9 AM-1 PM)", 0, "muted"⟩),
       (if 0 < Dashboard.periodWeight [13, 14, 15, 16] hourly then
          ⟨"Afternoon (1-5 PM)",
            round1 (Dashboard.periodTime [13, 14, 15, 16] hourly /
              (Dashboard.periodWeight [13, 14, 15, 16] hourly : ℚ)),
            Dashboard.colorOf (Dashboard.periodTime [13, 14, 15, 16] hourly /
              (Dashboard.periodWeight [13, 14, 15, 16] hourly : ℚ))⟩
        else ⟨"Afternoon (1-5 PM)", 0, "muted"⟩),
       (if 0 < Dashboard.periodWeight [17, 18, 19, 20, 21] hourly then
          ⟨"Evening (5-9 PM)",
            round1 (Dashboard.periodTime [17, 18, 19, 20, 21] hourly /
              (Dashboard.periodWeight [17, 18, 19, 20, 21] hourly : ℚ)),
            Dashboard.colorOf (Dashboard.periodTime [17, 18, 19, 20, 21] hourly /
              (Dashboard.periodWeight [17, 18, 19, 20, 21] hourly : ℚ))⟩
        else ⟨"Evening (5-9 PM)", 0, "muted"⟩)] := by
  have hacc := Dashboard.accumulate_invariant hourly 0 0 0 0 0 0 0 0
  simp only [zero_add] at hacc
  have hr0 : round1 0 = 0 := by norm_num [round1]
  show (Dashboard.accumulate hourly).map _ = _
  rw [show Dashboard.accumulate hourly = _ from hacc]
  simp only [List.map_cons, List.map_nil, hr0]

/-! ## Dashboard response-time percentiles (claim C9)

`DashboardGenerator.calculate_response_time_percentiles` (lines 194-281),
restricted to the parts the claim speaks about: the expanded observation
list, `has_data`, and the reported P50 (the other percentiles, colors, bar
widths and quartile counts are not modelled). -/

namespace Percentiles

/-- The expansion loop (lines 196-204): each row's average response time
repeated `emails_replied` times. -/
def expandedObs (hourly : List HourEntry) : List ℚ :=
  hourly.foldl (fun acc e =>
    match e.avg_response_time with
    | none => acc
    | some rt =>
      if 0 < e.emails_replied.getD 0 then
        acc ++ List.replicate (e.emails_replied.getD 0) rt
      else acc) []

structure P50Result where
  has_data : Bool
  p50 : ℚ
deriving DecidableEq, Repr

/-- Lines 206-218 (empty → `has_data` False, P50 value 0) and lines 226-227,
251 (P50 = `statistics.median` of the observations, rounded to 1 decimal). -/
def calculateResponseTimePercentiles (hourly : List HourEntry) : P50Result :=
  let obs := expandedObs hourly
  if obs.isEmpty then ⟨false, 0⟩
  else ⟨true, round1 (medianQ obs)⟩

end Percentiles

/-- One-decimal rounding is exact on exact tenths. -/
theorem round1_int_div_ten (k : ℤ) : round1 ((k : ℚ) / 10) = (k : ℚ) / 10 := by
  unfold round1
  rw [div_mul_cancel₀ _ (by norm_num : (10 : ℚ) ≠ 0), round_intCast]

/-- C9 counterexample: the reported P50 is the ROUNDED median, not the exact
statistical median: one hour with average response time `0.26` minutes and one
reply yields median `0.26` but reported P50 `0.3`. -/
theorem C9_p50_rounded_counterexample :
    (Percentiles.calculateResponseTimePercentiles
        [⟨9, none, none, none, some 1, some (13 / 50)⟩]).p50 = 3 / 10 ∧
    medianQ [(13 / 50 : ℚ)] = 13 / 50 ∧ ¬ ((3 / 10 : ℚ) = 13 / 50) := by
  refine ⟨?_, ?_, by norm_num⟩
  · norm_num [Percentiles.calculateResponseTimePercentiles, Percentiles.expandedObs,
      medianQ, sortLE, insertLE, round1, round_eq]
  · norm_num [medianQ, sortLE, insertLE]

/-- C9 (amended): on an empty expanded observation list the function returns
`has_data = false` (and P50 value 0) without dividing by anything; otherwise
the reported P50 is `round(median, 1)` — the 1-decimal ROUNDING of the exact
statistical median of the expanded list, hence equal to the exact median
exactly when the median is a whole number of tenths
(`C9_p50_rounded_counterexample` shows a median it does not equal).  The
spec's own example is exact: observations `[10, 20, 30, 40, 50]` give
P50 = 30. -/
theorem C9_p50_properties (hourly : List HourEntry) :
    ((Percentiles.expandedObs hourly).isEmpty = true →
      Percentiles.calculateResponseTimePercentiles hourly = ⟨false, 0⟩) ∧
    (¬ (Percentiles.expandedObs hourly).isEmpty = true →
      Percentiles.calculateResponseTimePercentiles hourly =
        ⟨true, round1 (medianQ (Percentiles.expandedObs hourly))⟩) ∧
    (∀ k : ℤ, medianQ (Percentiles.expandedObs hourly) = (k : ℚ) / 10 →
      ¬ (Percentiles.expandedObs hourly).isEmpty = true →
      (Percentiles.calculateResponseTimePercentiles hourly).p50 =
        medianQ (Percentiles.expandedObs hourly)) ∧
    Percentiles.calculateResponseTimePercentiles
        [⟨8, none, none, none, some 1, some 10⟩,
         ⟨9, none, none, none, some 1, some 20⟩,
         ⟨10, none, none, none, some 1, some 30⟩,
         ⟨11, none, none, none, some 1, some 40⟩,
         ⟨12, none, none, none, some 1, some 50⟩] = ⟨true, 30⟩ := by
  refine ⟨?_, ?_, ?_, ?_⟩
  · intro hemp
    simp only [Percentiles.calculateResponseTimePercentiles]
    rw [if_pos hemp]
  · intro hemp
    simp only [Percentiles.calculateResponseTimePercentiles]
    rw [if_neg hemp]
  · intro k hk hemp
    simp only [Percentiles.calculateResponseTimePercentiles]
    rw [if_neg hemp]
    show round1 (medianQ (Percentiles.expandedObs hourly)) = _
    rw [hk, round1_int_div_ten]
  · norm_num [Percentiles.calculateResponseTimePercentiles, Percentiles.expandedObs,
      medianQ, sortLE, insertLE, round1, round_eq]

/-- C10: A merge never removes previously stored days: for every existing
database and every input batch, every date key present in the existing
database's `days` is still present after the merge — for both merge
implementations (`IntelligentIngester.merge_with_existing` and
`EmailClassifier.save_to_unified_json`). -/
theorem C10_merge_preserves_day_keys
    (cfg : Ingester.Config) (db : Database D) (emailRows : List (EmailRecord D))
    (slaRows : List (SlaRecord D)) (results : List (EmailRecord D))
    (slaDaily : List (Classifier.SlaDailyRow D))
    (slaHourly : D → ℕ → Option Classifier.SlaHourInfo) (newSources : List String)
    (now : String) (k : D) (hk : k ∈ db.days.map Prod.fst) :
    k ∈ (Ingester.mergeWithExisting cfg db emailRows slaRows now).days.map Prod.fst ∧
    k ∈ (Classifier.saveToUnifiedJson db results slaDaily slaHourly newSources
          now).days.map Prod.fst := by
  constructor
  · show k ∈ (Ingester.sortPhase _).map Prod.fst
    rw [map_fst_sortPhase]
    exact mem_keys_slaPhase cfg _ slaRows k (mem_keys_emailPhase db.days emailRows k hk)
  · exact mem_keys_emailPhaseCls _ results k
      (mem_keys_slaPhaseCls db.days slaDaily slaHourly k hk)

/-- Witness for C10 at a concrete store: a database holding day `0` keeps that
day across a merge of a nonempty batch. -/
theorem C10_merge_preserves_day_keys_witness :
    (0 : ℕ) ∈ (Database.mk
        ⟨"t0", 1, [], some 0, some 0⟩
        [(0, ⟨0, false, false, {}, []⟩)]).days.map Prod.fst ∧
      ((0 : ℕ) ∈ (Ingester.mergeWithExisting ⟨7, 21⟩
          (Database.mk ⟨"t0", 1, [], some 0, some 0⟩ [(0, ⟨0, false, false, {}, []⟩)])
          [] [⟨1, 8, 35, false⟩] "t1").days.map Prod.fst ∧
        (0 : ℕ) ∈ (Classifier.saveToUnifiedJson
          (Database.mk ⟨"t0", 1, [], some 0, some 0⟩ [(0, ⟨0, false, false, {}, []⟩)])
          [] [] (fun _ _ => none) ["UnreadCount.csv"] "t1").days.map Prod.fst) := by
  refine ⟨by simp, ?_⟩
  exact C10_merge_preserves_day_keys ⟨7, 21⟩
    (Database.mk ⟨"t0", 1, [], some 0, some 0⟩ [(0, ⟨0, false, false, {}, []⟩)])
    [] [⟨1, 8, 35, false⟩] [] [] (fun _ _ => none) ["UnreadCount.csv"] "t1" 0 (by simp)

end EmailProject
